import Mathlib

/-!
Verification of the cancellable timer (`Timer<T, N0, N, L>` of `src/lib.rs`).

The repository itself contains only the orchestrator `Timer`; the three
cooperating structures it is built on (`pi_slot_wheel::Wheel`,
`pi_ext_heap::ExtHeap`, `pi_slot_deque::Slot`) are external crates whose
sources are not part of the repository.  Those three components are therefore
modelled from the specification (sections 4.1 to 4.3): the arena is a
stable-key association list, the heap is an array-backed binary min-heap with
a relocation callback invoked on every move, and the wheel is a calendar of
`N0 + N * L` one-tick buckets whose entries become ready exactly at their
scheduled tick and which reports a full wrap every `max_time` rolls.  The
`Timer` operations themselves are translated statement by statement from
`src/lib.rs`.
-/

set_option autoImplicit false

namespace PiCancelTimer

/- Timer keys (`TimerKey` of the slotmap) are modelled as plain naturals:
`0` plays the role of `TimerKey::null()`; real keys are positive. -/

/-- Heap entries: the `Reverse<(usize, TimerKey)>` pairs `(tick, key)` stored
in the overflow heap, compared so that the smallest tick is on top. -/
abbrev HE := Nat × Nat

/-- The payload record stored in the arena: `TimeoutItem<T>` with its
`timeout`, element and `index` (the location tag). -/
structure TimeoutItem (T : Type) where
  timeout : Nat
  el : T
  index : Nat
deriving DecidableEq

/-- An arena node: `LinkedNode<TimeoutItem<T>, TimerKey>` with the payload and
the intrusive `prev`/`next` keys. -/
structure LinkedNode (T : Type) where
  el : TimeoutItem T
  prev : Nat
  next : Nat
deriving DecidableEq

/-- Modelled from the spec (section 4.1): the slot arena of `pi_slot_deque`,
a stable-key store.  `nextKey` is the next fresh key (starting at 1, since 0
is the null key); `entries` is the association list of live nodes. -/
structure Slot (T : Type) where
  nextKey : Nat
  entries : List (Nat × LinkedNode T)
deriving DecidableEq

namespace Slot

variable {T : Type}

/-- Modelled from the spec (section 4.1): look up a live key. -/
def get? (s : Slot T) (k : Nat) : Option (LinkedNode T) :=
  (s.entries.find? (fun p => p.1 == k)).map Prod.snd

/-- Modelled from the spec (section 4.1): `insert` allocates a fresh stable
key for the node and returns it. -/
def insert (s : Slot T) (n : LinkedNode T) : Nat × Slot T :=
  (s.nextKey, ⟨s.nextKey + 1, (s.nextKey, n) :: s.entries⟩)

/-- Modelled from the spec (section 4.1): `remove` deletes and returns the
node if the key is currently live, else reports absence. -/
def remove (s : Slot T) (k : Nat) : Option (LinkedNode T) × Slot T :=
  match s.get? k with
  | some n => (some n, ⟨s.nextKey, s.entries.filter (fun p => p.1 != k)⟩)
  | none => (none, s)

/-- Modelled from the spec (section 4.1): mutate the node behind a live key
(the model of `get_unchecked_mut`; a dead key leaves the arena unchanged). -/
def modify (s : Slot T) (k : Nat) (f : LinkedNode T → LinkedNode T) : Slot T :=
  ⟨s.nextKey, s.entries.map (fun p => if p.1 == k then (p.1, f p.2) else p)⟩

end Slot

/-- The order on heap entries: `Reverse<(usize, TimerKey)>` in a max-heap is
the lexicographic order on `(tick, key)` in a min-heap. -/
def eLe (a b : HE) : Bool :=
  decide (a.1 < b.1 ∨ (a.1 = b.1 ∧ a.2 ≤ b.2))

/-- Swap two positions of the heap array. -/
def swapL (l : List HE) (i j : Nat) : List HE :=
  (l.set i (l.getD j (0, 0))).set j (l.getD i (0, 0))

/-- The type of the relocation callback the heap receives
(`fn(&mut Slot, &mut [Reverse<(usize, TimerKey)>], usize)`). -/
def Cb (T : Type) := Slot T → List HE → Nat → Slot T

namespace ExtHeap

variable {T : Type}

/-- Index of the parent of heap position `i`. -/
def par (i : Nat) : Nat := (i - 1) / 2

/-- Modelled from the spec (section 4.3): sift a heap entry up towards the
root, invoking the relocation callback on both ends of every swap. -/
def siftUp (cb : Cb T) (slot : Slot T) (arr : List HE) (i : Nat) :
    Slot T × List HE :=
  if 0 < i then
    if eLe (arr.getD (par i) (0, 0)) (arr.getD i (0, 0)) then (slot, arr)
    else
      let arr1 := swapL arr (par i) i
      let slot1 := cb (cb slot arr1 (par i)) arr1 i
      siftUp cb slot1 arr1 (par i)
  else (slot, arr)
termination_by i
decreasing_by
  exact Nat.lt_of_le_of_lt (Nat.div_le_self _ _) (by omega)

/-- The smaller child of position `i` (or `i` itself when it has none). -/
def minChild (arr : List HE) (i : Nat) : Nat :=
  if 2 * i + 2 < arr.length then
    if eLe (arr.getD (2 * i + 1) (0, 0)) (arr.getD (2 * i + 2) (0, 0)) then
      2 * i + 1
    else 2 * i + 2
  else 2 * i + 1

/-- Modelled from the spec (section 4.3): sift a heap entry down, invoking
the relocation callback on both ends of every swap. -/
def siftDown (cb : Cb T) (slot : Slot T) (arr : List HE) (i : Nat) :
    Slot T × List HE :=
  if 2 * i + 1 < arr.length then
    if eLe (arr.getD i (0, 0)) (arr.getD (minChild arr i) (0, 0)) then
      (slot, arr)
    else
      let arr1 := swapL arr i (minChild arr i)
      let slot1 := cb (cb slot arr1 i) arr1 (minChild arr i)
      siftDown cb slot1 arr1 (minChild arr i)
  else (slot, arr)
termination_by arr.length - i
decreasing_by
  simp only [swapL, List.length_set]
  have h1 : i < minChild arr i := by
    unfold minChild; split
    · split <;> omega
    · omega
  have h2 : minChild arr i < arr.length := by
    unfold minChild; split
    · split <;> omega
    · omega
  omega

/-- Modelled from the spec (section 4.3): `ExtHeap::push` appends the entry
and sifts it up; the callback is invoked on the appended position and on
every later move. -/
def push (cb : Cb T) (slot : Slot T) (arr : List HE) (x : HE) :
    Slot T × List HE :=
  let arr1 := arr ++ [x]
  let slot1 := cb slot arr1 arr.length
  siftUp cb slot1 arr1 arr.length

/-- Modelled from the spec (section 4.3): `ExtHeap::pop` removes and returns
the minimum, moving the last element to the root and sifting it down. -/
def pop (cb : Cb T) (slot : Slot T) (arr : List HE) :
    Option HE × Slot T × List HE :=
  match arr with
  | [] => (none, slot, [])
  | [x] => (some x, slot, [])
  | x :: _ :: _ =>
    let last := arr.getD (arr.length - 1) (0, 0)
    let arr1 := arr.dropLast.set 0 last
    let slot1 := cb slot arr1 0
    let sa := siftDown cb slot1 arr1 0
    (some x, sa.1, sa.2)

/-- Modelled from the spec (section 4.3): `ExtHeap::remove` removes an
arbitrary position: swap with the last element, then sift the moved element
up or down as needed; if the position was the last element no sift is
needed. -/
def remove (cb : Cb T) (slot : Slot T) (arr : List HE) (pos : Nat) :
    Option HE × Slot T × List HE :=
  if pos < arr.length then
    if pos = arr.length - 1 then (some (arr.getD pos (0, 0)), slot, arr.dropLast)
    else
      let x := arr.getD pos (0, 0)
      let last := arr.getD (arr.length - 1) (0, 0)
      let arr1 := arr.dropLast.set pos last
      let slot1 := cb slot arr1 pos
      if pos = 0 || eLe (arr1.getD (par pos) (0, 0)) (arr1.getD pos (0, 0)) then
        let sa := siftDown cb slot1 arr1 pos
        (some x, sa.1, sa.2)
      else
        let sa := siftUp cb slot1 arr1 pos
        (some x, sa.1, sa.2)
  else (none, slot, arr)

/-- Modelled from the spec (section 4.3): `ExtHeap::peek` reads the minimum
without removing it. -/
def peek (arr : List HE) : Option HE := arr.head?

@[simp] theorem swapL_length (l : List HE) (i j : Nat) :
    (swapL l i j).length = l.length := by
  simp [swapL]

theorem siftUp_length (cb : Cb T) (slot : Slot T) (arr : List HE) (i : Nat) :
    (siftUp cb slot arr i).2.length = arr.length := by
  induction slot, arr, i using siftUp.induct cb with
  | case1 slot arr i h1 h2 => rw [siftUp, if_pos h1, if_pos h2]
  | case2 slot arr i h1 h2 arr1 slot1 ih =>
    rw [siftUp, if_pos h1, if_neg h2]
    exact ih.trans (by simp [arr1, swapL])
  | case3 slot arr i h1 => rw [siftUp, if_neg h1]

theorem siftDown_length (cb : Cb T) (slot : Slot T) (arr : List HE) (i : Nat) :
    (siftDown cb slot arr i).2.length = arr.length := by
  induction slot, arr, i using siftDown.induct cb with
  | case1 slot arr i h1 h2 => rw [siftDown, if_pos h1, if_pos h2]
  | case2 slot arr i h1 h2 arr1 slot1 ih =>
    rw [siftDown, if_pos h1, if_neg h2]
    exact ih.trans (by simp [arr1, swapL])
  | case3 slot arr i h1 => rw [siftDown, if_neg h1]

theorem pop_length (cb : Cb T) (slot : Slot T) (arr : List HE) :
    (pop cb slot arr).2.2.length = arr.length - 1 := by
  match arr with
  | [] => rfl
  | [x] => rfl
  | x :: y :: t =>
    simp only [pop]
    rw [siftDown_length]
    simp

end ExtHeap

/-- `max_time()` of the wheel: `N0 + N * L`, the number of ticks the wheel
can represent (spec section 4.2). -/
def max_time (N0 N L : Nat) : Nat := N0 + N * L

/-- Modelled from the spec (section 4.2): the state of the timing wheel.
`time` counts the rolls performed since creation; the bucket the clock
currently points at is `time % max_time`.  The hierarchical levels are
flattened into one calendar of `N0 + N * L` one-tick buckets, which realises
the contract of section 4.2: an entry pushed with `timeout < max_time`
becomes ready exactly `timeout` rolls later, and each bucket index is a
number below `N0 + N * L` (the location-tag address space). -/
structure Wheel where
  time : Nat
  buckets : Nat → List Nat

namespace Wheel

variable (N0 N L : Nat) {T : Type}

/-- The bucket index the clock currently points at. -/
def position (w : Wheel) : Nat := w.time % max_time N0 N L

/-- Replace one bucket of the wheel. -/
def setBucket (w : Wheel) (b : Nat) (l : List Nat) : Wheel :=
  { w with buckets := fun i => if i = b then l else w.buckets i }

/-- Result of `Wheel::push`: `Ok(key)` or `Overflow(timeout, el)` (spec
section 4.2). -/
inductive PushResult (T : Type) where
  | ok (key : Nat) (slot : Slot T) (w : Wheel)
  | overflow (tick : Nat) (el : T)

/-- Modelled from the spec (section 4.2): `Wheel::push` places a timeout
below `max_time` into the bucket due exactly `timeout` ticks from now,
allocating the arena node (with its location tag set to that bucket); a
larger timeout is handed back as `Overflow` carrying the fire tick on the
wheel's own clock, `position + timeout` (the absolute time of the comment in
`Timer::push`: the wheel's position wraps every epoch, so this tick is
relative to the current epoch's origin, which is what the rebasing in
`Timer::roll` subtracts `max_time` from). -/
def push (w : Wheel) (timeout : Nat) (el : T) (slot : Slot T) : PushResult T :=
  if timeout < max_time N0 N L then
    let b := (position N0 N L w + timeout) % max_time N0 N L
    let ks := slot.insert ⟨⟨timeout, el, b⟩, 0, 0⟩
    .ok ks.1 ks.2 (setBucket w b (w.buckets b ++ [ks.1]))
  else .overflow (position N0 N L w + timeout) el

/-- Modelled from the spec (section 4.2): `Wheel::push_key` re-inserts an
existing arena node into the bucket for `timeout`, first letting the
`retimeout` callback write the corrected relative timeout into the node, and
updating the node's location tag to the new bucket. -/
def push_key (w : Wheel) (k : Nat) (slot : Slot T) (timeout : Nat)
    (cb : Nat → TimeoutItem T → TimeoutItem T) : Wheel × Slot T :=
  let b := (position N0 N L w + timeout) % max_time N0 N L
  (setBucket w b (w.buckets b ++ [k]),
    slot.modify k (fun n => { n with el := { cb timeout n.el with index := b } }))

/-- Modelled from the spec (section 4.2): `Wheel::pop_kv` removes and
returns one ready entry (key and item) from the current bucket, deleting its
node from the arena; `none` if the current bucket is empty.  It does not
advance the clock. -/
def pop_kv (w : Wheel) (slot : Slot T) :
    Option (Nat × TimeoutItem T) × Wheel × Slot T :=
  match w.buckets (position N0 N L w) with
  | [] => (none, w, slot)
  | k :: rest =>
    match slot.get? k with
    | some n =>
      (some (k, n.el), setBucket w (position N0 N L w) rest, (slot.remove k).2)
    | none => (none, w, slot)

/-- Modelled from the spec (section 4.2): `Wheel::pop` is `pop_kv` without
the key. -/
def pop (w : Wheel) (slot : Slot T) : Option (TimeoutItem T) × Wheel × Slot T :=
  match pop_kv N0 N L w slot with
  | (some kn, w1, slot1) => (some kn.2, w1, slot1)
  | (none, w1, slot1) => (none, w1, slot1)

/-- Modelled from the spec (section 4.2): `Wheel::is_cur_over` is true iff
the current bucket has been exhausted. -/
def is_cur_over (w : Wheel) : Bool :=
  (w.buckets (position N0 N L w)).isEmpty

/-- Modelled from the spec (section 4.2): `Wheel::roll` advances the clock
by one tick and reports whether a full epoch of `max_time` ticks has just
elapsed (the topmost level wrapped). -/
def roll (w : Wheel) : Wheel × Bool :=
  ({ w with time := w.time + 1 }, decide ((w.time + 1) % max_time N0 N L = 0))

/-- Modelled from the spec (sections 3 and 4.2): `get_slot_mut(index).repair
(prev, next, slot)` unlinks a node from its bucket's intrusive list given its
neighbour links; on the list of keys this removes the key being cancelled
from the bucket. -/
def repair (w : Wheel) (b : Nat) (k : Nat) : Wheel :=
  setBucket w b ((w.buckets b).erase k)

end Wheel

section SrcCallbacks

variable {T : Type}

/-- The function `retimeout` of `src/lib.rs`: write the corrected timeout
into the item. -/
def retimeout (timeout : Nat) (it : TimeoutItem T) : TimeoutItem T :=
  { it with timeout := timeout }

/-- The function `set_index` of `src/lib.rs`: after the heap moved the entry
now at position `loc`, rewrite that entry's node location tag to
`N0 + N * L + loc` (a dead key or an out-of-range position leaves the arena
unchanged; `src/lib.rs` reaches neither). -/
def set_index (N0 N L : Nat) (slot : Slot T) (arr : List HE) (loc : Nat) :
    Slot T :=
  match arr.get? loc with
  | some e =>
    slot.modify e.2 (fun n => { n with el.index := N0 + N * L + loc })
  | none => slot

end SrcCallbacks

section OrderLemmas

theorem eLe_iff (a b : HE) :
    eLe a b = true ↔ (a.1 < b.1 ∨ (a.1 = b.1 ∧ a.2 ≤ b.2)) := by
  simp [eLe]

theorem eLe_refl (a : HE) : eLe a a = true := by
  simp [eLe]

theorem eLe_trans {a b c : HE} (h1 : eLe a b = true) (h2 : eLe b c = true) :
    eLe a c = true := by
  rw [eLe_iff] at h1 h2 ⊢
  omega

theorem eLe_of_not_eLe {a b : HE} (h : ¬ eLe a b = true) : eLe b a = true := by
  rw [eLe_iff] at h ⊢
  omega

theorem eLe_tick {a b : HE} (h : eLe a b = true) : a.1 ≤ b.1 := by
  rw [eLe_iff] at h
  omega

end OrderLemmas

section ListLemmas

theorem getD_eq_getElem {l : List HE} {i : Nat} (h : i < l.length) :
    l.getD i (0, 0) = l[i] := by
  simp [List.getD_eq_getElem?_getD, List.getElem?_eq_getElem h]

theorem getD_set_self {l : List HE} {i : Nat} {x : HE} (h : i < l.length) :
    (l.set i x).getD i (0, 0) = x := by
  simp [List.getD_eq_getElem?_getD, List.getElem?_set, h]

theorem getD_set_ne {l : List HE} {i j : Nat} {x : HE} (h : i ≠ j) :
    (l.set i x).getD j (0, 0) = l.getD j (0, 0) := by
  simp [List.getD_eq_getElem?_getD, List.getElem?_set, h]

theorem getD_swapL_left {l : List HE} {i j : Nat} (hi : i < l.length) :
    (swapL l i j).getD i (0, 0) = l.getD j (0, 0) := by
  unfold swapL
  rcases eq_or_ne j i with h | h
  · subst h
    rw [getD_set_self (by simpa using hi)]
  · rw [getD_set_ne h, getD_set_self hi]

theorem getD_swapL_right {l : List HE} {i j : Nat} (hj : j < l.length) :
    (swapL l i j).getD j (0, 0) = l.getD i (0, 0) := by
  unfold swapL
  exact getD_set_self (by simpa using hj)

theorem getD_swapL_other {l : List HE} {i j k : Nat} (hik : i ≠ k)
    (hjk : j ≠ k) : (swapL l i j).getD k (0, 0) = l.getD k (0, 0) := by
  unfold swapL
  rw [getD_set_ne hjk, getD_set_ne hik]

theorem head_set_perm {α : Type} :
    ∀ (t : List α) (m : Nat) (x : α) (hm : m < t.length),
      (t[m] :: t.set m x).Perm (x :: t) := by
  intro t
  induction t with
  | nil => intro m x hm; simp at hm
  | cons y t2 ih =>
    intro m x hm
    cases m with
    | zero =>
      simpa using List.Perm.swap x y t2
    | succ m =>
      have hm2 : m < t2.length := by simpa using hm
      have h1 := ih m x hm2
      simp only [List.getElem_cons_succ, List.set_cons_succ]
      exact (List.Perm.swap _ _ _).trans ((h1.cons y).trans (List.Perm.swap _ _ _))

theorem swapL_perm {l : List HE} {i j : Nat} (hi : i < l.length)
    (hj : j < l.length) : (swapL l i j).Perm l := by
  induction l generalizing i j with
  | nil => simp at hi
  | cons a t ih =>
    cases i with
    | zero =>
      cases j with
      | zero =>
        simp [swapL]
      | succ m =>
        have hm : m < t.length := by simpa using hj
        have he : swapL (a :: t) 0 (m + 1) = t[m] :: t.set m a := by
          simp [swapL, List.getD_eq_getElem?_getD, List.getElem?_eq_getElem hm]
        rw [he]
        exact head_set_perm t m a hm
    | succ n =>
      cases j with
      | zero =>
        have hn : n < t.length := by simpa using hi
        have he : swapL (a :: t) (n + 1) 0 = t[n] :: t.set n a := by
          simp [swapL, List.getD_eq_getElem?_getD, List.getElem?_eq_getElem hn]
        rw [he]
        exact head_set_perm t n a hn
      | succ m =>
        have he : swapL (a :: t) (n + 1) (m + 1) = a :: swapL t n m := by
          simp [swapL]
        rw [he]
        exact (ih (by simpa using hi) (by simpa using hj)).cons a

end ListLemmas

section AListLemmas

variable {T : Type}

theorem find_modify_self (t : List (Nat × LinkedNode T)) (k : Nat)
    (f : LinkedNode T → LinkedNode T) :
    (t.map (fun p => if p.1 == k then (p.1, f p.2) else p)).find?
        (fun p => p.1 == k)
      = (t.find? (fun p => p.1 == k)).map (fun p => (p.1, f p.2)) := by
  induction t with
  | nil => rfl
  | cons p tl ih =>
    simp only [List.map_cons]
    by_cases h : p.1 = k
    · rw [if_pos (by simpa using h)]
      rw [List.find?_cons_of_pos _ (by simpa using h),
        List.find?_cons_of_pos _ (by simpa using h)]
      rfl
    · rw [if_neg (by simpa using h)]
      rw [List.find?_cons_of_neg _ (by simpa using h),
        List.find?_cons_of_neg _ (by simpa using h)]
      exact ih

theorem find_modify_ne (t : List (Nat × LinkedNode T)) {k k' : Nat}
    (f : LinkedNode T → LinkedNode T) (h : k' ≠ k) :
    (t.map (fun p => if p.1 == k then (p.1, f p.2) else p)).find?
        (fun p => p.1 == k')
      = t.find? (fun p => p.1 == k') := by
  induction t with
  | nil => rfl
  | cons p tl ih =>
    simp only [List.map_cons]
    by_cases hpk' : p.1 = k'
    · have hpk : ¬ p.1 = k := by rw [hpk']; exact h
      rw [if_neg (by simpa using hpk)]
      rw [List.find?_cons_of_pos _ (by simpa using hpk'),
        List.find?_cons_of_pos _ (by simpa using hpk')]
    · rw [List.find?_cons_of_neg _ (by split <;> simpa using hpk'),
        List.find?_cons_of_neg _ (by simpa using hpk')]
      exact ih

theorem find_filter_self (t : List (Nat × LinkedNode T)) (k : Nat) :
    (t.filter (fun p => p.1 != k)).find? (fun p => p.1 == k) = none := by
  apply List.find?_eq_none.2
  intro x hx
  have := List.of_mem_filter hx
  simpa using this

theorem find_filter_ne (t : List (Nat × LinkedNode T)) {k k' : Nat}
    (h : k' ≠ k) :
    (t.filter (fun p => p.1 != k)).find? (fun p => p.1 == k')
      = t.find? (fun p => p.1 == k') := by
  induction t with
  | nil => rfl
  | cons p tl ih =>
    by_cases hpk : p.1 = k
    · rw [List.filter_cons_of_neg (by simpa using hpk)]
      rw [List.find?_cons_of_neg _ (by
        simp only [beq_iff_eq, hpk]
        exact fun hh => h hh.symm)]
      exact ih
    · rw [List.filter_cons_of_pos (by simpa using hpk)]
      by_cases hpk' : p.1 = k'
      · rw [List.find?_cons_of_pos _ (by simpa using hpk'),
          List.find?_cons_of_pos _ (by simpa using hpk')]
      · rw [List.find?_cons_of_neg _ (by simpa using hpk'),
          List.find?_cons_of_neg _ (by simpa using hpk')]
        exact ih

theorem filter_keys_comm (t : List (Nat × LinkedNode T)) (k : Nat) :
    (t.filter (fun p => p.1 != k)).map Prod.fst
      = (t.map Prod.fst).filter (fun x => x != k) := by
  induction t with
  | nil => rfl
  | cons p tl ih =>
    by_cases h : p.1 = k
    · rw [List.filter_cons_of_neg (by simpa using h), List.map_cons,
        List.filter_cons_of_neg (by simpa using h)]
      exact ih
    · rw [List.filter_cons_of_pos (by simpa using h), List.map_cons,
        List.map_cons, List.filter_cons_of_pos (by simpa using h)]
      rw [ih]

theorem filter_length_of_mem_nodup (t : List (Nat × LinkedNode T)) {k : Nat}
    (hnd : (t.map Prod.fst).Nodup) (hmem : k ∈ t.map Prod.fst) :
    (t.filter (fun p => p.1 != k)).length + 1 = t.length := by
  induction t with
  | nil => simp at hmem
  | cons p tl ih =>
    simp only [List.map_cons, List.nodup_cons] at hnd
    simp only [List.map_cons] at hmem
    rcases List.mem_cons.1 hmem with h1 | h1
    · rw [List.filter_cons_of_neg (by simp [h1])]
      rw [List.filter_eq_self.2]
      · simp
      · intro x hx
        have hx1 : x.1 ≠ k := by
          intro hxk
          apply hnd.1
          rw [← h1, ← hxk]
          exact List.mem_map_of_mem Prod.fst hx
        simpa using hx1
    · have hpk : p.1 ≠ k := fun e => hnd.1 (e ▸ h1)
      rw [List.filter_cons_of_pos (by simpa using hpk)]
      simp only [List.length_cons]
      have := ih hnd.2 h1
      omega

end AListLemmas

section SlotLemmas

variable {T : Type}

theorem Slot.get?_modify_self (s : Slot T) (k : Nat)
    (f : LinkedNode T → LinkedNode T) :
    (s.modify k f).get? k = (s.get? k).map f := by
  show ((s.entries.map _).find? _).map Prod.snd = _
  rw [find_modify_self]
  unfold Slot.get?
  rw [Option.map_map, Option.map_map]
  rfl

theorem Slot.get?_modify_ne (s : Slot T) {k k' : Nat}
    (f : LinkedNode T → LinkedNode T) (h : k' ≠ k) :
    (s.modify k f).get? k' = s.get? k' := by
  show ((s.entries.map _).find? _).map Prod.snd = _
  rw [find_modify_ne _ _ h]
  rfl

@[simp] theorem Slot.modify_nextKey (s : Slot T) (k : Nat)
    (f : LinkedNode T → LinkedNode T) : (s.modify k f).nextKey = s.nextKey := rfl

@[simp] theorem Slot.modify_length (s : Slot T) (k : Nat)
    (f : LinkedNode T → LinkedNode T) :
    (s.modify k f).entries.length = s.entries.length := by
  simp [Slot.modify]

@[simp] theorem Slot.modify_keys (s : Slot T) (k : Nat)
    (f : LinkedNode T → LinkedNode T) :
    (s.modify k f).entries.map Prod.fst = s.entries.map Prod.fst := by
  simp only [Slot.modify, List.map_map]
  congr 1
  funext p
  by_cases h : p.1 = k <;> simp [h]

theorem Slot.get?_eq_none_of_ge (s : Slot T) {k : Nat}
    (hlt : ∀ p ∈ s.entries, p.1 < s.nextKey) (h : s.nextKey ≤ k) :
    s.get? k = none := by
  unfold Slot.get?
  rw [List.find?_eq_none.2]
  · rfl
  · intro p hp
    have := hlt p hp
    simp only [beq_iff_eq]
    omega

theorem Slot.get?_remove_self (s : Slot T) (k : Nat) :
    (s.remove k).2.get? k = none := by
  unfold Slot.remove
  rcases h : s.get? k with _ | n
  · exact h
  · show ((s.entries.filter _).find? _).map Prod.snd = none
    rw [find_filter_self]
    rfl

theorem Slot.get?_remove_ne (s : Slot T) {k k' : Nat} (h : k' ≠ k) :
    (s.remove k).2.get? k' = s.get? k' := by
  unfold Slot.remove
  rcases hg : s.get? k with _ | n
  · rfl
  · show ((s.entries.filter _).find? _).map Prod.snd = _
    rw [find_filter_ne _ h]
    rfl

theorem Slot.remove_fst (s : Slot T) (k : Nat) :
    (s.remove k).1 = s.get? k := by
  unfold Slot.remove
  rcases h : s.get? k with _ | n <;> rfl

@[simp] theorem Slot.remove_nextKey (s : Slot T) (k : Nat) :
    (s.remove k).2.nextKey = s.nextKey := by
  unfold Slot.remove
  rcases h : s.get? k with _ | n <;> rfl

theorem Slot.remove_keys (s : Slot T) (k : Nat) {n : LinkedNode T}
    (h : s.get? k = some n) :
    (s.remove k).2.entries.map Prod.fst
      = (s.entries.map Prod.fst).filter (fun x => x != k) := by
  unfold Slot.remove
  rw [h]
  exact filter_keys_comm s.entries k

theorem Slot.get?_insert_self (s : Slot T) (n : LinkedNode T) :
    (s.insert n).2.get? s.nextKey = some n := by
  simp [Slot.insert, Slot.get?, List.find?]

theorem Slot.get?_insert_ne (s : Slot T) (n : LinkedNode T) {k : Nat}
    (h : k ≠ s.nextKey) : (s.insert n).2.get? k = s.get? k := by
  simp only [Slot.insert, Slot.get?]
  rw [List.find?_cons_of_neg _ (by simpa using Ne.symm h)]

@[simp] theorem Slot.insert_nextKey (s : Slot T) (n : LinkedNode T) :
    (s.insert n).2.nextKey = s.nextKey + 1 := rfl

@[simp] theorem Slot.insert_keys (s : Slot T) (n : LinkedNode T) :
    (s.insert n).2.entries.map Prod.fst = s.nextKey :: s.entries.map Prod.fst :=
  rfl

@[simp] theorem Slot.insert_length (s : Slot T) (n : LinkedNode T) :
    (s.insert n).2.entries.length = s.entries.length + 1 := rfl

theorem Slot.get?_isSome_iff_mem (s : Slot T) (k : Nat) :
    (s.get? k).isSome ↔ k ∈ s.entries.map Prod.fst := by
  unfold Slot.get?
  induction s.entries with
  | nil => simp
  | cons p t ih =>
    by_cases h : p.1 = k
    · simp [List.find?, h]
    · rw [List.find?_cons_of_neg _ (by simpa using h)]
      simpa [h, Ne.symm h] using ih

theorem Slot.get?_mem (s : Slot T) {k : Nat} {n : LinkedNode T}
    (h : s.get? k = some n) : (k, n) ∈ s.entries := by
  unfold Slot.get? at h
  rcases hf : s.entries.find? (fun p => p.1 == k) with _ | p
  · rw [hf] at h
    exact absurd h (by simp)
  · rw [hf] at h
    have h1 := List.find?_some hf
    have h2 := List.mem_of_find?_eq_some hf
    have hpn : p.2 = n := by simpa using h
    have hpk : p.1 = k := by simpa using h1
    rw [← hpn, ← hpk]
    exact h2

theorem Slot.remove_length (s : Slot T) {k : Nat} {n : LinkedNode T}
    (hnd : (s.entries.map Prod.fst).Nodup) (h : s.get? k = some n) :
    (s.remove k).2.entries.length + 1 = s.entries.length := by
  unfold Slot.remove
  rw [h]
  have hmem : k ∈ s.entries.map Prod.fst :=
    (Slot.get?_isSome_iff_mem s k).1 (by rw [h]; rfl)
  exact filter_length_of_mem_nodup s.entries hnd hmem

end SlotLemmas

section HeapSyncDefs

variable {T : Type}

/-- The keys stored in the heap array, in position order. -/
def heapKeys (arr : List HE) : List Nat := arr.map Prod.snd

/-- The location-tag invariant on the heap side: the node behind the key at
heap position `i` carries location tag `N0 + N * L + i`. -/
def InHeap (N0 N L : Nat) (slot : Slot T) (arr : List HE) : Prop :=
  ∀ i, i < arr.length →
    ∃ n, slot.get? (arr.getD i (0, 0)).2 = some n ∧
      n.el.index = N0 + N * L + i

/-- Relation between arenas before and after a heap operation: the key set is
unchanged and every node keeps its payload, timeout and links, only the
location tag may move. -/
def IndexFrame (slot slot' : Slot T) : Prop :=
  slot'.nextKey = slot.nextKey ∧
  slot'.entries.map Prod.fst = slot.entries.map Prod.fst ∧
  ∀ k n, slot.get? k = some n →
    ∃ ix, slot'.get? k = some { n with el := { n.el with index := ix } }

/-- Keys outside `ks` are completely untouched. -/
def FrameOutside (ks : List Nat) (slot slot' : Slot T) : Prop :=
  ∀ k, k ∉ ks → slot'.get? k = slot.get? k

theorem IndexFrame.refl (slot : Slot T) : IndexFrame slot slot := by
  refine ⟨rfl, rfl, fun k n h => ⟨n.el.index, ?_⟩⟩
  simpa using h

theorem IndexFrame.comp {s1 s2 s3 : Slot T} (h1 : IndexFrame s1 s2)
    (h2 : IndexFrame s2 s3) : IndexFrame s1 s3 := by
  refine ⟨h2.1.trans h1.1, h2.2.1.trans h1.2.1, fun k n h => ?_⟩
  obtain ⟨ix, hx⟩ := h1.2.2 k n h
  obtain ⟨ix2, hx2⟩ := h2.2.2 k _ hx
  exact ⟨ix2, hx2⟩

theorem FrameOutside.chain {ks : List Nat} {s1 s2 s3 : Slot T}
    (h1 : FrameOutside ks s1 s2) (h2 : FrameOutside ks s2 s3) :
    FrameOutside ks s1 s3 :=
  fun k hk => (h2 k hk).trans (h1 k hk)

theorem FrameOutside.mono {ks ks' : List Nat} {s1 s2 : Slot T}
    (hsub : ∀ k, k ∈ ks → k ∈ ks') (h : FrameOutside ks s1 s2) :
    FrameOutside ks' s1 s2 :=
  fun k hk => h k (fun hmem => hk (hsub k hmem))

theorem get?_eq_some_getD {arr : List HE} {loc : Nat} (h : loc < arr.length) :
    arr.get? loc = some (arr.getD loc (0, 0)) := by
  rw [List.get?_eq_getElem?, List.getElem?_eq_getElem h, getD_eq_getElem h]

theorem set_index_nextKey (N0 N L : Nat) (slot : Slot T) (arr : List HE)
    (loc : Nat) : (set_index N0 N L slot arr loc).nextKey = slot.nextKey := by
  unfold set_index
  rcases arr.get? loc with _ | e <;> rfl

theorem set_index_keys (N0 N L : Nat) (slot : Slot T) (arr : List HE)
    (loc : Nat) :
    (set_index N0 N L slot arr loc).entries.map Prod.fst
      = slot.entries.map Prod.fst := by
  unfold set_index
  rcases arr.get? loc with _ | e
  · rfl
  · exact Slot.modify_keys slot e.2 _

theorem set_index_get?_self (N0 N L : Nat) (slot : Slot T) {arr : List HE}
    {loc : Nat} (h : loc < arr.length) :
    (set_index N0 N L slot arr loc).get? (arr.getD loc (0, 0)).2
      = (slot.get? (arr.getD loc (0, 0)).2).map
          (fun n => { n with el := { n.el with index := N0 + N * L + loc } }) := by
  unfold set_index
  rw [get?_eq_some_getD h]
  exact Slot.get?_modify_self slot _ _

theorem set_index_get?_ne (N0 N L : Nat) (slot : Slot T) {arr : List HE}
    {loc : Nat} {k : Nat} (h : ∀ e, arr.get? loc = some e → k ≠ e.2) :
    (set_index N0 N L slot arr loc).get? k = slot.get? k := by
  unfold set_index
  rcases he : arr.get? loc with _ | e
  · rfl
  · exact Slot.get?_modify_ne slot _ (h e he)

theorem set_index_IndexFrame (N0 N L : Nat) (slot : Slot T) (arr : List HE)
    (loc : Nat) : IndexFrame slot (set_index N0 N L slot arr loc) := by
  unfold set_index
  rcases he : arr.get? loc with _ | e
  · exact IndexFrame.refl slot
  · refine ⟨rfl, Slot.modify_keys slot e.2 _, fun k n h => ?_⟩
    by_cases hk : k = e.2
    · subst hk
      refine ⟨N0 + N * L + loc, ?_⟩
      rw [Slot.get?_modify_self, h]
      rfl
    · refine ⟨n.el.index, ?_⟩
      rw [Slot.get?_modify_ne slot _ hk, h]

theorem set_index_FrameOutside (N0 N L : Nat) (slot : Slot T)
    (arr : List HE) (loc : Nat) :
    FrameOutside (heapKeys arr) slot (set_index N0 N L slot arr loc) := by
  intro k hk
  apply set_index_get?_ne
  intro e he hke
  apply hk
  subst hke
  have hmem : e ∈ arr := by
    rw [List.get?_eq_getElem?] at he
    exact List.getElem?_mem he
  exact List.mem_map_of_mem Prod.snd hmem

theorem heapKeys_length (arr : List HE) :
    (heapKeys arr).length = arr.length := by
  simp [heapKeys]

theorem getD_snd_mem_heapKeys {arr : List HE} {i : Nat} (h : i < arr.length) :
    (arr.getD i (0, 0)).2 ∈ heapKeys arr := by
  rw [getD_eq_getElem h]
  exact List.mem_map_of_mem Prod.snd (arr.getElem_mem h)

theorem heapKeys_nodup_ne {arr : List HE} (hnd : (heapKeys arr).Nodup)
    {i j : Nat} (hi : i < arr.length) (hj : j < arr.length) (hij : i ≠ j) :
    (arr.getD i (0, 0)).2 ≠ (arr.getD j (0, 0)).2 := by
  rw [getD_eq_getElem hi, getD_eq_getElem hj]
  intro he
  apply hij
  have hi2 : i < (heapKeys arr).length := by simpa [heapKeys] using hi
  have hj2 : j < (heapKeys arr).length := by simpa [heapKeys] using hj
  have h1 : (heapKeys arr)[i] = (heapKeys arr)[j] := by
    simpa [heapKeys] using he
  exact hnd.getElem_inj_iff.1 h1

end HeapSyncDefs

section SiftMaster

variable {T : Type}

theorem set_index_get?_ne2 (N0 N L : Nat) (slot : Slot T) {arr : List HE}
    {loc k : Nat} (hloc : loc < arr.length)
    (hne : k ≠ (arr.getD loc (0, 0)).2) :
    (set_index N0 N L slot arr loc).get? k = slot.get? k := by
  apply set_index_get?_ne
  intro e he
  rw [get?_eq_some_getD hloc] at he
  have := Option.some_inj.1 he
  rw [← this]
  exact hne

theorem heapKeys_swapL_perm {arr : List HE} {i j : Nat} (hi : i < arr.length)
    (hj : j < arr.length) :
    (heapKeys (swapL arr i j)).Perm (heapKeys arr) :=
  (swapL_perm hi hj).map Prod.snd

theorem swap_step_sync (N0 N L : Nat) (slot : Slot T) {arr : List HE}
    {i j : Nat} (hi : i < arr.length) (hj : j < arr.length) (hij : i ≠ j)
    (hsync : InHeap N0 N L slot arr) (hnd : (heapKeys arr).Nodup) :
    InHeap N0 N L
      (set_index N0 N L (set_index N0 N L slot (swapL arr i j) i)
        (swapL arr i j) j)
      (swapL arr i j) := by
  intro p hp
  rw [ExtHeap.swapL_length] at hp
  have hi1 : i < (swapL arr i j).length := by
    rw [ExtHeap.swapL_length]; exact hi
  have hj1 : j < (swapL arr i j).length := by
    rw [ExtHeap.swapL_length]; exact hj
  by_cases hpj : p = j
  · subst hpj
    obtain ⟨n, hn, hix⟩ := hsync i hi
    rw [set_index_get?_self N0 N L _ hj1]
    rw [getD_swapL_right hj]
    rw [set_index_get?_ne2 N0 N L slot hi1 (by
      rw [getD_swapL_left hi]
      exact heapKeys_nodup_ne hnd hi hj hij)]
    rw [hn]
    exact ⟨_, rfl, rfl⟩
  · by_cases hpi : p = i
    · subst hpi
      obtain ⟨n, hn, hix⟩ := hsync j hj
      rw [set_index_get?_ne2 N0 N L _ hj1 (by
        rw [getD_swapL_left hi, getD_swapL_right hj]
        exact heapKeys_nodup_ne hnd hj hi (Ne.symm hij))]
      rw [set_index_get?_self N0 N L _ hi1]
      rw [getD_swapL_left hi]
      rw [hn]
      exact ⟨_, rfl, rfl⟩
    · obtain ⟨n, hn, hix⟩ := hsync p hp
      have hgp : (swapL arr i j).getD p (0, 0) = arr.getD p (0, 0) :=
        getD_swapL_other (fun e => hpi e.symm) (fun e => hpj e.symm)
      rw [set_index_get?_ne2 N0 N L _ hj1 (by
        rw [hgp, getD_swapL_right hj]
        exact heapKeys_nodup_ne hnd hp hi hpi)]
      rw [set_index_get?_ne2 N0 N L slot hi1 (by
        rw [hgp, getD_swapL_left hi]
        exact heapKeys_nodup_ne hnd hp hj hpj)]
      rw [hgp, hn]
      exact ⟨n, rfl, hix⟩

theorem minChild_gt (arr : List HE) (i : Nat) : i < ExtHeap.minChild arr i := by
  unfold ExtHeap.minChild
  split
  · split <;> omega
  · omega

theorem minChild_lt (arr : List HE) (i : Nat) (h : 2 * i + 1 < arr.length) :
    ExtHeap.minChild arr i < arr.length := by
  unfold ExtHeap.minChild
  split
  · split <;> omega
  · omega

theorem siftUp_master (N0 N L : Nat) (slot : Slot T) (arr : List HE)
    (i : Nat) :
    i < arr.length → InHeap N0 N L slot arr → (heapKeys arr).Nodup →
    (ExtHeap.siftUp (set_index N0 N L) slot arr i).2.Perm arr ∧
    InHeap N0 N L (ExtHeap.siftUp (set_index N0 N L) slot arr i).1
      (ExtHeap.siftUp (set_index N0 N L) slot arr i).2 ∧
    IndexFrame slot (ExtHeap.siftUp (set_index N0 N L) slot arr i).1 ∧
    FrameOutside (heapKeys arr) slot
      (ExtHeap.siftUp (set_index N0 N L) slot arr i).1 := by
  induction slot, arr, i using ExtHeap.siftUp.induct (set_index N0 N L) with
  | case1 slot arr i h1 h2 =>
    intro hi hsync hnd
    rw [ExtHeap.siftUp, if_pos h1, if_pos h2]
    exact ⟨List.Perm.refl arr, hsync, IndexFrame.refl slot, fun k _ => rfl⟩
  | case2 slot arr i h1 h2 arr1 slot1 ih =>
    intro hi hsync hnd
    rw [ExtHeap.siftUp, if_pos h1, if_neg h2]
    have hpi : ExtHeap.par i < i :=
      Nat.lt_of_le_of_lt (Nat.div_le_self _ _) (by omega)
    have hp : ExtHeap.par i < arr.length := by omega
    have hlen1 : arr1.length = arr.length := by simp [arr1]
    have hperm1 : arr1.Perm arr := swapL_perm hp hi
    have hkeysperm : (heapKeys arr1).Perm (heapKeys arr) :=
      heapKeys_swapL_perm hp hi
    have hsync1 : InHeap N0 N L slot1 arr1 :=
      swap_step_sync N0 N L slot hp hi (by omega) hsync hnd
    have hnd1 : (heapKeys arr1).Nodup := hkeysperm.nodup_iff.2 hnd
    obtain ⟨hperm2, hsync2, hframe2, hout2⟩ :=
      ih (by omega) hsync1 hnd1
    refine ⟨hperm2.trans hperm1, hsync2, ?_, ?_⟩
    · have hf1 : IndexFrame slot slot1 :=
        (set_index_IndexFrame N0 N L slot arr1 (ExtHeap.par i)).comp
          (set_index_IndexFrame N0 N L _ arr1 i)
      exact hf1.comp hframe2
    · have ho1 : FrameOutside (heapKeys arr) slot slot1 := by
        have h1 := set_index_FrameOutside N0 N L slot arr1 (ExtHeap.par i)
        have h2 := set_index_FrameOutside N0 N L
          (set_index N0 N L slot arr1 (ExtHeap.par i)) arr1 i
        exact ((h1.chain h2).mono (fun k hk => (hkeysperm.mem_iff).1 hk))
      exact ho1.chain (hout2.mono (fun k hk => (hkeysperm.mem_iff).1 hk))
  | case3 slot arr i h1 =>
    intro hi hsync hnd
    rw [ExtHeap.siftUp, if_neg h1]
    exact ⟨List.Perm.refl arr, hsync, IndexFrame.refl slot, fun k _ => rfl⟩

theorem siftDown_master (N0 N L : Nat) (slot : Slot T) (arr : List HE)
    (i : Nat) :
    InHeap N0 N L slot arr → (heapKeys arr).Nodup →
    (ExtHeap.siftDown (set_index N0 N L) slot arr i).2.Perm arr ∧
    InHeap N0 N L (ExtHeap.siftDown (set_index N0 N L) slot arr i).1
      (ExtHeap.siftDown (set_index N0 N L) slot arr i).2 ∧
    IndexFrame slot (ExtHeap.siftDown (set_index N0 N L) slot arr i).1 ∧
    FrameOutside (heapKeys arr) slot
      (ExtHeap.siftDown (set_index N0 N L) slot arr i).1 := by
  induction slot, arr, i using ExtHeap.siftDown.induct (set_index N0 N L) with
  | case1 slot arr i h1 h2 =>
    intro hsync hnd
    rw [ExtHeap.siftDown, if_pos h1, if_pos h2]
    exact ⟨List.Perm.refl arr, hsync, IndexFrame.refl slot, fun k _ => rfl⟩
  | case2 slot arr i h1 h2 arr1 slot1 ih =>
    intro hsync hnd
    rw [ExtHeap.siftDown, if_pos h1, if_neg h2]
    have hm1 : i < ExtHeap.minChild arr i := minChild_gt arr i
    have hm2 : ExtHeap.minChild arr i < arr.length := minChild_lt arr i h1
    have hi : i < arr.length := by omega
    have hlen1 : arr1.length = arr.length := by simp [arr1]
    have hperm1 : arr1.Perm arr := swapL_perm hi hm2
    have hkeysperm : (heapKeys arr1).Perm (heapKeys arr) :=
      heapKeys_swapL_perm hi hm2
    have hsync1 : InHeap N0 N L slot1 arr1 :=
      swap_step_sync N0 N L slot hi hm2 (by omega) hsync hnd
    have hnd1 : (heapKeys arr1).Nodup := hkeysperm.nodup_iff.2 hnd
    obtain ⟨hperm2, hsync2, hframe2, hout2⟩ := ih hsync1 hnd1
    refine ⟨hperm2.trans hperm1, hsync2, ?_, ?_⟩
    · have hf1 : IndexFrame slot slot1 :=
        (set_index_IndexFrame N0 N L slot arr1 i).comp
          (set_index_IndexFrame N0 N L _ arr1 (ExtHeap.minChild arr i))
      exact hf1.comp hframe2
    · have ho1 : FrameOutside (heapKeys arr) slot slot1 := by
        have ha := set_index_FrameOutside N0 N L slot arr1 i
        have hb := set_index_FrameOutside N0 N L
          (set_index N0 N L slot arr1 i) arr1 (ExtHeap.minChild arr i)
        exact ((ha.chain hb).mono (fun k hk => (hkeysperm.mem_iff).1 hk))
      exact ho1.chain (hout2.mono (fun k hk => (hkeysperm.mem_iff).1 hk))
  | case3 slot arr i h1 =>
    intro hsync hnd
    rw [ExtHeap.siftDown, if_neg h1]
    exact ⟨List.Perm.refl arr, hsync, IndexFrame.refl slot, fun k _ => rfl⟩

end SiftMaster

section HeapOrder

variable {T : Type}

theorem par_lt {j : Nat} (h : 0 < j) : ExtHeap.par j < j := by
  simp only [ExtHeap.par]
  omega

theorem par_child_cases {c i : Nat} (h : ExtHeap.par c = i) (hc : 0 < c) :
    c = 2 * i + 1 ∨ c = 2 * i + 2 := by
  simp only [ExtHeap.par] at h
  omega

theorem par_left (i : Nat) : ExtHeap.par (2 * i + 1) = i := by
  simp only [ExtHeap.par]
  omega

theorem par_right (i : Nat) : ExtHeap.par (2 * i + 2) = i := by
  simp only [ExtHeap.par]
  omega

/-- The binary min-heap order on the array (spec section 4.3): every entry is
at least its parent. -/
def IsHeap (arr : List HE) : Prop :=
  ∀ j, 0 < j → j < arr.length →
    eLe (arr.getD (ExtHeap.par j) (0, 0)) (arr.getD j (0, 0)) = true

theorem isHeap_root_le {arr : List HE} (h : IsHeap arr) :
    ∀ j, j < arr.length →
      eLe (arr.getD 0 (0, 0)) (arr.getD j (0, 0)) = true := by
  intro j
  induction j using Nat.strong_induction_on with
  | _ j ih =>
    intro hj
    rcases Nat.eq_zero_or_pos j with hj0 | hj0
    · subst hj0
      exact eLe_refl _
    · have hp := par_lt hj0
      exact eLe_trans (ih (ExtHeap.par j) hp (by omega)) (h j hj0 hj)

theorem isHeap_head_le {arr : List HE} (h : IsHeap arr) {y : HE}
    (hy : y ∈ arr) : eLe (arr.getD 0 (0, 0)) y = true := by
  obtain ⟨j, hj, hje⟩ := List.getElem_of_mem hy
  rw [← hje, ← getD_eq_getElem hj]
  exact isHeap_root_le h j hj

/-- Invariant for sift-up at hole `i`: all pairs not touching `i` are
ordered, the entry above the hole is at most the hole's children, and if the
hole already fits under its parent then it is at most its children. -/
def UpOk (arr : List HE) (i : Nat) : Prop :=
  (∀ j, 0 < j → j < arr.length → j ≠ i → ExtHeap.par j ≠ i →
    eLe (arr.getD (ExtHeap.par j) (0, 0)) (arr.getD j (0, 0)) = true) ∧
  (0 < i → ∀ c, c < arr.length → ExtHeap.par c = i →
    eLe (arr.getD (ExtHeap.par i) (0, 0)) (arr.getD c (0, 0)) = true) ∧
  (eLe (arr.getD (ExtHeap.par i) (0, 0)) (arr.getD i (0, 0)) = true →
    ∀ c, c < arr.length → ExtHeap.par c = i →
      eLe (arr.getD i (0, 0)) (arr.getD c (0, 0)) = true)

/-- Invariant for sift-down at hole `i`: all pairs not hanging from `i` are
ordered, the hole's parent is at most the hole's children and at most the
hole itself. -/
def DownOk (arr : List HE) (i : Nat) : Prop :=
  (∀ j, 0 < j → j < arr.length → j ≠ i → ExtHeap.par j ≠ i →
    eLe (arr.getD (ExtHeap.par j) (0, 0)) (arr.getD j (0, 0)) = true) ∧
  (0 < i → ∀ c, c < arr.length → ExtHeap.par c = i →
    eLe (arr.getD (ExtHeap.par i) (0, 0)) (arr.getD c (0, 0)) = true) ∧
  (0 < i → eLe (arr.getD (ExtHeap.par i) (0, 0)) (arr.getD i (0, 0)) = true)

theorem minChild_par {arr : List HE} {i : Nat} :
    ExtHeap.par (ExtHeap.minChild arr i) = i := by
  unfold ExtHeap.minChild
  split
  · split
    · exact par_left i
    · exact par_right i
  · exact par_left i

theorem minChild_min {arr : List HE} {i : Nat} (h1 : 2 * i + 1 < arr.length) :
    ∀ c, 0 < c → c < arr.length → ExtHeap.par c = i →
      eLe (arr.getD (ExtHeap.minChild arr i) (0, 0)) (arr.getD c (0, 0))
        = true := by
  intro c hc0 hcl hpc
  rcases par_child_cases hpc hc0 with hcc | hcc
  · subst hcc
    unfold ExtHeap.minChild
    split
    · split
      · exact eLe_refl _
      · rename_i hr hel
        exact eLe_of_not_eLe hel
    · exact eLe_refl _
  · subst hcc
    unfold ExtHeap.minChild
    split
    · split
      · rename_i hr hel
        exact hel
      · exact eLe_refl _
    · exfalso
      omega

theorem siftUp_isHeap (cb : Cb T) (slot : Slot T) (arr : List HE) (i : Nat) :
    i < arr.length → UpOk arr i →
    IsHeap (ExtHeap.siftUp cb slot arr i).2 := by
  induction slot, arr, i using ExtHeap.siftUp.induct cb with
  | case1 slot arr i h1 h2 =>
    intro hi huo
    rw [ExtHeap.siftUp, if_pos h1, if_pos h2]
    intro j hj0 hjl
    by_cases hji : j = i
    · subst hji
      exact h2
    · by_cases hpj : ExtHeap.par j = i
      · rw [hpj]
        exact huo.2.2 h2 j hjl hpj
      · exact huo.1 j hj0 hjl hji hpj
  | case2 slot arr i h1 h2 arr1 slot1 ih =>
    intro hi huo
    rw [ExtHeap.siftUp, if_pos h1, if_neg h2]
    have hp : ExtHeap.par i < i := par_lt h1
    have hpl : ExtHeap.par i < arr.length := by omega
    have hlen : arr1.length = arr.length := by
      simp [arr1]
    have hL : arr1.getD (ExtHeap.par i) (0, 0) = arr.getD i (0, 0) :=
      getD_swapL_left hpl
    have hR : arr1.getD i (0, 0) = arr.getD (ExtHeap.par i) (0, 0) :=
      getD_swapL_right hi
    have hO : ∀ q, q ≠ ExtHeap.par i → q ≠ i →
        arr1.getD q (0, 0) = arr.getD q (0, 0) :=
      fun q hq1 hq2 => getD_swapL_other (fun e => hq1 e.symm) (fun e => hq2 e.symm)
    have hlt : eLe (arr.getD i (0, 0)) (arr.getD (ExtHeap.par i) (0, 0)) = true :=
      eLe_of_not_eLe h2
    have conj1 : ∀ j, 0 < j → j < arr1.length → j ≠ ExtHeap.par i →
        ExtHeap.par j ≠ ExtHeap.par i →
        eLe (arr1.getD (ExtHeap.par j) (0, 0)) (arr1.getD j (0, 0)) = true := by
      intro j hj0 hjl hjp hpjp
      rw [hlen] at hjl
      by_cases hji : j = i
      · exact absurd (by rw [hji]) hpjp
      · by_cases hpj : ExtHeap.par j = i
        · rw [hpj, hR, hO j hjp hji]
          exact huo.2.1 h1 j hjl hpj
        · rw [hO j hjp hji, hO (ExtHeap.par j) hpjp hpj]
          exact huo.1 j hj0 hjl hji hpj
    have conj2 : 0 < ExtHeap.par i → ∀ c, c < arr1.length →
        ExtHeap.par c = ExtHeap.par i →
        eLe (arr1.getD (ExtHeap.par (ExtHeap.par i)) (0, 0))
          (arr1.getD c (0, 0)) = true := by
      intro hpp c hcl hpc
      rw [hlen] at hcl
      have hplt := par_lt hpp
      have hne1 : ExtHeap.par (ExtHeap.par i) ≠ ExtHeap.par i := by omega
      have hne2 : ExtHeap.par (ExtHeap.par i) ≠ i := by omega
      rw [hO _ hne1 hne2]
      have hbase : eLe (arr.getD (ExtHeap.par (ExtHeap.par i)) (0, 0))
          (arr.getD (ExtHeap.par i) (0, 0)) = true :=
        huo.1 (ExtHeap.par i) hpp hpl (by omega) (by omega)
      by_cases hci : c = i
      · rw [hci, hR]
        exact hbase
      · have hcp : c ≠ ExtHeap.par i := by
          intro he
          rw [he] at hpc
          omega
        rw [hO c hcp hci]
        have hc0 : 0 < c := by
          rcases Nat.eq_zero_or_pos c with hc | hc
          · exfalso
            rw [hc, show ExtHeap.par 0 = 0 from rfl] at hpc
            omega
          · exact hc
        have hstep : eLe (arr.getD (ExtHeap.par i) (0, 0))
            (arr.getD c (0, 0)) = true := by
          have h := huo.1 c hc0 hcl hci (by rw [hpc]; omega)
          rw [hpc] at h
          exact h
        exact eLe_trans hbase hstep
    have conj3 : eLe (arr1.getD (ExtHeap.par (ExtHeap.par i)) (0, 0))
          (arr1.getD (ExtHeap.par i) (0, 0)) = true →
        ∀ c, c < arr1.length → ExtHeap.par c = ExtHeap.par i →
          eLe (arr1.getD (ExtHeap.par i) (0, 0)) (arr1.getD c (0, 0)) = true := by
      intro _ c hcl hpc
      rw [hlen] at hcl
      rw [hL]
      by_cases hci : c = i
      · rw [hci, hR]
        exact hlt
      · by_cases hcp : c = ExtHeap.par i
        · rw [hcp, hL]
          exact eLe_refl _
        · rw [hO c hcp hci]
          have hc0 : 0 < c := by
            rcases Nat.eq_zero_or_pos c with hc | hc
            · exfalso
              rw [hc, show ExtHeap.par 0 = 0 from rfl] at hpc
              exact hcp (hc.trans hpc)
            · exact hc
          have hstep : eLe (arr.getD (ExtHeap.par i) (0, 0))
              (arr.getD c (0, 0)) = true := by
            have h := huo.1 c hc0 hcl hci (by rw [hpc]; omega)
            rw [hpc] at h
            exact h
          exact eLe_trans hlt hstep
    exact ih (by omega) ⟨conj1, conj2, conj3⟩
  | case3 slot arr i h1 =>
    intro hi huo
    rw [ExtHeap.siftUp, if_neg h1]
    have hi0 : i = 0 := by omega
    subst hi0
    intro j hj0 hjl
    by_cases hpj : ExtHeap.par j = 0
    · rw [hpj]
      exact huo.2.2 (eLe_refl _) j hjl hpj
    · exact huo.1 j hj0 hjl (by omega) hpj

theorem siftDown_isHeap (cb : Cb T) (slot : Slot T) (arr : List HE)
    (i : Nat) : DownOk arr i → IsHeap (ExtHeap.siftDown cb slot arr i).2 := by
  induction slot, arr, i using ExtHeap.siftDown.induct cb with
  | case1 slot arr i h1 h2 =>
    intro hdo
    rw [ExtHeap.siftDown, if_pos h1, if_pos h2]
    intro j hj0 hjl
    by_cases hji : j = i
    · subst hji
      exact hdo.2.2 hj0
    · by_cases hpj : ExtHeap.par j = i
      · rw [hpj]
        exact eLe_trans h2 (minChild_min h1 j hj0 hjl hpj)
      · exact hdo.1 j hj0 hjl hji hpj
  | case2 slot arr i h1 h2 arr1 slot1 ih =>
    intro hdo
    rw [ExtHeap.siftDown, if_pos h1, if_neg h2]
    have hm1 : i < ExtHeap.minChild arr i := minChild_gt arr i
    have hm2 : ExtHeap.minChild arr i < arr.length := minChild_lt arr i h1
    have hmp : ExtHeap.par (ExtHeap.minChild arr i) = i := minChild_par
    have hi : i < arr.length := by omega
    have hlen : arr1.length = arr.length := by
      simp [arr1]
    have hL : arr1.getD i (0, 0) = arr.getD (ExtHeap.minChild arr i) (0, 0) :=
      getD_swapL_left hi
    have hR : arr1.getD (ExtHeap.minChild arr i) (0, 0) = arr.getD i (0, 0) :=
      getD_swapL_right hm2
    have hO : ∀ q, q ≠ i → q ≠ ExtHeap.minChild arr i →
        arr1.getD q (0, 0) = arr.getD q (0, 0) :=
      fun q hq1 hq2 => getD_swapL_other (fun e => hq1 e.symm) (fun e => hq2 e.symm)
    have hlt : eLe (arr.getD (ExtHeap.minChild arr i) (0, 0))
        (arr.getD i (0, 0)) = true := eLe_of_not_eLe h2
    have conj1 : ∀ j, 0 < j → j < arr1.length → j ≠ ExtHeap.minChild arr i →
        ExtHeap.par j ≠ ExtHeap.minChild arr i →
        eLe (arr1.getD (ExtHeap.par j) (0, 0)) (arr1.getD j (0, 0)) = true := by
      intro j hj0 hjl hjm hpjm
      rw [hlen] at hjl
      by_cases hji : j = i
      · subst hji
        have hplt := par_lt hj0
        rw [hL, hO (ExtHeap.par j) (by omega) (by omega)]
        exact hdo.2.1 hj0 (ExtHeap.minChild arr j) hm2 hmp
      · by_cases hpj : ExtHeap.par j = i
        · rw [hpj, hL, hO j hji hjm]
          exact minChild_min h1 j hj0 hjl hpj
        · rw [hO j hji hjm, hO (ExtHeap.par j) hpj hpjm]
          exact hdo.1 j hj0 hjl hji hpj
    have conj2 : 0 < ExtHeap.minChild arr i → ∀ c, c < arr1.length →
        ExtHeap.par c = ExtHeap.minChild arr i →
        eLe (arr1.getD (ExtHeap.par (ExtHeap.minChild arr i)) (0, 0))
          (arr1.getD c (0, 0)) = true := by
      intro _ c hcl hpc
      rw [hlen] at hcl
      have hclt : ExtHeap.minChild arr i < c := by
        have h0c : 0 < c := by
          rcases Nat.eq_zero_or_pos c with hc | hc
          · exfalso
            rw [hc, show ExtHeap.par 0 = 0 from rfl] at hpc
            omega
          · exact hc
        have := par_lt h0c
        omega
      rw [hmp, hL, hO c (by omega) (by omega)]
      have h := hdo.1 c (by omega) hcl (by omega) (by rw [hpc]; omega)
      rw [hpc] at h
      exact h
    have conj3 : 0 < ExtHeap.minChild arr i →
        eLe (arr1.getD (ExtHeap.par (ExtHeap.minChild arr i)) (0, 0))
          (arr1.getD (ExtHeap.minChild arr i) (0, 0)) = true := by
      intro _
      rw [hmp, hL, hR]
      exact hlt
    exact ih ⟨conj1, conj2, conj3⟩
  | case3 slot arr i h1 =>
    intro hdo
    rw [ExtHeap.siftDown, if_neg h1]
    show IsHeap arr
    intro j hj0 hjl
    by_cases hji : j = i
    · subst hji
      exact hdo.2.2 hj0
    · by_cases hpj : ExtHeap.par j = i
      · exfalso
        have := par_child_cases hpj hj0
        omega
      · exact hdo.1 j hj0 hjl hji hpj

end HeapOrder

section HeapOpSupport

theorem getD_append_left {arr : List HE} {j : Nat} (x : HE)
    (h : j < arr.length) : (arr ++ [x]).getD j (0, 0) = arr.getD j (0, 0) := by
  rw [List.getD_eq_getElem?_getD, List.getD_eq_getElem?_getD,
    List.getElem?_append_left h]

theorem getD_append_last (arr : List HE) (x : HE) :
    (arr ++ [x]).getD arr.length (0, 0) = x := by
  rw [List.getD_eq_getElem?_getD, List.getElem?_concat_length]
  rfl

theorem getD_dropLast {arr : List HE} {j : Nat} (h : j < arr.length - 1) :
    arr.dropLast.getD j (0, 0) = arr.getD j (0, 0) := by
  rw [List.getD_eq_getElem?_getD, List.getD_eq_getElem?_getD,
    List.dropLast_eq_take, List.getElem?_take, if_pos h]

theorem heapKeys_append (arr : List HE) (x : HE) :
    heapKeys (arr ++ [x]) = heapKeys arr ++ [x.2] := by
  simp [heapKeys]

theorem heapKeys_cons (x : HE) (arr : List HE) :
    heapKeys (x :: arr) = x.2 :: heapKeys arr := rfl

theorem last_cons_dropLast_perm :
    ∀ (l : List HE), l ≠ [] →
      ((l.getD (l.length - 1) (0, 0)) :: l.dropLast).Perm l := by
  intro l
  induction l with
  | nil => intro h; exact absurd rfl h
  | cons a t ih =>
    intro _
    cases t with
    | nil => simp
    | cons b t2 =>
      have h1 := ih (by simp)
      have hg : (a :: b :: t2).getD ((a :: b :: t2).length - 1) (0, 0)
          = (b :: t2).getD ((b :: t2).length - 1) (0, 0) := by
        simp
      rw [hg, List.dropLast_cons₂]
      exact (List.Perm.swap _ _ _).trans (h1.cons a)

theorem replace_perm :
    ∀ (arr : List HE) (pos : Nat), pos + 1 < arr.length →
      ((arr.getD pos (0, 0)) ::
        (arr.dropLast.set pos (arr.getD (arr.length - 1) (0, 0)))).Perm arr := by
  intro arr
  induction arr with
  | nil => intro pos h; simp at h
  | cons a t ih =>
    intro pos h
    cases t with
    | nil => simp at h
    | cons b t2 =>
      cases pos with
      | zero =>
        have hg : (a :: b :: t2).getD ((a :: b :: t2).length - 1) (0, 0)
            = (b :: t2).getD ((b :: t2).length - 1) (0, 0) := by
          simp
        rw [hg, List.dropLast_cons₂]
        show ((a :: b :: t2).getD 0 (0, 0) ::
          ((b :: t2).getD ((b :: t2).length - 1) (0, 0)) :: (b :: t2).dropLast).Perm _
        rw [List.getD_cons_zero]
        exact ((last_cons_dropLast_perm (b :: t2) (by simp)).cons a).trans
          (List.Perm.refl _) |>.trans (List.Perm.refl _) |>.symm.symm
      | succ m =>
        have hm : m + 1 < (b :: t2).length := by simpa using h
        have h1 := ih m hm
        have hg : (a :: b :: t2).getD ((a :: b :: t2).length - 1) (0, 0)
            = (b :: t2).getD ((b :: t2).length - 1) (0, 0) := by
          simp
        rw [hg, List.dropLast_cons₂]
        show ((b :: t2).getD m (0, 0) ::
          ((a :: (b :: t2).dropLast).set (m + 1)
            ((b :: t2).getD ((b :: t2).length - 1) (0, 0)))).Perm _
        rw [List.set_cons_succ]
        exact (List.Perm.swap _ _ _).trans (h1.cons a)

end HeapOpSupport

section HeapOpSpecs

variable {T : Type}

theorem heap_push_spec (N0 N L : Nat) (slot : Slot T) (arr : List HE)
    (x : HE) (hsync : InHeap N0 N L slot arr) (hnd : (heapKeys arr).Nodup)
    (hheap : IsHeap arr) (hxs : (slot.get? x.2).isSome)
    (hxnd : x.2 ∉ heapKeys arr) :
    (ExtHeap.push (set_index N0 N L) slot arr x).2.Perm (arr ++ [x]) ∧
    InHeap N0 N L (ExtHeap.push (set_index N0 N L) slot arr x).1
      (ExtHeap.push (set_index N0 N L) slot arr x).2 ∧
    IsHeap (ExtHeap.push (set_index N0 N L) slot arr x).2 ∧
    IndexFrame slot (ExtHeap.push (set_index N0 N L) slot arr x).1 ∧
    FrameOutside (heapKeys arr ++ [x.2]) slot
      (ExtHeap.push (set_index N0 N L) slot arr x).1 := by
  have hpush : ExtHeap.push (set_index N0 N L) slot arr x
      = ExtHeap.siftUp (set_index N0 N L)
          (set_index N0 N L slot (arr ++ [x]) arr.length) (arr ++ [x])
          arr.length := rfl
  rw [hpush]
  have hilt : arr.length < (arr ++ [x]).length := by simp
  have hsync1 : InHeap N0 N L
      (set_index N0 N L slot (arr ++ [x]) arr.length) (arr ++ [x]) := by
    intro p hp
    by_cases hpl : p = arr.length
    · subst hpl
      rw [set_index_get?_self N0 N L slot hilt, getD_append_last]
      obtain ⟨nx, hnx⟩ := Option.isSome_iff_exists.1 hxs
      rw [hnx]
      exact ⟨_, rfl, rfl⟩
    · have hpa : p < arr.length := by
        simp at hp
        omega
      rw [getD_append_left x hpa]
      rw [set_index_get?_ne2 N0 N L slot hilt (by
        rw [getD_append_last]
        intro he
        exact hxnd (he ▸ getD_snd_mem_heapKeys hpa))]
      exact hsync p hpa
  have hnd1 : (heapKeys (arr ++ [x])).Nodup := by
    rw [heapKeys_append]
    simp only [List.nodup_append]
    refine ⟨hnd, List.nodup_singleton _, ?_⟩
    intro a ha hax
    simp only [List.mem_singleton] at hax
    exact hxnd (hax ▸ ha)
  have hup : UpOk (arr ++ [x]) arr.length := by
    refine ⟨?_, ?_, ?_⟩
    · intro j hj0 hjl hjne hpjne
      have hja : j < arr.length := by
        simp at hjl
        omega
      have hpja : ExtHeap.par j < arr.length := by
        have := par_lt hj0
        omega
      rw [getD_append_left x hja, getD_append_left x hpja]
      exact hheap j hj0 hja
    · intro h0 c hcl hpc
      exfalso
      have hc0 : 0 < c := by
        rcases Nat.eq_zero_or_pos c with hc | hc
        · rw [hc, show ExtHeap.par 0 = 0 from rfl] at hpc
          omega
        · exact hc
      have := par_child_cases hpc hc0
      simp at hcl
      omega
    · intro _ c hcl hpc
      rcases Nat.eq_zero_or_pos c with hc | hc0
      · subst hc
        rw [show ExtHeap.par 0 = 0 from rfl] at hpc
        rw [← hpc]
        exact eLe_refl _
      · exfalso
        have := par_child_cases hpc hc0
        simp at hcl
        omega
  obtain ⟨hperm, hsync2, hframe, hout⟩ :=
    siftUp_master N0 N L (set_index N0 N L slot (arr ++ [x]) arr.length)
      (arr ++ [x]) arr.length hilt hsync1 hnd1
  refine ⟨hperm, hsync2,
    siftUp_isHeap (set_index N0 N L) _ _ arr.length hilt hup,
    (set_index_IndexFrame N0 N L slot (arr ++ [x]) arr.length).comp hframe,
    ?_⟩
  have h1 : FrameOutside (heapKeys arr ++ [x.2]) slot
      (set_index N0 N L slot (arr ++ [x]) arr.length) :=
    (set_index_FrameOutside N0 N L slot (arr ++ [x]) arr.length).mono
      (fun k hk => by simpa [heapKeys] using hk)
  exact h1.chain (hout.mono (fun k hk => by simpa [heapKeys] using hk))

theorem heap_pop_spec (N0 N L : Nat) (slot : Slot T) (arr : List HE)
    (hsync : InHeap N0 N L slot arr) (hnd : (heapKeys arr).Nodup)
    (hheap : IsHeap arr) (hne : arr ≠ []) :
    (ExtHeap.pop (set_index N0 N L) slot arr).1 = some (arr.getD 0 (0, 0)) ∧
    (arr.getD 0 (0, 0) ::
      (ExtHeap.pop (set_index N0 N L) slot arr).2.2).Perm arr ∧
    InHeap N0 N L (ExtHeap.pop (set_index N0 N L) slot arr).2.1
      (ExtHeap.pop (set_index N0 N L) slot arr).2.2 ∧
    IsHeap (ExtHeap.pop (set_index N0 N L) slot arr).2.2 ∧
    IndexFrame slot (ExtHeap.pop (set_index N0 N L) slot arr).2.1 ∧
    FrameOutside (heapKeys arr) slot
      (ExtHeap.pop (set_index N0 N L) slot arr).2.1 := by
  match arr, hne with
  | [x], _ =>
    refine ⟨rfl, by simp [ExtHeap.pop], ?_, ?_, IndexFrame.refl slot,
      fun k _ => rfl⟩
    · intro p hp
      simp [ExtHeap.pop] at hp
    · intro j hj0 hjl
      simp [ExtHeap.pop] at hjl
  | x :: y :: t, _ =>
    have hpop : ExtHeap.pop (set_index N0 N L) slot (x :: y :: t)
        = (some x,
          (ExtHeap.siftDown (set_index N0 N L)
            (set_index N0 N L slot
              ((x :: y :: t).dropLast.set 0
                ((x :: y :: t).getD ((x :: y :: t).length - 1) (0, 0)))
              0)
            ((x :: y :: t).dropLast.set 0
              ((x :: y :: t).getD ((x :: y :: t).length - 1) (0, 0)))
            0).1,
          (ExtHeap.siftDown (set_index N0 N L)
            (set_index N0 N L slot
              ((x :: y :: t).dropLast.set 0
                ((x :: y :: t).getD ((x :: y :: t).length - 1) (0, 0)))
              0)
            ((x :: y :: t).dropLast.set 0
              ((x :: y :: t).getD ((x :: y :: t).length - 1) (0, 0)))
            0).2) := rfl
    rw [hpop]
    set arr := x :: y :: t with harr
    set last := arr.getD (arr.length - 1) (0, 0) with hlast
    set arr1 := arr.dropLast.set 0 last with harr1
    have hn2 : 2 ≤ arr.length := by rw [harr]; simp
    have hlast_lt : arr.length - 1 < arr.length := by omega
    have hlen1 : arr1.length = arr.length - 1 := by
      rw [harr1]
      simp
    have h0lt : 0 < arr1.length := by omega
    have hg0 : arr1.getD 0 (0, 0) = last := by
      rw [harr1]
      exact getD_set_self (by simp [harr])
    have hgp : ∀ p, 0 < p → p < arr1.length →
        arr1.getD p (0, 0) = arr.getD p (0, 0) := by
      intro p hp0 hpl
      rw [harr1, getD_set_ne (by omega), getD_dropLast (by omega)]
    have hperm0 : (arr.getD 0 (0, 0) :: arr1).Perm arr :=
      replace_perm arr 0 (by omega)
    have hsync1 : InHeap N0 N L (set_index N0 N L slot arr1 0) arr1 := by
      intro p hp
      by_cases hp0 : p = 0
      · subst hp0
        rw [set_index_get?_self N0 N L slot h0lt, hg0]
        obtain ⟨n, hn, hix⟩ := hsync (arr.length - 1) hlast_lt
        rw [← hlast] at hn
        rw [hn]
        exact ⟨_, rfl, rfl⟩
      · have hp0' : 0 < p := by omega
        rw [set_index_get?_ne2 N0 N L slot h0lt (by
          rw [hg0, hgp p hp0' hp, hlast]
          exact heapKeys_nodup_ne hnd (by omega) hlast_lt (by omega))]
        rw [hgp p hp0' hp]
        obtain ⟨n, hn, hix⟩ := hsync p (by omega)
        exact ⟨n, hn, hix⟩
    have hnd1 : (heapKeys arr1).Nodup := by
      have := (hperm0.map Prod.snd).nodup_iff.2 hnd
      rw [List.map_cons] at this
      exact (List.nodup_cons.1 this).2
    have hdo : DownOk arr1 0 := by
      refine ⟨?_, ?_, ?_⟩
      · intro j hj0 hjl hjne hpjne
        have hpj0 : 0 < ExtHeap.par j := Nat.pos_of_ne_zero hpjne
        have hpjlt := par_lt hj0
        rw [hgp j hj0 hjl, hgp (ExtHeap.par j) hpj0 (by omega)]
        exact hheap j hj0 (by omega)
      · intro h0
        omega
      · intro h0
        omega
    obtain ⟨hperm, hsync2, hframe, hout⟩ :=
      siftDown_master N0 N L (set_index N0 N L slot arr1 0) arr1 0 hsync1 hnd1
    have hsub1 : ∀ k, k ∈ heapKeys arr1 → k ∈ heapKeys arr := by
      intro k hk
      have : k ∈ heapKeys (arr.getD 0 (0, 0) :: arr1) := by
        rw [heapKeys_cons]
        exact List.mem_cons_of_mem _ hk
      exact (hperm0.map Prod.snd).mem_iff.1 this
    refine ⟨rfl, ?_, hsync2, siftDown_isHeap (set_index N0 N L) _ _ 0 hdo,
      (set_index_IndexFrame N0 N L slot arr1 0).comp hframe, ?_⟩
    · exact (hperm.cons _).trans hperm0
    · have h1 : FrameOutside (heapKeys arr) slot
          (set_index N0 N L slot arr1 0) :=
        (set_index_FrameOutside N0 N L slot arr1 0).mono hsub1
      exact h1.chain (hout.mono hsub1)

end HeapOpSpecs

section HeapRemoveSpec

variable {T : Type}

theorem heap_remove_spec (N0 N L : Nat) (slot : Slot T) (arr : List HE)
    (pos : Nat)
    (hsync : ∀ i, i < arr.length → i ≠ pos →
      ∃ n, slot.get? (arr.getD i (0, 0)).2 = some n ∧
        n.el.index = N0 + N * L + i)
    (hnd : (heapKeys arr).Nodup) (hheap : IsHeap arr)
    (hpos : pos < arr.length) :
    (ExtHeap.remove (set_index N0 N L) slot arr pos).1
      = some (arr.getD pos (0, 0)) ∧
    (arr.getD pos (0, 0) ::
      (ExtHeap.remove (set_index N0 N L) slot arr pos).2.2).Perm arr ∧
    InHeap N0 N L (ExtHeap.remove (set_index N0 N L) slot arr pos).2.1
      (ExtHeap.remove (set_index N0 N L) slot arr pos).2.2 ∧
    IsHeap (ExtHeap.remove (set_index N0 N L) slot arr pos).2.2 ∧
    IndexFrame slot (ExtHeap.remove (set_index N0 N L) slot arr pos).2.1 ∧
    FrameOutside (heapKeys arr) slot
      (ExtHeap.remove (set_index N0 N L) slot arr pos).2.1 := by
  by_cases hlast : pos = arr.length - 1
  · have heq : ExtHeap.remove (set_index N0 N L) slot arr pos
        = (some (arr.getD pos (0, 0)), slot, arr.dropLast) := by
      simp only [ExtHeap.remove, if_pos hpos, if_pos hlast]
    rw [heq]
    have hne : arr ≠ [] := List.ne_nil_of_length_pos (by omega)
    refine ⟨rfl, ?_, ?_, ?_, IndexFrame.refl slot, fun k _ => rfl⟩
    · show (arr.getD pos (0, 0) :: arr.dropLast).Perm arr
      rw [hlast]
      exact last_cons_dropLast_perm arr hne
    · show InHeap N0 N L slot arr.dropLast
      intro p hp
      have hp1 : p < arr.length - 1 := by
        have := arr.length_dropLast
        omega
      rw [getD_dropLast hp1]
      exact hsync p (by omega) (by omega)
    · show IsHeap arr.dropLast
      intro j hj0 hjl
      have hj1 : j < arr.length - 1 := by
        have := arr.length_dropLast
        omega
      have hpj1 : ExtHeap.par j < arr.length - 1 := by
        have := par_lt hj0
        omega
      rw [getD_dropLast hj1, getD_dropLast hpj1]
      exact hheap j hj0 (by omega)
  · have hposlt : pos + 1 < arr.length := by omega
    have hlen1 : (arr.dropLast.set pos (arr.getD (arr.length - 1) (0, 0))).length
        = arr.length - 1 := by
      simp
    have hgpos : (arr.dropLast.set pos
        (arr.getD (arr.length - 1) (0, 0))).getD pos (0, 0)
        = arr.getD (arr.length - 1) (0, 0) :=
      getD_set_self (by simp; omega)
    have hgq : ∀ q, q ≠ pos →
        q < (arr.dropLast.set pos (arr.getD (arr.length - 1) (0, 0))).length →
        (arr.dropLast.set pos (arr.getD (arr.length - 1) (0, 0))).getD q (0, 0)
          = arr.getD q (0, 0) := by
      intro q hq hql
      rw [hlen1] at hql
      rw [getD_set_ne (fun e => hq e.symm), getD_dropLast hql]
    have hperm0 : (arr.getD pos (0, 0) ::
        (arr.dropLast.set pos (arr.getD (arr.length - 1) (0, 0)))).Perm arr :=
      replace_perm arr pos hposlt
    have hsync1 : InHeap N0 N L
        (set_index N0 N L slot
          (arr.dropLast.set pos (arr.getD (arr.length - 1) (0, 0))) pos)
        (arr.dropLast.set pos (arr.getD (arr.length - 1) (0, 0))) := by
      intro p hp
      have hposl1 : pos <
          (arr.dropLast.set pos (arr.getD (arr.length - 1) (0, 0))).length := by
        rw [hlen1]
        omega
      by_cases hp0 : p = pos
      · subst hp0
        rw [set_index_get?_self N0 N L slot hposl1, hgpos]
        obtain ⟨n, hn, hix⟩ := hsync (arr.length - 1) (by omega) (by omega)
        rw [hn]
        exact ⟨_, rfl, rfl⟩
      · rw [set_index_get?_ne2 N0 N L slot hposl1 (by
          rw [hgpos, hgq p hp0 hp]
          exact heapKeys_nodup_ne hnd (by rw [hlen1] at hp; omega) (by omega)
            (by rw [hlen1] at hp; omega))]
        rw [hgq p hp0 hp]
        rw [hlen1] at hp
        exact hsync p (by omega) hp0
    have hnd1 : (heapKeys
        (arr.dropLast.set pos (arr.getD (arr.length - 1) (0, 0)))).Nodup := by
      have := (hperm0.map Prod.snd).nodup_iff.2 hnd
      rw [List.map_cons] at this
      exact (List.nodup_cons.1 this).2
    have hchild : 0 < pos → ∀ c,
        c < (arr.dropLast.set pos (arr.getD (arr.length - 1) (0, 0))).length →
        ExtHeap.par c = pos →
        eLe ((arr.dropLast.set pos (arr.getD (arr.length - 1) (0, 0))).getD
            (ExtHeap.par pos) (0, 0))
          ((arr.dropLast.set pos
            (arr.getD (arr.length - 1) (0, 0))).getD c (0, 0)) = true := by
      intro hp0 c hcl hpc
      have hclt : pos < c := by
        have hc0 : 0 < c := by
          rcases Nat.eq_zero_or_pos c with hc | hc
          · exfalso
            rw [hc, show ExtHeap.par 0 = 0 from rfl] at hpc
            omega
          · exact hc
        have := par_lt hc0
        omega
      have hplt := par_lt hp0
      rw [hgq (ExtHeap.par pos) (by omega) (by rw [hlen1]; omega),
        hgq c (by omega) hcl]
      rw [hlen1] at hcl
      have h1 : eLe (arr.getD (ExtHeap.par pos) (0, 0))
          (arr.getD pos (0, 0)) = true := hheap pos hp0 (by omega)
      have h2 : eLe (arr.getD pos (0, 0)) (arr.getD c (0, 0)) = true := by
        have h := hheap c (by omega) (by omega)
        rw [hpc] at h
        exact h
      exact eLe_trans h1 h2
    have hpairs : ∀ j, 0 < j →
        j < (arr.dropLast.set pos (arr.getD (arr.length - 1) (0, 0))).length →
        j ≠ pos → ExtHeap.par j ≠ pos →
        eLe ((arr.dropLast.set pos (arr.getD (arr.length - 1) (0, 0))).getD
            (ExtHeap.par j) (0, 0))
          ((arr.dropLast.set pos
            (arr.getD (arr.length - 1) (0, 0))).getD j (0, 0)) = true := by
      intro j hj0 hjl hjne hpjne
      have hplt := par_lt hj0
      rw [hgq j hjne hjl, hgq (ExtHeap.par j) hpjne (by rw [hlen1] at hjl ⊢; omega)]
      rw [hlen1] at hjl
      exact hheap j hj0 (by omega)
    have hsub1 : ∀ k,
        k ∈ heapKeys (arr.dropLast.set pos (arr.getD (arr.length - 1) (0, 0))) →
        k ∈ heapKeys arr := by
      intro k hk
      have : k ∈ heapKeys (arr.getD pos (0, 0) ::
          (arr.dropLast.set pos (arr.getD (arr.length - 1) (0, 0)))) := by
        rw [heapKeys_cons]
        exact List.mem_cons_of_mem _ hk
      exact (hperm0.map Prod.snd).mem_iff.1 this
    by_cases hb : (decide (pos = 0) ||
        eLe ((arr.dropLast.set pos (arr.getD (arr.length - 1) (0, 0))).getD
            (ExtHeap.par pos) (0, 0))
          ((arr.dropLast.set pos
            (arr.getD (arr.length - 1) (0, 0))).getD pos (0, 0))) = true
    · have heq : ExtHeap.remove (set_index N0 N L) slot arr pos
          = (some (arr.getD pos (0, 0)),
            (ExtHeap.siftDown (set_index N0 N L)
              (set_index N0 N L slot
                (arr.dropLast.set pos (arr.getD (arr.length - 1) (0, 0))) pos)
              (arr.dropLast.set pos (arr.getD (arr.length - 1) (0, 0)))
              pos).1,
            (ExtHeap.siftDown (set_index N0 N L)
              (set_index N0 N L slot
                (arr.dropLast.set pos (arr.getD (arr.length - 1) (0, 0))) pos)
              (arr.dropLast.set pos (arr.getD (arr.length - 1) (0, 0)))
              pos).2) := by
        simp only [ExtHeap.remove, if_pos hpos, if_neg hlast, hb, if_true]
      rw [heq]
      have hdo : DownOk
          (arr.dropLast.set pos (arr.getD (arr.length - 1) (0, 0))) pos := by
        refine ⟨hpairs, hchild, ?_⟩
        intro hp0
        rcases Bool.or_eq_true_iff.1 hb with hb1 | hb1
        · exfalso
          have : pos = 0 := by simpa using hb1
          omega
        · exact hb1
      obtain ⟨hperm, hsync2, hframe, hout⟩ :=
        siftDown_master N0 N L
          (set_index N0 N L slot
            (arr.dropLast.set pos (arr.getD (arr.length - 1) (0, 0))) pos)
          (arr.dropLast.set pos (arr.getD (arr.length - 1) (0, 0))) pos
          hsync1 hnd1
      refine ⟨rfl, (hperm.cons _).trans hperm0, hsync2,
        siftDown_isHeap (set_index N0 N L) _ _ pos hdo,
        (set_index_IndexFrame N0 N L slot _ pos).comp hframe, ?_⟩
      have h1 : FrameOutside (heapKeys arr) slot
          (set_index N0 N L slot
            (arr.dropLast.set pos (arr.getD (arr.length - 1) (0, 0))) pos) :=
        (set_index_FrameOutside N0 N L slot _ pos).mono hsub1
      exact h1.chain (hout.mono hsub1)
    · have heq : ExtHeap.remove (set_index N0 N L) slot arr pos
          = (some (arr.getD pos (0, 0)),
            (ExtHeap.siftUp (set_index N0 N L)
              (set_index N0 N L slot
                (arr.dropLast.set pos (arr.getD (arr.length - 1) (0, 0))) pos)
              (arr.dropLast.set pos (arr.getD (arr.length - 1) (0, 0)))
              pos).1,
            (ExtHeap.siftUp (set_index N0 N L)
              (set_index N0 N L slot
                (arr.dropLast.set pos (arr.getD (arr.length - 1) (0, 0))) pos)
              (arr.dropLast.set pos (arr.getD (arr.length - 1) (0, 0)))
              pos).2) := by
        have hbf : (decide (pos = 0) ||
            eLe ((arr.dropLast.set pos
                (arr.getD (arr.length - 1) (0, 0))).getD
                (ExtHeap.par pos) (0, 0))
              ((arr.dropLast.set pos
                (arr.getD (arr.length - 1) (0, 0))).getD pos (0, 0)))
            = false := by
          simpa using hb
        simp only [ExtHeap.remove, if_pos hpos, if_neg hlast, hbf,
          Bool.false_eq_true, if_false]
      rw [heq]
      simp only [Bool.or_eq_true, decide_eq_true_eq, not_or,
        Bool.not_eq_true] at hb
      have hup : UpOk
          (arr.dropLast.set pos (arr.getD (arr.length - 1) (0, 0))) pos := by
        refine ⟨hpairs, hchild, ?_⟩
        intro hpre
        exfalso
        rw [hpre] at hb
        exact absurd hb.2 (by simp)
      have hposl1 : pos <
          (arr.dropLast.set pos (arr.getD (arr.length - 1) (0, 0))).length := by
        rw [hlen1]
        omega
      obtain ⟨hperm, hsync2, hframe, hout⟩ :=
        siftUp_master N0 N L
          (set_index N0 N L slot
            (arr.dropLast.set pos (arr.getD (arr.length - 1) (0, 0))) pos)
          (arr.dropLast.set pos (arr.getD (arr.length - 1) (0, 0))) pos
          hposl1 hsync1 hnd1
      refine ⟨rfl, (hperm.cons _).trans hperm0, hsync2,
        siftUp_isHeap (set_index N0 N L) _ _ pos hposl1 hup,
        (set_index_IndexFrame N0 N L slot _ pos).comp hframe, ?_⟩
      have h1 : FrameOutside (heapKeys arr) slot
          (set_index N0 N L slot
            (arr.dropLast.set pos (arr.getD (arr.length - 1) (0, 0))) pos) :=
        (set_index_FrameOutside N0 N L slot _ pos).mono hsub1
      exact h1.chain (hout.mono hsub1)

end HeapRemoveSpec

section WheelSupport

variable {T : Type}

/-- All keys currently linked into wheel buckets. -/
def wheelKeys (N0 N L : Nat) (w : Wheel) : List Nat :=
  (List.range (max_time N0 N L)).flatMap w.buckets

theorem mem_wheelKeys {N0 N L : Nat} {w : Wheel} {k : Nat} :
    k ∈ wheelKeys N0 N L w ↔
      ∃ b, b < max_time N0 N L ∧ k ∈ w.buckets b := by
  unfold wheelKeys
  rw [List.mem_flatMap]
  constructor
  · rintro ⟨b, hb, hk⟩
    exact ⟨b, by simpa using hb, hk⟩
  · rintro ⟨b, hb, hk⟩
    exact ⟨b, by simpa using hb, hk⟩

theorem flatMap_update_perm (f : Nat → List Nat) (x : Nat) :
    ∀ (m b : Nat), b < m → ∀ (l' : List Nat), l'.Perm (x :: f b) →
      ((List.range m).flatMap
          (fun i => if i = b then l' else f i)).Perm
        (x :: (List.range m).flatMap f) := by
  intro m
  induction m with
  | zero => intro b hb; omega
  | succ m ih =>
    intro b hb l' hperm
    simp only [List.range_succ, List.flatMap_append, List.flatMap_singleton]
    rcases Nat.lt_or_ge b m with hbm | hbm
    · have hmb : ¬ (m = b) := by omega
      rw [if_neg hmb]
      exact (ih b hbm l' hperm).append_right (f m)
    · have hbe : b = m := by omega
      subst hbe
      have h2 : ((List.range b).flatMap fun i => if i = b then l' else f i)
          = (List.range b).flatMap f := by
        apply List.flatMap_congr
        intro i hi
        rw [List.mem_range] at hi
        have hib : ¬ (i = b) := by omega
        rw [if_neg hib]
      have h3 : (if b = b then l' else f b) = l' := if_pos rfl
      rw [h2, h3]
      exact ((List.Perm.refl _).append hperm).trans List.perm_middle

theorem flatMap_erase_perm (f : Nat → List Nat) (x : Nat) (m b : Nat)
    (hb : b < m) (l' : List Nat) (hperm : (f b).Perm (x :: l')) :
    ((List.range m).flatMap f).Perm
      (x :: (List.range m).flatMap (fun i => if i = b then l' else f i)) := by
  have h1 := flatMap_update_perm (fun i => if i = b then l' else f i) x m b hb
    (f b) (by simpa using hperm)
  have h2 : ((List.range m).flatMap
      (fun i => if i = b then f b else if i = b then l' else f i))
      = (List.range m).flatMap f := by
    apply List.flatMap_congr
    intro i hi
    by_cases hib : i = b
    · subst hib
      simp
    · simp [hib]
  rw [h2] at h1
  exact h1

theorem filter_ne_perm :
    ∀ (l : List Nat) (k : Nat), l.Nodup → k ∈ l →
      l.Perm (k :: l.filter (fun x => x != k)) := by
  intro l
  induction l with
  | nil => intro k _ hk; simp at hk
  | cons a t ih =>
    intro k hnd hk
    rcases List.mem_cons.1 hk with h1 | h1
    · subst h1
      rw [List.filter_cons_of_neg (by simp)]
      have hself : t.filter (fun x => x != k) = t := by
        rw [List.filter_eq_self]
        intro x hx
        have hxk : x ≠ k := by
          intro he
          exact (List.nodup_cons.1 hnd).1 (he ▸ hx)
        simpa using hxk
      rw [hself]
    · have hak : a ≠ k := by
        intro he
        exact (List.nodup_cons.1 hnd).1 (he ▸ h1)
      rw [List.filter_cons_of_pos (by simpa using hak)]
      have := (ih k (List.nodup_cons.1 hnd).2 h1).cons a
      exact this.trans (List.Perm.swap _ _ _)

theorem nodup_buckets {N0 N L : Nat} {w : Wheel}
    (hnd : (wheelKeys N0 N L w).Nodup) {b : Nat}
    (hb : b < max_time N0 N L) : (w.buckets b).Nodup := by
  unfold wheelKeys at hnd
  exact (List.nodup_bind.1 hnd).1 b (by simpa using hb)

theorem disjoint_buckets {N0 N L : Nat} {w : Wheel}
    (hnd : (wheelKeys N0 N L w).Nodup) {b b' : Nat}
    (hb : b < max_time N0 N L) (hb' : b' < max_time N0 N L) (hne : b ≠ b')
    {k : Nat} (hk : k ∈ w.buckets b) : k ∉ w.buckets b' := by
  unfold wheelKeys at hnd
  have hpw := (List.nodup_bind.1 hnd).2
  have hget := List.pairwise_iff_getElem.1 hpw
  intro hk'
  rcases Nat.lt_or_ge b b' with hlt | hge
  · have h := hget b b' (by simpa using hb) (by simpa using hb') hlt
    simp only [List.getElem_range, Function.onFun] at h
    exact h hk hk'
  · have hlt' : b' < b := by omega
    have h := hget b' b (by simpa using hb') (by simpa using hb) hlt'
    simp only [List.getElem_range, Function.onFun] at h
    exact h hk' hk

end WheelSupport

/-- The timer of `src/lib.rs`: the arena, the wheel, the overflow min-heap
and the three counters. -/
structure Timer (T : Type) where
  slot : Slot T
  wheel : Wheel
  heap : List HE
  add_count : Nat
  remove_count : Nat
  roll_count : Nat

namespace Timer

variable (N0 N L : Nat) {T : Type}

/-- `Timer::default()`: empty arena, fresh wheel, empty heap, zero
counters. -/
def init : Timer T :=
  ⟨⟨1, []⟩, ⟨0, fun _ => []⟩, [], 0, 0, 0⟩

/-- `Timer::push` of `src/lib.rs`: count the addition, try the wheel, and on
overflow allocate a detached node (timeout 0, location tag `N0 + N * L`) and
push the overflow tick and key into the heap with `set_index` as relocation
callback. -/
def push (s : Timer T) (timeout : Nat) (el : T) : Nat × Timer T :=
  match Wheel.push N0 N L s.wheel timeout el s.slot with
  | .ok k slot1 w1 =>
    (k, { s with slot := slot1, wheel := w1, add_count := s.add_count + 1 })
  | .overflow tick el1 =>
    let ks := s.slot.insert ⟨⟨0, el1, N0 + N * L⟩, 0, 0⟩
    let sh := ExtHeap.push (set_index N0 N L) ks.2 s.heap (tick, ks.1)
    (ks.1, { s with slot := sh.1, heap := sh.2, add_count := s.add_count + 1 })

/-- `Timer::push_time` of `src/lib.rs`: convert the absolute time into a
delay with `checked_sub` saturating to zero, and push. -/
def push_time (s : Timer T) (time : Nat) (el : T) : Nat × Timer T :=
  push N0 N L s (time - s.roll_count) el

/-- The heap-to-wheel migration loop inside `Timer::roll`: while the top of
the heap has a tick below `max_time`, pop it and re-insert it into the wheel
via `push_key` with the `retimeout` callback. -/
def migrate (w : Wheel) (slot : Slot T) (heap : List HE) :
    Wheel × Slot T × List HE :=
  match heap with
  | [] => (w, slot, [])
  | it :: rest =>
    if max_time N0 N L ≤ it.1 then (w, slot, it :: rest)
    else
      let psh := ExtHeap.pop (set_index N0 N L) slot (it :: rest)
      match psh.1 with
      | some tk =>
        let ws := Wheel.push_key N0 N L w tk.2 psh.2.1 tk.1 retimeout
        migrate ws.1 ws.2 psh.2.2
      | none => (w, psh.2.1, psh.2.2)
termination_by heap.length
decreasing_by
  have hlen := ExtHeap.pop_length (set_index N0 N L) slot (it :: rest)
  simp only [psh, hlen]
  simp

/-- `Timer::roll` of `src/lib.rs`: count the roll, roll the wheel, and on a
full-epoch wrap subtract `max_time` from every heap tick and migrate the
now-in-range heap entries into the wheel. -/
def roll (s : Timer T) : Timer T :=
  let wb := Wheel.roll N0 N L s.wheel
  if wb.2 then
    let heap1 := s.heap.map (fun e => (e.1 - max_time N0 N L, e.2))
    let wsh := migrate N0 N L wb.1 s.slot heap1
    { s with
      wheel := wsh.1
      slot := wsh.2.1
      heap := wsh.2.2
      roll_count := s.roll_count + 1 }
  else { s with wheel := wb.1, roll_count := s.roll_count + 1 }

theorem roll_roll_count (s : Timer T) :
    (roll N0 N L s).roll_count = s.roll_count + 1 := by
  simp only [roll]
  split <;> rfl

/-- `Timer::pop` of `src/lib.rs`: loop: try `Wheel::pop`; on success count
the removal and return the element; otherwise return `none` once
`roll_count >= now`, else roll and retry. -/
def pop (s : Timer T) (now : Nat) : Option T × Timer T :=
  match Wheel.pop N0 N L s.wheel s.slot with
  | (some it, w1, slot1) =>
    (some it.el,
      { s with wheel := w1, slot := slot1, remove_count := s.remove_count + 1 })
  | (none, _, _) =>
    if s.roll_count < now then pop (roll N0 N L s) now
    else (none, s)
termination_by now - s.roll_count
decreasing_by
  rename_i h
  rw [roll_roll_count]
  omega

/-- `Timer::pop_kv` of `src/lib.rs`: as `pop`, returning the key as well. -/
def pop_kv (s : Timer T) (now : Nat) : Option (Nat × T) × Timer T :=
  match Wheel.pop_kv N0 N L s.wheel s.slot with
  | (some kit, w1, slot1) =>
    (some (kit.1, kit.2.el),
      { s with wheel := w1, slot := slot1, remove_count := s.remove_count + 1 })
  | (none, _, _) =>
    if s.roll_count < now then pop_kv (roll N0 N L s) now
    else (none, s)
termination_by now - s.roll_count
decreasing_by
  rename_i h
  rw [roll_roll_count]
  omega

/-- `Timer::is_ok` of `src/lib.rs`: loop: return true when the current
bucket is not exhausted; return false once `roll_count >= now`; else roll
and retry. -/
def is_ok (s : Timer T) (now : Nat) : Bool × Timer T :=
  if ¬ Wheel.is_cur_over N0 N L s.wheel then (true, s)
  else if s.roll_count < now then is_ok (roll N0 N L s) now
  else (false, s)
termination_by now - s.roll_count
decreasing_by
  rename_i h
  rw [roll_roll_count]
  omega

/-- `Timer::cancel` of `src/lib.rs`: remove the key from the arena; if live,
count the removal and unlink from the wheel bucket (location tag below
`N0 + N * L`) or remove from the heap at position `location - N0 - N * L`
(with `set_index` keeping the other locations correct), returning the
payload. -/
def cancel (s : Timer T) (k : Nat) : Option T × Timer T :=
  match Slot.remove s.slot k with
  | (some node, slot1) =>
    if node.el.index < N0 + N * L then
      (some node.el.el,
        { s with
          slot := slot1
          wheel := Wheel.repair s.wheel node.el.index k
          remove_count := s.remove_count + 1 })
    else
      let rsh := ExtHeap.remove (set_index N0 N L) slot1 s.heap
        (node.el.index - N0 - N * L)
      (some node.el.el,
        { s with
          slot := rsh.2.1
          heap := rsh.2.2
          remove_count := s.remove_count + 1 })
  | (none, _) => (none, s)

end Timer

section Invariant

variable {T : Type}

/-- All keys currently held by a container (wheel bucket or heap). -/
def allKeys (N0 N L : Nat) (s : Timer T) : List Nat :=
  wheelKeys N0 N L s.wheel ++ heapKeys s.heap

/-- The inductive invariant of reachable timer states: arena keys are fresh
and distinct, buckets beyond the wheel range are empty, the container keys
are exactly the live arena keys (with multiplicity one), every node's
location tag matches its container position, the heap is ordered with all
ticks at least `max_time`, the counters account for the arena size, and the
wheel clock equals `roll_count`. -/
structure Inv (N0 N L : Nat) (s : Timer T) : Prop where
  keys_lt : ∀ k ∈ s.slot.entries.map Prod.fst, k < s.slot.nextKey
  keys_nodup : (s.slot.entries.map Prod.fst).Nodup
  buckets_hi : ∀ b, max_time N0 N L ≤ b → s.wheel.buckets b = []
  cont_perm : (allKeys N0 N L s).Perm (s.slot.entries.map Prod.fst)
  wheel_sync : ∀ b, b < max_time N0 N L → ∀ k ∈ s.wheel.buckets b,
    ∃ n, s.slot.get? k = some n ∧ n.el.index = b
  heap_sync : InHeap N0 N L s.slot s.heap
  heap_heap : IsHeap s.heap
  heap_ge : ∀ e ∈ s.heap, max_time N0 N L ≤ e.1
  count_eq : s.add_count = s.remove_count + s.slot.entries.length
  time_eq : s.wheel.time = s.roll_count

theorem Inv.all_nodup {N0 N L : Nat} {s : Timer T} (h : Inv N0 N L s) :
    (allKeys N0 N L s).Nodup :=
  h.cont_perm.nodup_iff.2 h.keys_nodup

theorem Inv.mem_iff {N0 N L : Nat} {s : Timer T} (h : Inv N0 N L s)
    (k : Nat) : k ∈ allKeys N0 N L s ↔ (s.slot.get? k).isSome := by
  rw [h.cont_perm.mem_iff, Slot.get?_isSome_iff_mem]

theorem Inv.live_lt {N0 N L : Nat} {s : Timer T} (h : Inv N0 N L s)
    {k : Nat} (hk : (s.slot.get? k).isSome) : k < s.slot.nextKey :=
  h.keys_lt k ((Slot.get?_isSome_iff_mem _ _).1 hk)

theorem Inv.heap_nodup {N0 N L : Nat} {s : Timer T} (h : Inv N0 N L s) :
    (heapKeys s.heap).Nodup :=
  (List.nodup_append.1 h.all_nodup).2.1

theorem Inv.wheel_nodup {N0 N L : Nat} {s : Timer T} (h : Inv N0 N L s) :
    (wheelKeys N0 N L s.wheel).Nodup :=
  (List.nodup_append.1 h.all_nodup).1

theorem Inv.wh_disjoint {N0 N L : Nat} {s : Timer T} (h : Inv N0 N L s)
    {k : Nat} (hk : k ∈ wheelKeys N0 N L s.wheel) : k ∉ heapKeys s.heap :=
  (List.nodup_append.1 h.all_nodup).2.2 hk

theorem wheelKeys_init (N0 N L : Nat) :
    wheelKeys N0 N L (Timer.init (T := T)).wheel = [] := by
  apply List.eq_nil_iff_forall_not_mem.2
  intro k hk
  obtain ⟨b, _, hkb⟩ := mem_wheelKeys.1 hk
  exact absurd hkb (by simp [Timer.init])

theorem init_inv (N0 N L : Nat) : Inv N0 N L (Timer.init (T := T)) := by
  refine ⟨?_, ?_, ?_, ?_, ?_, ?_, ?_, ?_, ?_, ?_⟩
  · intro k hk
    simp [Timer.init] at hk
  · simp [Timer.init]
  · intro b _
    rfl
  · rw [allKeys, wheelKeys_init]
    simp [Timer.init, heapKeys]
  · intro b _ k hk
    simp [Timer.init] at hk
  · intro i hi
    simp [Timer.init] at hi
  · intro j _ hj
    simp [Timer.init] at hj
  · intro e he
    simp [Timer.init] at he
  · rfl
  · rfl

end Invariant

section PushInv

variable {T : Type}

theorem push_eq_wheel (N0 N L : Nat) (s : Timer T) (t : Nat) (el : T)
    (hlt : t < max_time N0 N L) :
    Timer.push N0 N L s t el
      = (s.slot.nextKey,
        { s with
          slot := (s.slot.insert
            ⟨⟨t, el,
              (Wheel.position N0 N L s.wheel + t) % max_time N0 N L⟩, 0, 0⟩).2
          wheel := Wheel.setBucket s.wheel
            ((Wheel.position N0 N L s.wheel + t) % max_time N0 N L)
            (s.wheel.buckets
              ((Wheel.position N0 N L s.wheel + t) % max_time N0 N L)
              ++ [s.slot.nextKey])
          add_count := s.add_count + 1 }) := by
  simp only [Timer.push, Wheel.push, if_pos hlt, Slot.insert]

theorem push_eq_overflow (N0 N L : Nat) (s : Timer T) (t : Nat) (el : T)
    (hge : ¬ t < max_time N0 N L) :
    Timer.push N0 N L s t el
      = (s.slot.nextKey,
        { s with
          slot := (ExtHeap.push (set_index N0 N L)
            (s.slot.insert ⟨⟨0, el, N0 + N * L⟩, 0, 0⟩).2 s.heap
            (Wheel.position N0 N L s.wheel + t, s.slot.nextKey)).1
          heap := (ExtHeap.push (set_index N0 N L)
            (s.slot.insert ⟨⟨0, el, N0 + N * L⟩, 0, 0⟩).2 s.heap
            (Wheel.position N0 N L s.wheel + t, s.slot.nextKey)).2
          add_count := s.add_count + 1 }) := by
  simp only [Timer.push, Wheel.push, if_neg hge, Slot.insert]

theorem push_inv (N0 N L : Nat) (s : Timer T) (t : Nat) (el : T)
    (h : Inv N0 N L s) : Inv N0 N L (Timer.push N0 N L s t el).2 := by
  by_cases hlt : t < max_time N0 N L
  · rw [push_eq_wheel N0 N L s t el hlt]
    have hmax : 0 < max_time N0 N L := by omega
    have hb : (Wheel.position N0 N L s.wheel + t) % max_time N0 N L
        < max_time N0 N L := Nat.mod_lt _ hmax
    have hfresh : ∀ k, k ∈ allKeys N0 N L s → k ≠ s.slot.nextKey := by
      intro k hk he
      have := h.live_lt ((h.mem_iff k).1 hk)
      omega
    refine ⟨?_, ?_, ?_, ?_, ?_, ?_, ?_, ?_, ?_, ?_⟩
    · intro k hk
      rw [Slot.insert_keys] at hk
      rcases List.mem_cons.1 hk with h1 | h1
      · simp only [Slot.insert_nextKey]
        omega
      · have := h.keys_lt k h1
        simp only [Slot.insert_nextKey]
        omega
    · rw [Slot.insert_keys]
      refine List.nodup_cons.2 ⟨?_, h.keys_nodup⟩
      intro hmem
      have := h.keys_lt _ hmem
      omega
    · intro b hbge
      show (if b = _ then _ else s.wheel.buckets b) = []
      rw [if_neg (by omega)]
      exact h.buckets_hi b hbge
    · show (wheelKeys N0 N L (Wheel.setBucket _ _ _) ++ heapKeys s.heap).Perm _
      have hwp : (wheelKeys N0 N L (Wheel.setBucket s.wheel
          ((Wheel.position N0 N L s.wheel + t) % max_time N0 N L)
          (s.wheel.buckets
            ((Wheel.position N0 N L s.wheel + t) % max_time N0 N L)
            ++ [s.slot.nextKey]))).Perm
          (s.slot.nextKey :: wheelKeys N0 N L s.wheel) := by
        unfold wheelKeys Wheel.setBucket
        exact flatMap_update_perm s.wheel.buckets s.slot.nextKey
          (max_time N0 N L) _ hb _ (List.perm_append_singleton _ _)
      rw [Slot.insert_keys]
      exact (hwp.append_right _).trans (h.cont_perm.cons _)
    · intro b hblt k hk
      show ∃ n, (s.slot.insert _).2.get? k = some n ∧ n.el.index = b
      have hk' : k ∈ (if b = (Wheel.position N0 N L s.wheel + t)
          % max_time N0 N L then _ else s.wheel.buckets b) := hk
      by_cases hbb : b = (Wheel.position N0 N L s.wheel + t) % max_time N0 N L
      · rw [if_pos hbb] at hk'
        rcases List.mem_append.1 hk' with h1 | h1
        · have hlive : k ∈ allKeys N0 N L s := by
            apply List.mem_append_left
            exact mem_wheelKeys.2 ⟨b, hblt, hbb ▸ h1⟩
          rw [Slot.get?_insert_ne _ _ (hfresh k hlive)]
          obtain ⟨n, hn, hix⟩ := h.wheel_sync b hblt k (hbb ▸ h1)
          exact ⟨n, hn, hix⟩
        · have hke : k = s.slot.nextKey := by simpa using h1
          subst hke
          rw [Slot.get?_insert_self]
          exact ⟨_, rfl, hbb.symm⟩
      · rw [if_neg hbb] at hk'
        have hlive : k ∈ allKeys N0 N L s := by
          apply List.mem_append_left
          exact mem_wheelKeys.2 ⟨b, hblt, hk'⟩
        rw [Slot.get?_insert_ne _ _ (hfresh k hlive)]
        exact h.wheel_sync b hblt k hk'
    · intro i hi
      have hlive : (s.heap.getD i (0, 0)).2 ∈ allKeys N0 N L s :=
        List.mem_append_right _ (getD_snd_mem_heapKeys hi)
      show ∃ n, (s.slot.insert _).2.get? _ = some n ∧ _
      rw [Slot.get?_insert_ne _ _ (hfresh _ hlive)]
      exact h.heap_sync i hi
    · exact h.heap_heap
    · exact h.heap_ge
    · show s.add_count + 1 = s.remove_count + (s.slot.insert _).2.entries.length
      rw [Slot.insert_length]
      have := h.count_eq
      omega
    · exact h.time_eq
  · rw [push_eq_overflow N0 N L s t el hlt]
    have hge : max_time N0 N L ≤ t := by omega
    have hfresh : ∀ k, k ∈ allKeys N0 N L s → k ≠ s.slot.nextKey := by
      intro k hk he
      have := h.live_lt ((h.mem_iff k).1 hk)
      omega
    have hsync1 : InHeap N0 N L
        (s.slot.insert ⟨⟨0, el, N0 + N * L⟩, 0, 0⟩).2 s.heap := by
      intro i hi
      have hlive : (s.heap.getD i (0, 0)).2 ∈ allKeys N0 N L s :=
        List.mem_append_right _ (getD_snd_mem_heapKeys hi)
      rw [Slot.get?_insert_ne _ _ (hfresh _ hlive)]
      exact h.heap_sync i hi
    have hxnd : s.slot.nextKey ∉ heapKeys s.heap := by
      intro hmem
      exact hfresh _ (List.mem_append_right _ hmem) rfl
    obtain ⟨hperm, hsync2, hheap2, hframe, hout⟩ :=
      heap_push_spec N0 N L (s.slot.insert ⟨⟨0, el, N0 + N * L⟩, 0, 0⟩).2
        s.heap (Wheel.position N0 N L s.wheel + t, s.slot.nextKey)
        hsync1 h.heap_nodup h.heap_heap
        (by simp [Slot.get?_insert_self]) hxnd
    have hkeys : (ExtHeap.push (set_index N0 N L)
        (s.slot.insert ⟨⟨0, el, N0 + N * L⟩, 0, 0⟩).2 s.heap
        (Wheel.position N0 N L s.wheel + t, s.slot.nextKey)).1.entries.map
          Prod.fst
        = s.slot.nextKey :: s.slot.entries.map Prod.fst := by
      rw [hframe.2.1, Slot.insert_keys]
    have hnk : (ExtHeap.push (set_index N0 N L)
        (s.slot.insert ⟨⟨0, el, N0 + N * L⟩, 0, 0⟩).2 s.heap
        (Wheel.position N0 N L s.wheel + t, s.slot.nextKey)).1.nextKey
        = s.slot.nextKey + 1 := by
      rw [hframe.1, Slot.insert_nextKey]
    have houtside : ∀ k, k ∉ heapKeys s.heap → k ≠ s.slot.nextKey →
        (ExtHeap.push (set_index N0 N L)
          (s.slot.insert ⟨⟨0, el, N0 + N * L⟩, 0, 0⟩).2 s.heap
          (Wheel.position N0 N L s.wheel + t, s.slot.nextKey)).1.get? k
          = s.slot.get? k := by
      intro k hk1 hk2
      rw [hout k (by
        intro hmem
        rcases List.mem_append.1 hmem with h1 | h1
        · exact hk1 h1
        · exact hk2 (by simpa using h1))]
      exact Slot.get?_insert_ne _ _ hk2
    refine ⟨?_, ?_, ?_, ?_, ?_, ?_, ?_, ?_, ?_, ?_⟩
    · intro k hk
      rw [hkeys] at hk
      rw [hnk]
      rcases List.mem_cons.1 hk with h1 | h1
      · omega
      · have := h.keys_lt k h1
        omega
    · rw [hkeys]
      refine List.nodup_cons.2 ⟨?_, h.keys_nodup⟩
      intro hmem
      have := h.keys_lt _ hmem
      omega
    · exact h.buckets_hi
    · have hhp : (heapKeys (ExtHeap.push (set_index N0 N L)
          (s.slot.insert ⟨⟨0, el, N0 + N * L⟩, 0, 0⟩).2 s.heap
          (Wheel.position N0 N L s.wheel + t, s.slot.nextKey)).2).Perm
          (s.slot.nextKey :: heapKeys s.heap) := by
        have h1 := hperm.map Prod.snd
        simp only [heapKeys, List.map_append, List.map_cons, List.map_nil]
          at h1 ⊢
        exact h1.trans (List.perm_append_singleton _ _)
      rw [hkeys]
      exact (hhp.append_left _).trans
        (List.perm_middle.trans (h.cont_perm.cons _))
    · intro b hblt k hk
      have hkw : k ∈ wheelKeys N0 N L s.wheel := mem_wheelKeys.2 ⟨b, hblt, hk⟩
      rw [houtside k (h.wh_disjoint hkw)
        (hfresh k (List.mem_append_left _ hkw))]
      exact h.wheel_sync b hblt k hk
    · exact hsync2
    · exact hheap2
    · intro e he
      have := hperm.mem_iff.1 he
      rcases List.mem_append.1 this with h1 | h1
      · exact h.heap_ge e h1
      · have : e = (Wheel.position N0 N L s.wheel + t, s.slot.nextKey) := by
          simpa using h1
        rw [this]
        show max_time N0 N L ≤ Wheel.position N0 N L s.wheel + t
        omega
    · show s.add_count + 1 = s.remove_count + _
      have hlen : (ExtHeap.push (set_index N0 N L)
          (s.slot.insert ⟨⟨0, el, N0 + N * L⟩, 0, 0⟩).2 s.heap
          (Wheel.position N0 N L s.wheel + t, s.slot.nextKey)).1.entries.length
          = s.slot.entries.length + 1 := by
        have h1 := congrArg List.length hkeys
        simpa using h1
      rw [hlen]
      have := h.count_eq
      omega
    · exact h.time_eq

end PushInv

section PopStep

variable {T : Type}

theorem pop_kv_empty (N0 N L : Nat) (w : Wheel) (slot : Slot T)
    (hb : w.buckets (Wheel.position N0 N L w) = []) :
    Wheel.pop_kv N0 N L w slot = (none, w, slot) := by
  simp only [Wheel.pop_kv, hb]

theorem pop_step_inv (N0 N L : Nat) (s : Timer T) (h : Inv N0 N L s)
    {k : Nat} {rest : List Nat}
    (hb : s.wheel.buckets (Wheel.position N0 N L s.wheel) = k :: rest) :
    ∃ n, s.slot.get? k = some n ∧
      Wheel.pop_kv N0 N L s.wheel s.slot
        = (some (k, n.el),
           Wheel.setBucket s.wheel (Wheel.position N0 N L s.wheel) rest,
           (s.slot.remove k).2) ∧
      Inv N0 N L { s with
        wheel := Wheel.setBucket s.wheel (Wheel.position N0 N L s.wheel) rest
        slot := (s.slot.remove k).2
        remove_count := s.remove_count + 1 } := by
  have hmax : 0 < max_time N0 N L := by
    by_contra hmax
    have h0 : max_time N0 N L ≤ Wheel.position N0 N L s.wheel := by omega
    rw [h.buckets_hi _ h0] at hb
    exact absurd hb (by simp)
  have hpos : Wheel.position N0 N L s.wheel < max_time N0 N L :=
    Nat.mod_lt _ hmax
  have hkmem : k ∈ s.wheel.buckets (Wheel.position N0 N L s.wheel) := by
    rw [hb]
    exact List.mem_cons_self _ _
  obtain ⟨n, hn, hix⟩ := h.wheel_sync _ hpos k hkmem
  have hkw : k ∈ wheelKeys N0 N L s.wheel :=
    mem_wheelKeys.2 ⟨_, hpos, hkmem⟩
  have heq : Wheel.pop_kv N0 N L s.wheel s.slot
      = (some (k, n.el),
         Wheel.setBucket s.wheel (Wheel.position N0 N L s.wheel) rest,
         (s.slot.remove k).2) := by
    simp only [Wheel.pop_kv, hb, hn]
  have hkey_ne : ∀ b, b < max_time N0 N L → ∀ k', k' ∈ (if b =
      Wheel.position N0 N L s.wheel then rest else s.wheel.buckets b) →
      k' ≠ k := by
    intro b hblt k' hk' he
    subst he
    by_cases hbp : b = Wheel.position N0 N L s.wheel
    · rw [if_pos hbp] at hk'
      have hnd := nodup_buckets h.wheel_nodup hpos
      rw [hb] at hnd
      exact (List.nodup_cons.1 hnd).1 hk'
    · rw [if_neg hbp] at hk'
      exact disjoint_buckets h.wheel_nodup hpos hblt
        (fun e => hbp e.symm) hkmem hk'
  have hperm_keys : (s.slot.entries.map Prod.fst).Perm
      (k :: (s.slot.remove k).2.entries.map Prod.fst) := by
    rw [Slot.remove_keys s.slot k hn]
    exact filter_ne_perm _ k h.keys_nodup
      ((Slot.get?_isSome_iff_mem _ _).1 (by rw [hn]; rfl))
  have hperm_wheel : (wheelKeys N0 N L s.wheel).Perm
      (k :: wheelKeys N0 N L
        (Wheel.setBucket s.wheel (Wheel.position N0 N L s.wheel) rest)) := by
    unfold wheelKeys Wheel.setBucket
    exact flatMap_erase_perm s.wheel.buckets k (max_time N0 N L) _ hpos rest
      (by rw [hb])
  refine ⟨n, hn, heq, ?_, ?_, ?_, ?_, ?_, ?_, ?_, ?_, ?_, ?_⟩
  · intro k' hk'
    rw [Slot.remove_keys s.slot k hn] at hk'
    have := List.mem_of_mem_filter hk'
    simp only [Slot.remove_nextKey]
    exact h.keys_lt k' this
  · rw [Slot.remove_keys s.slot k hn]
    exact h.keys_nodup.filter _
  · intro b hbge
    show (if b = _ then _ else s.wheel.buckets b) = []
    rw [if_neg (by omega)]
    exact h.buckets_hi b hbge
  · show (wheelKeys N0 N L _ ++ heapKeys s.heap).Perm _
    have h1 : (allKeys N0 N L s).Perm
        (k :: (wheelKeys N0 N L (Wheel.setBucket s.wheel
          (Wheel.position N0 N L s.wheel) rest) ++ heapKeys s.heap)) := by
      unfold allKeys
      exact (hperm_wheel.append_right _).trans (List.Perm.refl _)
    have h2 := (h1.symm.trans h.cont_perm).trans hperm_keys
    exact h2.cons_inv
  · intro b hblt k' hk'
    have hk'' : k' ∈ (if b = Wheel.position N0 N L s.wheel then rest
        else s.wheel.buckets b) := hk'
    have hne := hkey_ne b hblt k' hk''
    show ∃ n', (s.slot.remove k).2.get? k' = some n' ∧ n'.el.index = b
    rw [Slot.get?_remove_ne s.slot hne]
    by_cases hbp : b = Wheel.position N0 N L s.wheel
    · rw [if_pos hbp] at hk''
      exact h.wheel_sync b hblt k' (by
        rw [hbp, hb]
        exact List.mem_cons_of_mem _ hk'')
    · rw [if_neg hbp] at hk''
      exact h.wheel_sync b hblt k' hk''
  · intro i hi
    have hkh : (s.heap.getD i (0, 0)).2 ∈ heapKeys s.heap :=
      getD_snd_mem_heapKeys hi
    have hne : (s.heap.getD i (0, 0)).2 ≠ k := by
      intro he
      exact h.wh_disjoint hkw (he ▸ hkh)
    show ∃ n', (s.slot.remove k).2.get? _ = some n' ∧ _
    rw [Slot.get?_remove_ne s.slot hne]
    exact h.heap_sync i hi
  · exact h.heap_heap
  · exact h.heap_ge
  · show s.add_count = s.remove_count + 1 + (s.slot.remove k).2.entries.length
    have hlen := Slot.remove_length s.slot h.keys_nodup hn
    have := h.count_eq
    omega
  · exact h.time_eq

end PopStep

section MigrateInv

variable {T : Type}

theorem head?_getD {arr : List HE} {it : HE} (h : arr.head? = some it) :
    arr.getD 0 (0, 0) = it := by
  cases arr with
  | nil => simp at h
  | cons a t =>
    simp at h
    simp [h]

/-- The heap-to-wheel migration loop preserves the container invariants and
leaves only ticks at least `max_time` in the heap. -/
theorem migrate_inv (N0 N L : Nat) (w : Wheel) (slot : Slot T)
    (heap : List HE) :
    (∀ k ∈ slot.entries.map Prod.fst, k < slot.nextKey) →
    (slot.entries.map Prod.fst).Nodup →
    (∀ b, max_time N0 N L ≤ b → w.buckets b = []) →
    (wheelKeys N0 N L w ++ heapKeys heap).Perm
      (slot.entries.map Prod.fst) →
    (∀ b, b < max_time N0 N L → ∀ k ∈ w.buckets b,
      ∃ n, slot.get? k = some n ∧ n.el.index = b) →
    InHeap N0 N L slot heap →
    IsHeap heap →
    (∀ k ∈ (Timer.migrate N0 N L w slot heap).2.1.entries.map Prod.fst,
      k < (Timer.migrate N0 N L w slot heap).2.1.nextKey) ∧
    ((Timer.migrate N0 N L w slot heap).2.1.entries.map Prod.fst).Nodup ∧
    (∀ b, max_time N0 N L ≤ b →
      (Timer.migrate N0 N L w slot heap).1.buckets b = []) ∧
    (wheelKeys N0 N L (Timer.migrate N0 N L w slot heap).1 ++
      heapKeys (Timer.migrate N0 N L w slot heap).2.2).Perm
      ((Timer.migrate N0 N L w slot heap).2.1.entries.map Prod.fst) ∧
    (∀ b, b < max_time N0 N L →
      ∀ k ∈ (Timer.migrate N0 N L w slot heap).1.buckets b,
      ∃ n, (Timer.migrate N0 N L w slot heap).2.1.get? k = some n ∧
        n.el.index = b) ∧
    InHeap N0 N L (Timer.migrate N0 N L w slot heap).2.1
      (Timer.migrate N0 N L w slot heap).2.2 ∧
    IsHeap (Timer.migrate N0 N L w slot heap).2.2 ∧
    (∀ e ∈ (Timer.migrate N0 N L w slot heap).2.2,
      max_time N0 N L ≤ e.1) ∧
    (Timer.migrate N0 N L w slot heap).2.1.entries.map Prod.fst
      = slot.entries.map Prod.fst ∧
    (Timer.migrate N0 N L w slot heap).2.1.nextKey = slot.nextKey ∧
    (Timer.migrate N0 N L w slot heap).1.time = w.time := by
  induction w, slot, heap using Timer.migrate.induct N0 N L with
  | case1 w slot =>
    intro h1 h2 h3 h4 h5 h6 h7
    have hmig : Timer.migrate N0 N L w slot ([] : List HE) = (w, slot, []) := by
      simp only [Timer.migrate]
    rw [hmig]
    exact ⟨h1, h2, h3, h4, h5, h6, h7,
      by intro e he; simp at he, rfl, rfl, rfl⟩
  | case2 w slot it rest hcond =>
    intro h1 h2 h3 h4 h5 h6 h7
    have hmig : Timer.migrate N0 N L w slot (it :: rest)
        = (w, slot, it :: rest) := by
      simp only [Timer.migrate]
      rw [if_pos hcond]
    rw [hmig]
    refine ⟨h1, h2, h3, h4, h5, h6, h7, ?_, rfl, rfl, rfl⟩
    intro e he
    have hle := isHeap_head_le h7 he
    have := eLe_tick hle
    have h0 : (it :: rest).getD 0 (0, 0) = it := rfl
    rw [h0] at this
    omega
  | case3 w slot it rest hcond psh e hpsh ws ih =>
    intro h1 h2 h3 h4 h5 h6 h7
    have hne : (it :: rest) ≠ ([] : List HE) := by simp
    have hhnd : (heapKeys (it :: rest)).Nodup :=
      (List.nodup_append.1 (h4.nodup_iff.2 h2)).2.1
    have hdisj : ∀ k, k ∈ wheelKeys N0 N L w → k ∉ heapKeys (it :: rest) :=
      (List.nodup_append.1 (h4.nodup_iff.2 h2)).2.2
    obtain ⟨hres, hperm, hsync1, hheap1, hframe, hout⟩ :=
      heap_pop_spec N0 N L slot (it :: rest) h6 hhnd h7 hne
    rw [show ExtHeap.pop (set_index N0 N L) slot (it :: rest) = psh from rfl]
      at hres hperm hsync1 hheap1 hframe hout
    have htk : e = (it :: rest).getD 0 (0, 0) :=
      Option.some_inj.1 (hpsh.symm.trans hres)
    have htkit : e = it := by
      rw [htk]
      simp
    have htick : e.1 < max_time N0 N L := by
      rw [htkit]
      omega
    have hmax : 0 < max_time N0 N L := by omega
    have hb : (Wheel.position N0 N L w + e.1) % max_time N0 N L
        < max_time N0 N L := Nat.mod_lt _ hmax
    have hk0heap : e.2 ∈ heapKeys (it :: rest) := by
      rw [htk]
      exact getD_snd_mem_heapKeys (by simp)
    have hkeysheap : (heapKeys (it :: rest)).Perm (e.2 :: heapKeys psh.2.2) := by
      have := hperm.map Prod.snd
      rw [htk]
      exact this.symm
    have hk0h1 : e.2 ∉ heapKeys psh.2.2 := by
      have hnd2 := hkeysheap.nodup_iff.1 hhnd
      exact (List.nodup_cons.1 hnd2).1
    obtain ⟨n0, hn0, _⟩ := h6 0 (by simp)
    obtain ⟨ix1, hn1⟩ := hframe.2.2 _ _ (htk ▸ hn0)
    have hpk : Wheel.push_key N0 N L w e.2 psh.2.1 e.1 retimeout
        = (Wheel.setBucket w
            ((Wheel.position N0 N L w + e.1) % max_time N0 N L)
            (w.buckets ((Wheel.position N0 N L w + e.1) % max_time N0 N L)
              ++ [e.2]),
           psh.2.1.modify e.2 (fun n =>
            { n with el := { retimeout e.1 n.el with index :=
              (Wheel.position N0 N L w + e.1) % max_time N0 N L } })) := by
      simp only [Wheel.push_key]
    have hws1 : ws.1 = Wheel.setBucket w
        ((Wheel.position N0 N L w + e.1) % max_time N0 N L)
        (w.buckets ((Wheel.position N0 N L w + e.1) % max_time N0 N L)
          ++ [e.2]) := by
      rw [show ws = Wheel.push_key N0 N L w e.2 psh.2.1 e.1 retimeout from rfl,
        hpk]
    have hws2 : ws.2 = psh.2.1.modify e.2 (fun n =>
        { n with el := { retimeout e.1 n.el with index :=
          (Wheel.position N0 N L w + e.1) % max_time N0 N L } }) := by
      rw [show ws = Wheel.push_key N0 N L w e.2 psh.2.1 e.1 retimeout from rfl,
        hpk]
    have hkeys2 : ws.2.entries.map Prod.fst = slot.entries.map Prod.fst := by
      rw [hws2, Slot.modify_keys, hframe.2.1]
    have hnext2 : ws.2.nextKey = slot.nextKey := by
      rw [hws2, Slot.modify_nextKey, hframe.1]
    have hget2 : ∀ k', k' ≠ e.2 → k' ∉ heapKeys (it :: rest) →
        ws.2.get? k' = slot.get? k' := by
      intro k' hk1 hk2
      rw [hws2, Slot.get?_modify_ne _ _ hk1, hout k' hk2]
    -- invariants for the recursive call
    have g1 : ∀ k ∈ ws.2.entries.map Prod.fst, k < ws.2.nextKey := by
      rw [hkeys2, hnext2]
      exact h1
    have g2 : (ws.2.entries.map Prod.fst).Nodup := by
      rw [hkeys2]
      exact h2
    have g3 : ∀ b, max_time N0 N L ≤ b → ws.1.buckets b = [] := by
      intro b hbge
      rw [hws1]
      show (if b = _ then _ else w.buckets b) = []
      rw [if_neg (by omega)]
      exact h3 b hbge
    have g4 : (wheelKeys N0 N L ws.1 ++ heapKeys psh.2.2).Perm
        (ws.2.entries.map Prod.fst) := by
      rw [hkeys2]
      have hwp : (wheelKeys N0 N L ws.1).Perm
          (e.2 :: wheelKeys N0 N L w) := by
        rw [hws1]
        unfold wheelKeys Wheel.setBucket
        exact flatMap_update_perm w.buckets e.2 (max_time N0 N L) _ hb _
          (List.perm_append_singleton _ _)
      have step1 : (wheelKeys N0 N L ws.1 ++ heapKeys psh.2.2).Perm
          (e.2 :: (wheelKeys N0 N L w ++ heapKeys psh.2.2)) :=
        hwp.append_right _
      have step2 : (e.2 :: (wheelKeys N0 N L w ++ heapKeys psh.2.2)).Perm
          (wheelKeys N0 N L w ++ (e.2 :: heapKeys psh.2.2)) :=
        List.perm_middle.symm
      have step3 : (wheelKeys N0 N L w ++ (e.2 :: heapKeys psh.2.2)).Perm
          (wheelKeys N0 N L w ++ heapKeys (it :: rest)) :=
        (hkeysheap.symm).append_left _
      exact ((step1.trans step2).trans step3).trans h4
    have g5 : ∀ b, b < max_time N0 N L → ∀ k ∈ ws.1.buckets b,
        ∃ n, ws.2.get? k = some n ∧ n.el.index = b := by
      intro b hblt k hk
      rw [hws1] at hk
      have hk' : k ∈ (if b = (Wheel.position N0 N L w + e.1)
          % max_time N0 N L then _ else w.buckets b) := hk
      by_cases hbb : b = (Wheel.position N0 N L w + e.1) % max_time N0 N L
      · rw [if_pos hbb] at hk'
        rcases List.mem_append.1 hk' with hmem | hmem
        · have hkw : k ∈ wheelKeys N0 N L w :=
            mem_wheelKeys.2 ⟨b, hblt, hbb ▸ hmem⟩
          have hkne : k ≠ e.2 := by
            intro he2
            exact hdisj k hkw (he2 ▸ hk0heap)
          rw [hget2 k hkne (hdisj k hkw)]
          exact h5 b hblt k (hbb ▸ hmem)
        · have hke : k = e.2 := by simpa using hmem
          subst hke
          rw [hws2, Slot.get?_modify_self, hn1]
          exact ⟨_, rfl, hbb.symm⟩
      · rw [if_neg hbb] at hk'
        have hkw : k ∈ wheelKeys N0 N L w := mem_wheelKeys.2 ⟨b, hblt, hk'⟩
        have hkne : k ≠ e.2 := by
          intro he2
          exact hdisj k hkw (he2 ▸ hk0heap)
        rw [hget2 k hkne (hdisj k hkw)]
        exact h5 b hblt k hk'
    have g6 : InHeap N0 N L ws.2 psh.2.2 := by
      intro i hi
      have hkne : (psh.2.2.getD i (0, 0)).2 ≠ e.2 := by
        intro he2
        exact hk0h1 (he2 ▸ getD_snd_mem_heapKeys hi)
      rw [hws2, Slot.get?_modify_ne _ _ hkne]
      exact hsync1 i hi
    obtain ⟨r1, r2, r3, r4, r5, r6, r7, r8, r9, r10, r11⟩ :=
      ih g1 g2 g3 g4 g5 g6 hheap1
    have hpsh2 : (ExtHeap.pop (set_index N0 N L) slot (it :: rest)).1
        = some e := hpsh
    have hmig : Timer.migrate N0 N L w slot (it :: rest)
        = Timer.migrate N0 N L ws.1 ws.2 psh.2.2 := by
      conv_lhs => simp only [Timer.migrate]
      rw [if_neg hcond]
      simp only [hpsh2]
    rw [hmig]
    refine ⟨r1, r2, r3, r4, r5, r6, r7, r8, ?_, ?_, ?_⟩
    · rw [r9, hkeys2]
    · rw [r10, hnext2]
    · rw [r11, hws1]
      rfl
  | case4 w slot it rest hcond psh hpsh =>
    intro h1 h2 h3 h4 h5 h6 h7
    exfalso
    have hhnd : (heapKeys (it :: rest)).Nodup :=
      (List.nodup_append.1 (h4.nodup_iff.2 h2)).2.1
    obtain ⟨hres, _⟩ := heap_pop_spec N0 N L slot (it :: rest) h6 hhnd h7
      (by simp)
    rw [show ExtHeap.pop (set_index N0 N L) slot (it :: rest) = psh from rfl]
      at hres
    rw [hpsh] at hres
    exact Option.noConfusion hres
end MigrateInv

section RollInv

variable {T : Type}

theorem heapKeys_map_sub (heap : List HE) (m : Nat) :
    heapKeys (heap.map (fun e => (e.1 - m, e.2))) = heapKeys heap := by
  simp [heapKeys, List.map_map]

theorem getD_map_sub (heap : List HE) (m : Nat) (i : Nat)
    (hi : i < heap.length) :
    (heap.map (fun e => (e.1 - m, e.2))).getD i (0, 0)
      = ((heap.getD i (0, 0)).1 - m, (heap.getD i (0, 0)).2) := by
  rw [List.getD_eq_getElem _ _ (by simpa using hi),
    List.getD_eq_getElem _ _ hi]
  simp

theorem getD_mem_of_lt (heap : List HE) (i : Nat) (hi : i < heap.length) :
    heap.getD i (0, 0) ∈ heap := by
  rw [List.getD_eq_getElem _ _ hi]
  exact List.getElem_mem _

theorem eLe_sub {a b : HE} (m : Nat) (ha : m ≤ a.1) (h : eLe a b = true) :
    eLe (a.1 - m, a.2) (b.1 - m, b.2) = true := by
  simp only [eLe, decide_eq_true_eq] at h ⊢
  omega

theorem isHeap_map_sub (heap : List HE) (m : Nat) (hh : IsHeap heap)
    (hge : ∀ e ∈ heap, m ≤ e.1) :
    IsHeap (heap.map (fun e => (e.1 - m, e.2))) := by
  intro j hj0 hjl
  have hjl' : j < heap.length := by simpa using hjl
  have hpl : ExtHeap.par j < heap.length := by
    have := par_lt hj0
    omega
  rw [getD_map_sub heap m j hjl', getD_map_sub heap m _ hpl]
  exact eLe_sub m (hge _ (getD_mem_of_lt heap _ hpl)) (hh j hj0 hjl')

theorem inHeap_map_sub (N0 N L m : Nat) (slot : Slot T) (heap : List HE)
    (hs : InHeap N0 N L slot heap) :
    InHeap N0 N L slot (heap.map (fun e => (e.1 - m, e.2))) := by
  intro i hi
  have hi' : i < heap.length := by simpa using hi
  rw [getD_map_sub heap m i hi']
  exact hs i hi'

/-- `Timer::roll` preserves the global invariant. -/
theorem roll_inv (N0 N L : Nat) (s : Timer T) (h : Inv N0 N L s) :
    Inv N0 N L (Timer.roll N0 N L s) := by
  by_cases hw : (s.wheel.time + 1) % max_time N0 N L = 0
  · set w1 : Wheel := { s.wheel with time := s.wheel.time + 1 } with hw1
    set heap1 : List HE := s.heap.map (fun e => (e.1 - max_time N0 N L, e.2))
      with hh1
    have p3 : ∀ b, max_time N0 N L ≤ b → w1.buckets b = [] := h.buckets_hi
    have p4 : (wheelKeys N0 N L w1 ++ heapKeys heap1).Perm
        (s.slot.entries.map Prod.fst) := by
      rw [hh1, heapKeys_map_sub]
      exact h.cont_perm
    have p5 : ∀ b, b < max_time N0 N L → ∀ k ∈ w1.buckets b,
        ∃ n, s.slot.get? k = some n ∧ n.el.index = b := h.wheel_sync
    have p6 : InHeap N0 N L s.slot heap1 :=
      inHeap_map_sub N0 N L _ s.slot s.heap h.heap_sync
    have p7 : IsHeap heap1 :=
      isHeap_map_sub s.heap _ h.heap_heap h.heap_ge
    obtain ⟨r1, r2, r3, r4, r5, r6, r7, r8, r9, r10, r11⟩ :=
      migrate_inv N0 N L w1 s.slot heap1 h.keys_lt h.keys_nodup p3 p4 p5 p6 p7
    have hroll : Timer.roll N0 N L s = { s with
        wheel := (Timer.migrate N0 N L w1 s.slot heap1).1
        slot := (Timer.migrate N0 N L w1 s.slot heap1).2.1
        heap := (Timer.migrate N0 N L w1 s.slot heap1).2.2
        roll_count := s.roll_count + 1 } := by
      simp only [Timer.roll, Wheel.roll]
      rw [if_pos (by simp [hw])]
    rw [hroll]
    refine ⟨r1, r2, r3, r4, r5, r6, r7, r8, ?_, ?_⟩
    · show s.add_count = s.remove_count
        + (Timer.migrate N0 N L w1 s.slot heap1).2.1.entries.length
      have hlen : (Timer.migrate N0 N L w1 s.slot heap1).2.1.entries.length
          = s.slot.entries.length := by
        have := congrArg List.length r9
        simpa using this
      rw [hlen]
      exact h.count_eq
    · show (Timer.migrate N0 N L w1 s.slot heap1).1.time = s.roll_count + 1
      rw [r11]
      show s.wheel.time + 1 = s.roll_count + 1
      rw [h.time_eq]
  · have hroll : Timer.roll N0 N L s = { s with
        wheel := { s.wheel with time := s.wheel.time + 1 }
        roll_count := s.roll_count + 1 } := by
      simp only [Timer.roll, Wheel.roll]
      rw [if_neg (by simp [hw])]
    rw [hroll]
    refine ⟨h.keys_lt, h.keys_nodup, h.buckets_hi, h.cont_perm, h.wheel_sync,
      h.heap_sync, h.heap_heap, h.heap_ge, h.count_eq, ?_⟩
    show s.wheel.time + 1 = s.roll_count + 1
    rw [h.time_eq]

end RollInv

section OpInv

variable {T : Type}

theorem pop_inv (N0 N L : Nat) (s : Timer T) (now : Nat) :
    Inv N0 N L s → Inv N0 N L (Timer.pop N0 N L s now).2 := by
  induction s, now using Timer.pop.induct N0 N L with
  | case1 s now it w1 slot1 heq =>
    intro h
    have hpop : Timer.pop N0 N L s now = (some it.el, { s with
        wheel := w1
        slot := slot1
        remove_count := s.remove_count + 1 }) := by
      simp only [Timer.pop, heq]
    rw [hpop]
    cases hb : s.wheel.buckets (Wheel.position N0 N L s.wheel) with
    | nil =>
      exfalso
      have hkv := pop_kv_empty N0 N L s.wheel s.slot hb
      have hnone : Wheel.pop N0 N L s.wheel s.slot
          = (none, s.wheel, s.slot) := by
        simp only [Wheel.pop, hkv]
      rw [hnone] at heq
      simp at heq
    | cons k rest =>
      obtain ⟨n, hn, hkv, hinv⟩ := pop_step_inv N0 N L s h hb
      have hpw : Wheel.pop N0 N L s.wheel s.slot
          = (some n.el,
             Wheel.setBucket s.wheel (Wheel.position N0 N L s.wheel) rest,
             (Slot.remove s.slot k).2) := by
        simp only [Wheel.pop, hkv]
      rw [hpw] at heq
      simp only [Prod.mk.injEq] at heq
      obtain ⟨he1, he2, he3⟩ := heq
      subst he2
      subst he3
      exact hinv
  | case2 s now w0 s0 heq hlt ih =>
    intro h
    have hpop : Timer.pop N0 N L s now
        = Timer.pop N0 N L (Timer.roll N0 N L s) now := by
      conv_lhs => rw [Timer.pop.eq_def]
      simp only [heq]
      rw [if_pos hlt]
    rw [hpop]
    exact ih (roll_inv N0 N L s h)
  | case3 s now w0 s0 heq hnlt =>
    intro h
    have hpop : Timer.pop N0 N L s now = (none, s) := by
      conv_lhs => rw [Timer.pop.eq_def]
      simp only [heq]
      rw [if_neg hnlt]
    rw [hpop]
    exact h

theorem pop_kv_inv (N0 N L : Nat) (s : Timer T) (now : Nat) :
    Inv N0 N L s → Inv N0 N L (Timer.pop_kv N0 N L s now).2 := by
  induction s, now using Timer.pop_kv.induct N0 N L with
  | case1 s now kit w1 slot1 heq =>
    intro h
    have hpop : Timer.pop_kv N0 N L s now = (some (kit.1, kit.2.el), { s with
        wheel := w1
        slot := slot1
        remove_count := s.remove_count + 1 }) := by
      simp only [Timer.pop_kv, heq]
    rw [hpop]
    cases hb : s.wheel.buckets (Wheel.position N0 N L s.wheel) with
    | nil =>
      exfalso
      have hkv := pop_kv_empty N0 N L s.wheel s.slot hb
      rw [hkv] at heq
      simp at heq
    | cons k rest =>
      obtain ⟨n, hn, hkv, hinv⟩ := pop_step_inv N0 N L s h hb
      rw [hkv] at heq
      simp only [Prod.mk.injEq] at heq
      obtain ⟨he1, he2, he3⟩ := heq
      subst he2
      subst he3
      exact hinv
  | case2 s now w0 s0 heq hlt ih =>
    intro h
    have hpop : Timer.pop_kv N0 N L s now
        = Timer.pop_kv N0 N L (Timer.roll N0 N L s) now := by
      conv_lhs => rw [Timer.pop_kv.eq_def]
      simp only [heq]
      rw [if_pos hlt]
    rw [hpop]
    exact ih (roll_inv N0 N L s h)
  | case3 s now w0 s0 heq hnlt =>
    intro h
    have hpop : Timer.pop_kv N0 N L s now = (none, s) := by
      conv_lhs => rw [Timer.pop_kv.eq_def]
      simp only [heq]
      rw [if_neg hnlt]
    rw [hpop]
    exact h

theorem is_ok_inv (N0 N L : Nat) (s : Timer T) (now : Nat) :
    Inv N0 N L s → Inv N0 N L (Timer.is_ok N0 N L s now).2 := by
  induction s, now using Timer.is_ok.induct N0 N L with
  | case1 s now hcond =>
    intro h
    have hok : Timer.is_ok N0 N L s now = (true, s) := by
      rw [Timer.is_ok, if_pos hcond]
    rw [hok]
    exact h
  | case2 s now hcond hlt ih =>
    intro h
    have hok : Timer.is_ok N0 N L s now
        = Timer.is_ok N0 N L (Timer.roll N0 N L s) now := by
      rw [Timer.is_ok, if_neg hcond, if_pos hlt]
    rw [hok]
    exact ih (roll_inv N0 N L s h)
  | case3 s now hcond hnlt =>
    intro h
    have hok : Timer.is_ok N0 N L s now = (false, s) := by
      rw [Timer.is_ok, if_neg hcond, if_neg hnlt]
    rw [hok]
    exact h

theorem push_time_inv (N0 N L : Nat) (s : Timer T) (t : Nat) (el : T)
    (h : Inv N0 N L s) : Inv N0 N L (Timer.push_time N0 N L s t el).2 :=
  push_inv N0 N L s _ el h

theorem mem_heapKeys_getD {arr : List HE} {k : Nat} (h : k ∈ heapKeys arr) :
    ∃ i, i < arr.length ∧ (arr.getD i (0, 0)).2 = k := by
  rw [heapKeys] at h
  obtain ⟨e, he, hek⟩ := List.mem_map.1 h
  obtain ⟨i, hi, hie⟩ := List.getElem_of_mem he
  refine ⟨i, hi, ?_⟩
  rw [List.getD_eq_getElem _ _ hi, hie, hek]


theorem cancel_spec (N0 N L : Nat) (s : Timer T) (k : Nat)
    (h : Inv N0 N L s) :
    Inv N0 N L (Timer.cancel N0 N L s k).2 ∧
    (∀ n, s.slot.get? k = some n →
      (Timer.cancel N0 N L s k).1 = some n.el.el ∧
      (Timer.cancel N0 N L s k).2.slot.entries.map Prod.fst
        = (s.slot.entries.map Prod.fst).filter (fun x => x != k)) := by
  rcases hget : s.slot.get? k with _ | n
  · rcases hr : Slot.remove s.slot k with ⟨o, slot1⟩
    have ho : o = none := by
      have h1 := Slot.remove_fst s.slot k
      rw [hr, hget] at h1
      exact h1
    subst ho
    have hc : Timer.cancel N0 N L s k = (none, s) := by
      simp only [Timer.cancel, hr]
    rw [hc]
    refine ⟨h, ?_⟩
    intro n hn
    exact Option.noConfusion hn
  · rcases hr : Slot.remove s.slot k with ⟨o, slot1⟩
    have ho : o = some n := by
      have h1 := Slot.remove_fst s.slot k
      rw [hr, hget] at h1
      exact h1
    subst ho
    have hs1 : (Slot.remove s.slot k).2 = slot1 := congrArg Prod.snd hr
    have hkmem : k ∈ allKeys N0 N L s := (h.mem_iff k).2 (by rw [hget]; rfl)
    have hmt : max_time N0 N L = N0 + N * L := rfl
    by_cases hidx : n.el.index < N0 + N * L
    · -- wheel branch
      have hknw : k ∉ heapKeys s.heap := by
        intro hkh
        obtain ⟨i, hi, hik⟩ := mem_heapKeys_getD hkh
        obtain ⟨m, hm, hmix⟩ := h.heap_sync i hi
        rw [hik, hget] at hm
        have hmn : n = m := Option.some_inj.1 hm
        rw [← hmn] at hmix
        omega
      have hkww : k ∈ wheelKeys N0 N L s.wheel := by
        rcases List.mem_append.1 hkmem with hx | hx
        · exact hx
        · exact absurd hx hknw
      obtain ⟨b, hblt, hkb⟩ := mem_wheelKeys.1 hkww
      obtain ⟨n', hn', hix'⟩ := h.wheel_sync b hblt k hkb
      rw [hget] at hn'
      have hnn' : n = n' := Option.some_inj.1 hn'
      have hbix : b = n.el.index := by rw [← hix', ← hnn']
      have hc : Timer.cancel N0 N L s k
          = (some n.el.el, { s with
              slot := slot1
              wheel := Wheel.repair s.wheel n.el.index k
              remove_count := s.remove_count + 1 }) := by
        simp only [Timer.cancel, hr]
        rw [if_pos hidx]
      rw [hc, ← hbix, ← hs1]
      have hndb : (s.wheel.buckets b).Nodup := nodup_buckets h.wheel_nodup hblt
      have hbperm : (s.wheel.buckets b).Perm (k :: (s.wheel.buckets b).erase k) :=
        List.perm_cons_erase hkb
      have hperm_wheel : (wheelKeys N0 N L s.wheel).Perm
          (k :: wheelKeys N0 N L (Wheel.repair s.wheel b k)) := by
        unfold wheelKeys Wheel.repair Wheel.setBucket
        exact flatMap_erase_perm s.wheel.buckets k (max_time N0 N L) b hblt
          ((s.wheel.buckets b).erase k) hbperm
      have hperm_keys : (s.slot.entries.map Prod.fst).Perm
          (k :: (Slot.remove s.slot k).2.entries.map Prod.fst) := by
        rw [Slot.remove_keys s.slot k hget]
        exact filter_ne_perm _ k h.keys_nodup
          ((Slot.get?_isSome_iff_mem _ _).1 (by rw [hget]; rfl))
      have hkey_ne : ∀ b', b' < max_time N0 N L → ∀ k', k' ∈ (if b' = b
          then (s.wheel.buckets b).erase k else s.wheel.buckets b') →
          k' ≠ k := by
        intro b' hblt' k' hk' he
        subst he
        by_cases hbp : b' = b
        · rw [if_pos hbp] at hk'
          exact hndb.not_mem_erase hk'
        · rw [if_neg hbp] at hk'
          exact disjoint_buckets h.wheel_nodup hblt hblt'
            (fun e => hbp e.symm) hkb hk'
      refine ⟨⟨?_, ?_, ?_, ?_, ?_, ?_, h.heap_heap, h.heap_ge, ?_,
        h.time_eq⟩, ?_⟩
      · intro k' hk'
        rw [Slot.remove_keys s.slot k hget] at hk'
        have := List.mem_of_mem_filter hk'
        simp only [Slot.remove_nextKey]
        exact h.keys_lt k' this
      · rw [Slot.remove_keys s.slot k hget]
        exact h.keys_nodup.filter _
      · intro b' hbge
        show (if b' = b then _ else s.wheel.buckets b') = []
        rw [if_neg (by omega)]
        exact h.buckets_hi b' hbge
      · show (wheelKeys N0 N L (Wheel.repair s.wheel b k)
          ++ heapKeys s.heap).Perm _
        have hp1 : (allKeys N0 N L s).Perm
            (k :: (wheelKeys N0 N L (Wheel.repair s.wheel b k)
              ++ heapKeys s.heap)) := by
          unfold allKeys
          exact (hperm_wheel.append_right _).trans (List.Perm.refl _)
        have hp2 := (hp1.symm.trans h.cont_perm).trans hperm_keys
        exact hp2.cons_inv
      · intro b' hblt' k' hk'
        have hk'' : k' ∈ (if b' = b then (s.wheel.buckets b).erase k
            else s.wheel.buckets b') := hk'
        have hne := hkey_ne b' hblt' k' hk''
        show ∃ n', (Slot.remove s.slot k).2.get? k' = some n'
          ∧ n'.el.index = b'
        rw [Slot.get?_remove_ne s.slot hne]
        by_cases hbp : b' = b
        · rw [if_pos hbp] at hk''
          exact h.wheel_sync b' hblt' k' (by
            rw [hbp]
            exact List.mem_of_mem_erase hk'')
        · rw [if_neg hbp] at hk''
          exact h.wheel_sync b' hblt' k' hk''
      · intro i hi
        have hkh : (s.heap.getD i (0, 0)).2 ∈ heapKeys s.heap :=
          getD_snd_mem_heapKeys hi
        have hne : (s.heap.getD i (0, 0)).2 ≠ k := by
          intro he
          exact hknw (he ▸ hkh)
        show ∃ n', (Slot.remove s.slot k).2.get? _ = some n' ∧ _
        rw [Slot.get?_remove_ne s.slot hne]
        exact h.heap_sync i hi
      · show s.add_count = s.remove_count + 1
          + (Slot.remove s.slot k).2.entries.length
        have hlen := Slot.remove_length s.slot h.keys_nodup hget
        have := h.count_eq
        omega
      · intro n2 hn2
        have hn2' : n = n2 := Option.some_inj.1 hn2
        subst hn2'
        refine ⟨rfl, ?_⟩
        show (Slot.remove s.slot k).2.entries.map Prod.fst = _
        exact Slot.remove_keys s.slot k hget
    · -- heap branch
      have hkwn : k ∉ wheelKeys N0 N L s.wheel := by
        intro hkw
        obtain ⟨b, hblt, hkb⟩ := mem_wheelKeys.1 hkw
        obtain ⟨n', hn', hix'⟩ := h.wheel_sync b hblt k hkb
        rw [hget] at hn'
        have hnn' : n = n' := Option.some_inj.1 hn'
        rw [← hnn'] at hix'
        omega
      have hkh : k ∈ heapKeys s.heap :=
        (List.mem_append.1 hkmem).resolve_left hkwn
      obtain ⟨i, hi, hik⟩ := mem_heapKeys_getD hkh
      obtain ⟨m, hm, hmix⟩ := h.heap_sync i hi
      have hmn : m = n := by
        rw [hik, hget] at hm
        exact (Option.some_inj.1 hm).symm
      have hpos : n.el.index - N0 - N * L = i := by
        rw [← hmn]
        omega
      have hc : Timer.cancel N0 N L s k
          = (some n.el.el, { s with
              slot := (ExtHeap.remove (set_index N0 N L)
                slot1 s.heap (n.el.index - N0 - N * L)).2.1
              heap := (ExtHeap.remove (set_index N0 N L)
                slot1 s.heap (n.el.index - N0 - N * L)).2.2
              remove_count := s.remove_count + 1 }) := by
        simp only [Timer.cancel, hr]
        rw [if_neg hidx]
      rw [hc, hpos, ← hs1]
      have hsync' : ∀ j, j < s.heap.length → j ≠ i →
          ∃ n', (Slot.remove s.slot k).2.get? (s.heap.getD j (0, 0)).2
            = some n' ∧ n'.el.index = N0 + N * L + j := by
        intro j hj hji
        have hne : (s.heap.getD j (0, 0)).2 ≠ k := by
          rw [← hik]
          exact heapKeys_nodup_ne h.heap_nodup hj hi hji
        rw [Slot.get?_remove_ne s.slot hne]
        exact h.heap_sync j hj
      obtain ⟨hres, hperm, hsync2, hheap2, hframe, hout⟩ :=
        heap_remove_spec N0 N L (Slot.remove s.slot k).2 s.heap i hsync'
          h.heap_nodup h.heap_heap hi
      have hkeysheap : (heapKeys s.heap).Perm
          (k :: heapKeys (ExtHeap.remove (set_index N0 N L)
            (Slot.remove s.slot k).2 s.heap i).2.2) := by
        have hp := (hperm.map Prod.snd).symm
        rw [List.map_cons, hik] at hp
        exact hp
      have hperm_keys : (s.slot.entries.map Prod.fst).Perm
          (k :: (Slot.remove s.slot k).2.entries.map Prod.fst) := by
        rw [Slot.remove_keys s.slot k hget]
        exact filter_ne_perm _ k h.keys_nodup
          ((Slot.get?_isSome_iff_mem _ _).1 (by rw [hget]; rfl))
      refine ⟨⟨?_, ?_, h.buckets_hi, ?_, ?_, hsync2, hheap2, ?_, ?_,
        h.time_eq⟩, ?_⟩
      · intro k' hk'
        rw [hframe.2.1, Slot.remove_keys s.slot k hget] at hk'
        have := List.mem_of_mem_filter hk'
        rw [hframe.1]
        simp only [Slot.remove_nextKey]
        exact h.keys_lt k' this
      · rw [hframe.2.1, Slot.remove_keys s.slot k hget]
        exact h.keys_nodup.filter _
      · show (wheelKeys N0 N L s.wheel ++ heapKeys _).Perm
          ((ExtHeap.remove (set_index N0 N L)
            (Slot.remove s.slot k).2 s.heap i).2.1.entries.map Prod.fst)
        rw [hframe.2.1]
        have hp1 : (allKeys N0 N L s).Perm
            (k :: (wheelKeys N0 N L s.wheel ++ heapKeys (ExtHeap.remove
              (set_index N0 N L) (Slot.remove s.slot k).2 s.heap i).2.2)) := by
          unfold allKeys
          exact ((hkeysheap.append_left _).trans List.perm_middle)
        have hp2 := (hp1.symm.trans h.cont_perm).trans hperm_keys
        exact hp2.cons_inv
      · intro b hblt k' hk'
        have hkww : k' ∈ wheelKeys N0 N L s.wheel :=
          mem_wheelKeys.2 ⟨b, hblt, hk'⟩
        have hkne : k' ≠ k := by
          intro he
          exact hkwn (he ▸ hkww)
        have hnh : k' ∉ heapKeys s.heap := h.wh_disjoint hkww
        rw [hout k' hnh, Slot.get?_remove_ne s.slot hkne]
        exact h.wheel_sync b hblt k' hk'
      · intro e he
        have : e ∈ s.heap := hperm.mem_iff.1 (List.mem_cons_of_mem _ he)
        exact h.heap_ge e this
      · show s.add_count = s.remove_count + 1
          + (ExtHeap.remove (set_index N0 N L)
            (Slot.remove s.slot k).2 s.heap i).2.1.entries.length
        have hlen1 : (ExtHeap.remove (set_index N0 N L)
            (Slot.remove s.slot k).2 s.heap i).2.1.entries.length
            = (Slot.remove s.slot k).2.entries.length := by
          have := congrArg List.length hframe.2.1
          simpa using this
        have hlen := Slot.remove_length s.slot h.keys_nodup hget
        have := h.count_eq
        omega
      · intro n2 hn2
        have hn2' : n = n2 := Option.some_inj.1 hn2
        subst hn2'
        refine ⟨rfl, ?_⟩
        show (ExtHeap.remove (set_index N0 N L)
            (Slot.remove s.slot k).2 s.heap i).2.1.entries.map Prod.fst = _
        rw [hframe.2.1]
        exact Slot.remove_keys s.slot k hget

theorem cancel_inv (N0 N L : Nat) (s : Timer T) (k : Nat)
    (h : Inv N0 N L s) : Inv N0 N L (Timer.cancel N0 N L s k).2 :=
  (cancel_spec N0 N L s k h).1

end OpInv

/-- The states of the timer reachable from `Timer::default()` through the
public operations. -/
inductive Reachable (N0 N L : Nat) {T : Type} : Timer T → Prop where
  | init : Reachable N0 N L (Timer.init)
  | push (s : Timer T) (t : Nat) (el : T) :
      Reachable N0 N L s → Reachable N0 N L (Timer.push N0 N L s t el).2
  | push_time (s : Timer T) (t : Nat) (el : T) :
      Reachable N0 N L s → Reachable N0 N L (Timer.push_time N0 N L s t el).2
  | pop (s : Timer T) (now : Nat) :
      Reachable N0 N L s → Reachable N0 N L (Timer.pop N0 N L s now).2
  | pop_kv (s : Timer T) (now : Nat) :
      Reachable N0 N L s → Reachable N0 N L (Timer.pop_kv N0 N L s now).2
  | is_ok (s : Timer T) (now : Nat) :
      Reachable N0 N L s → Reachable N0 N L (Timer.is_ok N0 N L s now).2
  | roll (s : Timer T) :
      Reachable N0 N L s → Reachable N0 N L (Timer.roll N0 N L s)
  | cancel (s : Timer T) (k : Nat) :
      Reachable N0 N L s → Reachable N0 N L (Timer.cancel N0 N L s k).2

/-- Every reachable state satisfies the global invariant. -/
theorem reachable_inv (N0 N L : Nat) {T : Type} (s : Timer T)
    (h : Reachable N0 N L s) : Inv N0 N L s := by
  induction h with
  | init => exact init_inv N0 N L
  | push s t el _ ih => exact push_inv N0 N L s t el ih
  | push_time s t el _ ih => exact push_time_inv N0 N L s t el ih
  | pop s now _ ih => exact pop_inv N0 N L s now ih
  | pop_kv s now _ ih => exact pop_kv_inv N0 N L s now ih
  | is_ok s now _ ih => exact is_ok_inv N0 N L s now ih
  | roll s _ ih => exact roll_inv N0 N L s ih
  | cancel s k _ ih => exact cancel_inv N0 N L s k ih

section Claims

/-- The migration loop does nothing on an empty heap. -/
theorem migrate_nil (N0 N L : Nat) {T : Type} (w : Wheel) (slot : Slot T) :
    Timer.migrate N0 N L w slot ([] : List HE) = (w, slot, []) := by
  simp only [Timer.migrate]

/-- Sifting up from the root is the identity. -/
theorem siftUp_zero {T : Type} (cb : Cb T) (slot : Slot T) (arr : List HE) :
    ExtHeap.siftUp cb slot arr 0 = (slot, arr) := by
  rw [ExtHeap.siftUp]
  simp

/-- C7: in every reachable timer state, `add_count` equals `remove_count`
plus the number of entries currently resident in a wheel bucket or in the
overflow heap (the live, not yet popped or cancelled entries); since
reachability is closed under `push`, `push_time`, `pop`, `pop_kv`, `is_ok`,
`roll` and `cancel`, the accounting invariant is preserved by every
operation. -/
theorem claim_C7 (N0 N L : Nat) {T : Type} (s : Timer T)
    (h : Reachable N0 N L s) :
    s.add_count = s.remove_count + (allKeys N0 N L s).length := by
  have hinv := reachable_inv N0 N L s h
  have hlen := hinv.cont_perm.length_eq
  rw [List.length_map] at hlen
  rw [hinv.count_eq, hlen]

theorem claim_C7_witness :
    (Timer.push 1 1 1 (Timer.init (T := Nat)) 0 7).2.add_count
      = (Timer.push 1 1 1 (Timer.init (T := Nat)) 0 7).2.remove_count
        + (allKeys 1 1 1 (Timer.push 1 1 1 (Timer.init (T := Nat)) 0 7).2).length :=
  claim_C7 1 1 1 _ (Reachable.push _ 0 7 Reachable.init)

/-- C10: in every reachable state, every entry of the overflow heap carries a
tick of at least `max_time = N0 + N * L`, so the per-entry subtraction
`tick - max_time` performed by the full-epoch rebase in `Timer::roll` is
exact and never underflows. -/
theorem claim_C10 (N0 N L : Nat) {T : Type} (s : Timer T)
    (h : Reachable N0 N L s) :
    ∀ e ∈ s.heap, max_time N0 N L ≤ e.1 ∧
      e.1 - max_time N0 N L + max_time N0 N L = e.1 := by
  intro e he
  have hge := (reachable_inv N0 N L s h).heap_ge e he
  exact ⟨hge, by omega⟩

theorem claim_C10_witness :
    max_time 1 1 1 ≤ ((5, 1) : HE).1 ∧
      ((5, 1) : HE).1 - max_time 1 1 1 + max_time 1 1 1 = ((5, 1) : HE).1 := by
  have hev : (Timer.push 1 1 1 (Timer.init (T := Nat)) 5 7).2.heap
      = [(5, 1)] := by
    rw [push_eq_overflow 1 1 1 _ 5 7 (by decide)]
    show (ExtHeap.push (set_index 1 1 1) _ [] _).2 = [(5, 1)]
    simp only [ExtHeap.push, List.nil_append, List.length_nil, siftUp_zero]
    rfl
  exact claim_C10 1 1 1 _ (Reachable.push _ 5 7 Reachable.init) (5, 1)
    (by rw [hev]; exact List.mem_singleton.2 rfl)

/-- Helper shared by the location-tag and cancellation claims: `cancel` on a
live key returns the node's payload. -/
theorem cancel_live_fst (N0 N L : Nat) {T : Type} (s : Timer T) (k : Nat)
    (n : LinkedNode T) (hget : s.slot.get? k = some n) :
    (Timer.cancel N0 N L s k).1 = some n.el.el := by
  rcases hr : Slot.remove s.slot k with ⟨o, slot1⟩
  have ho : o = some n := by
    have h1 := Slot.remove_fst s.slot k
    rw [hr, hget] at h1
    exact h1
  subst ho
  by_cases hidx : n.el.index < N0 + N * L
  · simp only [Timer.cancel, hr]
    rw [if_pos hidx]
  · simp only [Timer.cancel, hr]
    rw [if_neg hidx]

/-- C8: in every reachable state, the location tag of every live node names
its current container and position: a tag below `N0 + N * L` is the index of
the wheel bucket holding the key, and a tag of at least `N0 + N * L` says
the key sits at heap array position `tag - (N0 + N * L)`; consequently
`cancel` on any live key removes exactly that entry, returning its
payload. -/
theorem claim_C8 (N0 N L : Nat) {T : Type} (s : Timer T) (k : Nat)
    (n : LinkedNode T) (h : Reachable N0 N L s)
    (hget : s.slot.get? k = some n) :
    (n.el.index < N0 + N * L →
       n.el.index < max_time N0 N L ∧ k ∈ s.wheel.buckets n.el.index) ∧
    (N0 + N * L ≤ n.el.index →
       n.el.index - (N0 + N * L) < s.heap.length ∧
       (s.heap.getD (n.el.index - (N0 + N * L)) (0, 0)).2 = k) ∧
    (Timer.cancel N0 N L s k).1 = some n.el.el := by
  have hinv := reachable_inv N0 N L s h
  have hkmem : k ∈ allKeys N0 N L s := (hinv.mem_iff k).2 (by rw [hget]; rfl)
  refine ⟨?_, ?_, cancel_live_fst N0 N L s k n hget⟩
  · intro hidx
    have hknw : k ∉ heapKeys s.heap := by
      intro hkh
      obtain ⟨i, hi, hik⟩ := mem_heapKeys_getD hkh
      obtain ⟨m, hm, hmix⟩ := hinv.heap_sync i hi
      rw [hik, hget] at hm
      have hmn : n = m := Option.some_inj.1 hm
      rw [← hmn] at hmix
      omega
    have hkww : k ∈ wheelKeys N0 N L s.wheel := by
      rcases List.mem_append.1 hkmem with hx | hx
      · exact hx
      · exact absurd hx hknw
    obtain ⟨b, hblt, hkb⟩ := mem_wheelKeys.1 hkww
    obtain ⟨n', hn', hix'⟩ := hinv.wheel_sync b hblt k hkb
    rw [hget] at hn'
    have hnn' : n = n' := Option.some_inj.1 hn'
    have hbix : b = n.el.index := by rw [← hix', ← hnn']
    rw [← hbix]
    exact ⟨hblt, hkb⟩
  · intro hidx
    have hmt : max_time N0 N L = N0 + N * L := rfl
    have hkwn : k ∉ wheelKeys N0 N L s.wheel := by
      intro hkw
      obtain ⟨b, hblt, hkb⟩ := mem_wheelKeys.1 hkw
      obtain ⟨n', hn', hix'⟩ := hinv.wheel_sync b hblt k hkb
      rw [hget] at hn'
      have hnn' : n = n' := Option.some_inj.1 hn'
      rw [← hnn'] at hix'
      omega
    have hkh : k ∈ heapKeys s.heap :=
      (List.mem_append.1 hkmem).resolve_left hkwn
    obtain ⟨i, hi, hik⟩ := mem_heapKeys_getD hkh
    obtain ⟨m, hm, hmix⟩ := hinv.heap_sync i hi
    have hmn : m = n := by
      rw [hik, hget] at hm
      exact (Option.some_inj.1 hm).symm
    rw [← hmn]
    have hpos : m.el.index - (N0 + N * L) = i := by omega
    rw [hpos]
    exact ⟨hi, hik⟩

theorem claim_C8_witness :
    ((⟨⟨0, 7, 0⟩, 0, 0⟩ : LinkedNode Nat).el.index < 1 + 1 * 1 →
       (⟨⟨0, 7, 0⟩, 0, 0⟩ : LinkedNode Nat).el.index < max_time 1 1 1 ∧
       1 ∈ (Timer.push 1 1 1 (Timer.init (T := Nat)) 0 7).2.wheel.buckets
         (⟨⟨0, 7, 0⟩, 0, 0⟩ : LinkedNode Nat).el.index) ∧
    (1 + 1 * 1 ≤ (⟨⟨0, 7, 0⟩, 0, 0⟩ : LinkedNode Nat).el.index →
       (⟨⟨0, 7, 0⟩, 0, 0⟩ : LinkedNode Nat).el.index - (1 + 1 * 1)
         < (Timer.push 1 1 1 (Timer.init (T := Nat)) 0 7).2.heap.length ∧
       ((Timer.push 1 1 1 (Timer.init (T := Nat)) 0 7).2.heap.getD
         ((⟨⟨0, 7, 0⟩, 0, 0⟩ : LinkedNode Nat).el.index - (1 + 1 * 1))
         (0, 0)).2 = 1) ∧
    (Timer.cancel 1 1 1 (Timer.push 1 1 1 (Timer.init (T := Nat)) 0 7).2 1).1
      = some (⟨⟨0, 7, 0⟩, 0, 0⟩ : LinkedNode Nat).el.el :=
  claim_C8 1 1 1 _ 1 ⟨⟨0, 7, 0⟩, 0, 0⟩
    (Reachable.push _ 0 7 Reachable.init) rfl


/-- C2 (amended): `push` increments `add_count` by one; when the wheel
reports overflow (`timeout` at least `max_time`), `push` allocates a fresh
detached arena node under key `nextKey` and pushes the pair
`((roll_count mod max_time) + timeout, key)` — the fire tick relative to the
current epoch's origin, not the absolute `roll_count + timeout` of the
original claim — into the overflow heap, and the relocate callback leaves
the node's location tag at `N0 + N * L` plus its heap position. -/
theorem claim_C2 (N0 N L : Nat) {T : Type} (s : Timer T) (t : Nat) (el : T)
    (h : Reachable N0 N L s) :
    (Timer.push N0 N L s t el).2.add_count = s.add_count + 1 ∧
    (¬ t < max_time N0 N L →
      (Timer.push N0 N L s t el).1 = s.slot.nextKey ∧
      (Timer.push N0 N L s t el).2.heap.Perm
        ((s.roll_count % max_time N0 N L + t, s.slot.nextKey) :: s.heap) ∧
      ∃ loc, loc < (Timer.push N0 N L s t el).2.heap.length ∧
        ((Timer.push N0 N L s t el).2.heap.getD loc (0, 0)).2
          = s.slot.nextKey ∧
        ∃ m, (Timer.push N0 N L s t el).2.slot.get? s.slot.nextKey = some m ∧
          m.el.el = el ∧ m.el.index = N0 + N * L + loc) := by
  have hinv := reachable_inv N0 N L s h
  constructor
  · by_cases hlt : t < max_time N0 N L
    · rw [push_eq_wheel N0 N L s t el hlt]
    · rw [push_eq_overflow N0 N L s t el hlt]
  · intro hge
    rw [push_eq_overflow N0 N L s t el hge]
    have hpos : Wheel.position N0 N L s.wheel
        = s.roll_count % max_time N0 N L := by
      show s.wheel.time % max_time N0 N L = _
      rw [hinv.time_eq]
    have hsync : InHeap N0 N L
        (s.slot.insert ⟨⟨0, el, N0 + N * L⟩, 0, 0⟩).2 s.heap := by
      intro i hi
      have hkh : (s.heap.getD i (0, 0)).2 ∈ heapKeys s.heap :=
        getD_snd_mem_heapKeys hi
      have hmem : (s.heap.getD i (0, 0)).2 ∈ allKeys N0 N L s :=
        List.mem_append.2 (Or.inr hkh)
      have hlt := hinv.keys_lt _ (hinv.cont_perm.mem_iff.1 hmem)
      rw [Slot.get?_insert_ne s.slot _ (by omega)]
      exact hinv.heap_sync i hi
    have hxs : (((s.slot.insert ⟨⟨0, el, N0 + N * L⟩, 0, 0⟩).2).get?
        s.slot.nextKey).isSome := by
      rw [Slot.get?_insert_self]
      rfl
    have hxnd : s.slot.nextKey ∉ heapKeys s.heap := by
      intro hkh
      have hmem : s.slot.nextKey ∈ allKeys N0 N L s :=
        List.mem_append.2 (Or.inr hkh)
      have := hinv.keys_lt _ (hinv.cont_perm.mem_iff.1 hmem)
      omega
    obtain ⟨hperm, hsync2, _, hframe, _⟩ :=
      heap_push_spec N0 N L (s.slot.insert ⟨⟨0, el, N0 + N * L⟩, 0, 0⟩).2
        s.heap (Wheel.position N0 N L s.wheel + t, s.slot.nextKey)
        hsync hinv.heap_nodup hinv.heap_heap hxs hxnd
    refine ⟨rfl, ?_, ?_⟩
    · show (ExtHeap.push (set_index N0 N L) _ s.heap _).2.Perm _
      rw [← hpos]
      exact hperm.trans (List.perm_append_singleton _ _)
    · have hkmem : s.slot.nextKey ∈ heapKeys
          (ExtHeap.push (set_index N0 N L)
            (s.slot.insert ⟨⟨0, el, N0 + N * L⟩, 0, 0⟩).2 s.heap
            (Wheel.position N0 N L s.wheel + t, s.slot.nextKey)).2 := by
        apply (hperm.map Prod.snd).mem_iff.2
        simp
      obtain ⟨loc, hloc, hgd⟩ := mem_heapKeys_getD hkmem
      obtain ⟨m, hm, hmix⟩ := hsync2 loc hloc
      rw [hgd] at hm
      obtain ⟨ix, hix⟩ := hframe.2.2 s.slot.nextKey _
        (Slot.get?_insert_self s.slot _)
      rw [hm] at hix
      have hmeq := Option.some_inj.1 hix
      refine ⟨loc, hloc, hgd, m, hm, ?_, hmix⟩
      rw [hmeq]

theorem claim_C2_witness :
    (Timer.push 1 1 1 (Timer.init (T := Nat)) 5 7).2.add_count
      = (Timer.init (T := Nat)).add_count + 1 ∧
    (¬ 5 < max_time 1 1 1 →
      (Timer.push 1 1 1 (Timer.init (T := Nat)) 5 7).1
        = (Timer.init (T := Nat)).slot.nextKey ∧
      (Timer.push 1 1 1 (Timer.init (T := Nat)) 5 7).2.heap.Perm
        (((Timer.init (T := Nat)).roll_count % max_time 1 1 1 + 5,
          (Timer.init (T := Nat)).slot.nextKey)
          :: (Timer.init (T := Nat)).heap) ∧
      ∃ loc, loc < (Timer.push 1 1 1 (Timer.init (T := Nat)) 5 7).2.heap.length ∧
        ((Timer.push 1 1 1 (Timer.init (T := Nat)) 5 7).2.heap.getD loc
          (0, 0)).2 = (Timer.init (T := Nat)).slot.nextKey ∧
        ∃ m, (Timer.push 1 1 1 (Timer.init (T := Nat)) 5 7).2.slot.get?
            (Timer.init (T := Nat)).slot.nextKey = some m ∧
          m.el.el = 7 ∧ m.el.index = 1 + 1 * 1 + loc) :=
  claim_C2 1 1 1 (Timer.init (T := Nat)) 5 7 Reachable.init

/-- C2 counterexample: on a `⟨1,1,1⟩` timer (`max_time = 2`), after two
rolls `roll_count = 2`; pushing timeout `3` overflows and stores heap tick
`(2 % 2) + 3 = 3`, not the absolute `roll_count + timeout = 5` the claim
names: the stored tick is relative to the current epoch's origin. -/
theorem claim_C2_counterexample :
    (Timer.push 1 1 1 (Timer.roll 1 1 1 (Timer.roll 1 1 1
      (Timer.init (T := Nat)))) 3 7).2.heap = [(3, 1)] ∧
    (Timer.roll 1 1 1 (Timer.roll 1 1 1 (Timer.init (T := Nat)))).roll_count
      + 3 = 5 := by
  have h1 : Timer.roll 1 1 1 (Timer.init (T := Nat))
      = ⟨⟨1, []⟩, ⟨1, fun _ => []⟩, [], 0, 0, 1⟩ := rfl
  have h2 : Timer.roll 1 1 1
      (⟨⟨1, []⟩, ⟨1, fun _ => []⟩, [], 0, 0, 1⟩ : Timer Nat)
      = ⟨⟨1, []⟩, ⟨2, fun _ => []⟩, [], 0, 0, 2⟩ := by
    simp only [Timer.roll, Wheel.roll, List.map_nil]
    rw [if_pos (by decide)]
    rw [migrate_nil]
  rw [h1, h2]
  refine ⟨?_, rfl⟩
  rw [push_eq_overflow 1 1 1 _ 3 7 (by decide)]
  show (ExtHeap.push (set_index 1 1 1) _ [] _).2 = [(3, 1)]
  simp only [ExtHeap.push, List.nil_append, List.length_nil, siftUp_zero]
  rfl


theorem roll_counters (N0 N L : Nat) {T : Type} (s : Timer T) :
    (Timer.roll N0 N L s).add_count = s.add_count ∧
    (Timer.roll N0 N L s).remove_count = s.remove_count := by
  simp only [Timer.roll]
  split
  · exact ⟨rfl, rfl⟩
  · exact ⟨rfl, rfl⟩

theorem pop_laziness (N0 N L : Nat) {T : Type} (s : Timer T) (now : Nat) :
    Inv N0 N L s →
    ((Timer.pop N0 N L s now).1.isSome = true →
       (Timer.pop N0 N L s now).2.remove_count = s.remove_count + 1) ∧
    ((Timer.pop N0 N L s now).1 = none →
       (Timer.pop N0 N L s now).2.remove_count = s.remove_count ∧
       (Timer.pop N0 N L s now).2.roll_count = max s.roll_count now ∧
       Wheel.is_cur_over N0 N L (Timer.pop N0 N L s now).2.wheel = true) ∧
    (Timer.pop N0 N L s now).2.roll_count ≤ max s.roll_count now ∧
    (Timer.pop N0 N L s now).2.add_count = s.add_count := by
  induction s, now using Timer.pop.induct N0 N L with
  | case1 s now it w1 slot1 heq =>
    intro h
    have hpop : Timer.pop N0 N L s now = (some it.el, { s with
        wheel := w1
        slot := slot1
        remove_count := s.remove_count + 1 }) := by
      simp only [Timer.pop, heq]
    rw [hpop]
    exact ⟨fun _ => rfl, fun hc => by simp at hc, Nat.le_max_left _ _, rfl⟩
  | case2 s now w0 s0 heq hlt ih =>
    intro h
    have hpop : Timer.pop N0 N L s now
        = Timer.pop N0 N L (Timer.roll N0 N L s) now := by
      conv_lhs => rw [Timer.pop.eq_def]
      simp only [heq]
      rw [if_pos hlt]
    rw [hpop]
    obtain ⟨ih1, ih2, ih3, ih4⟩ := ih (roll_inv N0 N L s h)
    have hrc := Timer.roll_roll_count N0 N L s
    have hcnt := roll_counters N0 N L s
    have hmax : max (Timer.roll N0 N L s).roll_count now
        = max s.roll_count now := by
      rw [hrc]
      omega
    rw [hmax] at ih3
    refine ⟨?_, ?_, ih3, ?_⟩
    · intro hs
      rw [ih1 hs, hcnt.2]
    · intro hn
      obtain ⟨a, b, cc⟩ := ih2 hn
      exact ⟨by rw [a, hcnt.2], by rw [b, hmax], cc⟩
    · rw [ih4, hcnt.1]
  | case3 s now w0 s0 heq hnlt =>
    intro h
    have hpop : Timer.pop N0 N L s now = (none, s) := by
      conv_lhs => rw [Timer.pop.eq_def]
      simp only [heq]
      rw [if_neg hnlt]
    rw [hpop]
    have hcur : Wheel.is_cur_over N0 N L s.wheel = true := by
      cases hb : s.wheel.buckets (Wheel.position N0 N L s.wheel) with
      | nil => simp [Wheel.is_cur_over, hb]
      | cons k rest =>
        exfalso
        obtain ⟨n, hn, hkv, _⟩ := pop_step_inv N0 N L s h hb
        have hpw : Wheel.pop N0 N L s.wheel s.slot
            = (some n.el,
               Wheel.setBucket s.wheel (Wheel.position N0 N L s.wheel) rest,
               (Slot.remove s.slot k).2) := by
          simp only [Wheel.pop, hkv]
        rw [hpw] at heq
        simp at heq
    refine ⟨fun hs => by simp at hs, fun _ => ⟨rfl, ?_, hcur⟩, ?_, rfl⟩
    · show s.roll_count = max s.roll_count now
      omega
    · show s.roll_count ≤ max s.roll_count now
      omega

theorem pop_kv_laziness (N0 N L : Nat) {T : Type} (s : Timer T) (now : Nat) :
    Inv N0 N L s →
    ((Timer.pop_kv N0 N L s now).1.isSome = true →
       (Timer.pop_kv N0 N L s now).2.remove_count = s.remove_count + 1) ∧
    ((Timer.pop_kv N0 N L s now).1 = none →
       (Timer.pop_kv N0 N L s now).2.remove_count = s.remove_count ∧
       (Timer.pop_kv N0 N L s now).2.roll_count = max s.roll_count now ∧
       Wheel.is_cur_over N0 N L (Timer.pop_kv N0 N L s now).2.wheel = true) ∧
    (Timer.pop_kv N0 N L s now).2.roll_count ≤ max s.roll_count now ∧
    (Timer.pop_kv N0 N L s now).2.add_count = s.add_count := by
  induction s, now using Timer.pop_kv.induct N0 N L with
  | case1 s now kit w1 slot1 heq =>
    intro h
    have hpop : Timer.pop_kv N0 N L s now = (some (kit.1, kit.2.el), { s with
        wheel := w1
        slot := slot1
        remove_count := s.remove_count + 1 }) := by
      simp only [Timer.pop_kv, heq]
    rw [hpop]
    exact ⟨fun _ => rfl, fun hc => by simp at hc, Nat.le_max_left _ _, rfl⟩
  | case2 s now w0 s0 heq hlt ih =>
    intro h
    have hpop : Timer.pop_kv N0 N L s now
        = Timer.pop_kv N0 N L (Timer.roll N0 N L s) now := by
      conv_lhs => rw [Timer.pop_kv.eq_def]
      simp only [heq]
      rw [if_pos hlt]
    rw [hpop]
    obtain ⟨ih1, ih2, ih3, ih4⟩ := ih (roll_inv N0 N L s h)
    have hrc := Timer.roll_roll_count N0 N L s
    have hcnt := roll_counters N0 N L s
    have hmax : max (Timer.roll N0 N L s).roll_count now
        = max s.roll_count now := by
      rw [hrc]
      omega
    rw [hmax] at ih3
    refine ⟨?_, ?_, ih3, ?_⟩
    · intro hs
      rw [ih1 hs, hcnt.2]
    · intro hn
      obtain ⟨a, b, cc⟩ := ih2 hn
      exact ⟨by rw [a, hcnt.2], by rw [b, hmax], cc⟩
    · rw [ih4, hcnt.1]
  | case3 s now w0 s0 heq hnlt =>
    intro h
    have hpop : Timer.pop_kv N0 N L s now = (none, s) := by
      conv_lhs => rw [Timer.pop_kv.eq_def]
      simp only [heq]
      rw [if_neg hnlt]
    rw [hpop]
    have hcur : Wheel.is_cur_over N0 N L s.wheel = true := by
      cases hb : s.wheel.buckets (Wheel.position N0 N L s.wheel) with
      | nil => simp [Wheel.is_cur_over, hb]
      | cons k rest =>
        exfalso
        obtain ⟨n, hn, hkv, _⟩ := pop_step_inv N0 N L s h hb
        rw [hkv] at heq
        simp at heq
    refine ⟨fun hs => by simp at hs, fun _ => ⟨rfl, ?_, hcur⟩, ?_, rfl⟩
    · show s.roll_count = max s.roll_count now
      omega
    · show s.roll_count ≤ max s.roll_count now
      omega

/-- C4: `pop(now)` and `pop_kv(now)` count one removal exactly when they
surface a due entry; when they return `none` the clock has been advanced
exactly to `max roll_count now` (so at least `now`, and never beyond `now`
unless it already was) with the current bucket exhausted; in every case the
clock never passes `max roll_count now` and `add_count` is untouched. -/
theorem claim_C4 (N0 N L : Nat) {T : Type} (s : Timer T) (now : Nat)
    (h : Reachable N0 N L s) :
    (((Timer.pop N0 N L s now).1.isSome = true →
       (Timer.pop N0 N L s now).2.remove_count = s.remove_count + 1) ∧
     ((Timer.pop N0 N L s now).1 = none →
       (Timer.pop N0 N L s now).2.remove_count = s.remove_count ∧
       (Timer.pop N0 N L s now).2.roll_count = max s.roll_count now ∧
       Wheel.is_cur_over N0 N L (Timer.pop N0 N L s now).2.wheel = true) ∧
     (Timer.pop N0 N L s now).2.roll_count ≤ max s.roll_count now ∧
     (Timer.pop N0 N L s now).2.add_count = s.add_count) ∧
    (((Timer.pop_kv N0 N L s now).1.isSome = true →
       (Timer.pop_kv N0 N L s now).2.remove_count = s.remove_count + 1) ∧
     ((Timer.pop_kv N0 N L s now).1 = none →
       (Timer.pop_kv N0 N L s now).2.remove_count = s.remove_count ∧
       (Timer.pop_kv N0 N L s now).2.roll_count = max s.roll_count now ∧
       Wheel.is_cur_over N0 N L (Timer.pop_kv N0 N L s now).2.wheel = true) ∧
     (Timer.pop_kv N0 N L s now).2.roll_count ≤ max s.roll_count now ∧
     (Timer.pop_kv N0 N L s now).2.add_count = s.add_count) := by
  have hinv := reachable_inv N0 N L s h
  exact ⟨pop_laziness N0 N L s now hinv, pop_kv_laziness N0 N L s now hinv⟩

theorem claim_C4_witness :
    (((Timer.pop 1 1 1 (Timer.init (T := Nat)) 0).1.isSome = true →
       (Timer.pop 1 1 1 (Timer.init (T := Nat)) 0).2.remove_count
         = (Timer.init (T := Nat)).remove_count + 1) ∧
     ((Timer.pop 1 1 1 (Timer.init (T := Nat)) 0).1 = none →
       (Timer.pop 1 1 1 (Timer.init (T := Nat)) 0).2.remove_count
         = (Timer.init (T := Nat)).remove_count ∧
       (Timer.pop 1 1 1 (Timer.init (T := Nat)) 0).2.roll_count
         = max (Timer.init (T := Nat)).roll_count 0 ∧
       Wheel.is_cur_over 1 1 1
         (Timer.pop 1 1 1 (Timer.init (T := Nat)) 0).2.wheel = true) ∧
     (Timer.pop 1 1 1 (Timer.init (T := Nat)) 0).2.roll_count
       ≤ max (Timer.init (T := Nat)).roll_count 0 ∧
     (Timer.pop 1 1 1 (Timer.init (T := Nat)) 0).2.add_count
       = (Timer.init (T := Nat)).add_count) ∧
    (((Timer.pop_kv 1 1 1 (Timer.init (T := Nat)) 0).1.isSome = true →
       (Timer.pop_kv 1 1 1 (Timer.init (T := Nat)) 0).2.remove_count
         = (Timer.init (T := Nat)).remove_count + 1) ∧
     ((Timer.pop_kv 1 1 1 (Timer.init (T := Nat)) 0).1 = none →
       (Timer.pop_kv 1 1 1 (Timer.init (T := Nat)) 0).2.remove_count
         = (Timer.init (T := Nat)).remove_count ∧
       (Timer.pop_kv 1 1 1 (Timer.init (T := Nat)) 0).2.roll_count
         = max (Timer.init (T := Nat)).roll_count 0 ∧
       Wheel.is_cur_over 1 1 1
         (Timer.pop_kv 1 1 1 (Timer.init (T := Nat)) 0).2.wheel = true) ∧
     (Timer.pop_kv 1 1 1 (Timer.init (T := Nat)) 0).2.roll_count
       ≤ max (Timer.init (T := Nat)).roll_count 0 ∧
     (Timer.pop_kv 1 1 1 (Timer.init (T := Nat)) 0).2.add_count
       = (Timer.init (T := Nat)).add_count) :=
  claim_C4 1 1 1 (Timer.init (T := Nat)) 0 Reachable.init

theorem pop_none_elim (N0 N L : Nat) {T : Type} (s : Timer T) (now : Nat) :
    (Timer.pop N0 N L s now).1 = none →
    (Wheel.pop N0 N L (Timer.pop N0 N L s now).2.wheel
      (Timer.pop N0 N L s now).2.slot).1 = none ∧
    ¬ (Timer.pop N0 N L s now).2.roll_count < now := by
  induction s, now using Timer.pop.induct N0 N L with
  | case1 s now it w1 slot1 heq =>
    intro hn
    exfalso
    have hpop : (Timer.pop N0 N L s now).1 = some it.el := by
      simp only [Timer.pop, heq]
    rw [hpop] at hn
    exact Option.noConfusion hn
  | case2 s now w0 s0 heq hlt ih =>
    intro hn
    have hpop : Timer.pop N0 N L s now
        = Timer.pop N0 N L (Timer.roll N0 N L s) now := by
      conv_lhs => rw [Timer.pop.eq_def]
      simp only [heq]
      rw [if_pos hlt]
    rw [hpop] at hn ⊢
    exact ih hn
  | case3 s now w0 s0 heq hnlt =>
    intro _
    have hpop : Timer.pop N0 N L s now = (none, s) := by
      conv_lhs => rw [Timer.pop.eq_def]
      simp only [heq]
      rw [if_neg hnlt]
    rw [hpop]
    exact ⟨congrArg Prod.fst heq, hnlt⟩

/-- C9: once `pop(now)` has returned nothing due, an immediate second call
with the same bound returns nothing due and is a no-op on the state — in
particular `roll_count`, `add_count` and `remove_count` are unchanged. -/
theorem claim_C9 (N0 N L : Nat) {T : Type} (s : Timer T) (now : Nat)
    (h : (Timer.pop N0 N L s now).1 = none) :
    Timer.pop N0 N L (Timer.pop N0 N L s now).2 now
      = (none, (Timer.pop N0 N L s now).2) := by
  obtain ⟨hW, hge⟩ := pop_none_elim N0 N L s now h
  rcases hWp : Wheel.pop N0 N L (Timer.pop N0 N L s now).2.wheel
      (Timer.pop N0 N L s now).2.slot with ⟨o, w, sl⟩
  have ho : o = none := by
    rw [hWp] at hW
    exact hW
  subst ho
  conv_lhs => rw [Timer.pop.eq_def]
  simp only [hWp]
  rw [if_neg hge]

theorem claim_C9_witness :
    (Timer.pop 1 1 1 (Timer.init (T := Nat)) 0).1 = none ∧
    Timer.pop 1 1 1 (Timer.pop 1 1 1 (Timer.init (T := Nat)) 0).2 0
      = (none, (Timer.pop 1 1 1 (Timer.init (T := Nat)) 0).2) := by
  have hev : Timer.pop 1 1 1 (Timer.init (T := Nat)) 0
      = (none, Timer.init) := by
    conv_lhs => rw [Timer.pop.eq_def]
    simp only [show Wheel.pop 1 1 1 (Timer.init (T := Nat)).wheel
        (Timer.init (T := Nat)).slot
      = (none, (Timer.init (T := Nat)).wheel, (Timer.init (T := Nat)).slot)
      from rfl]
    rw [if_neg (by omega)]
  exact ⟨by rw [hev], claim_C9 1 1 1 (Timer.init (T := Nat)) 0 (by rw [hev])⟩


theorem cancel_dead (N0 N L : Nat) {T : Type} (s : Timer T) (k : Nat)
    (hget : s.slot.get? k = none) : Timer.cancel N0 N L s k = (none, s) := by
  rcases hr : Slot.remove s.slot k with ⟨o, slot1⟩
  have ho : o = none := by
    have h1 := Slot.remove_fst s.slot k
    rw [hr, hget] at h1
    exact h1
  subst ho
  simp only [Timer.cancel, hr]

/-- C6: in a reachable state, `cancel` on a live key returns the payload and
removes the entry — afterwards the key is dead in the arena and absent from
every container, so no subsequent `pop` can surface that entry — and a
second `cancel` of the same key, like any `cancel` of an unknown, fired or
already-cancelled key, returns none and leaves the state untouched. -/
theorem claim_C6 (N0 N L : Nat) {T : Type} (s : Timer T) (k : Nat)
    (h : Reachable N0 N L s) :
    (∀ n, s.slot.get? k = some n →
       (Timer.cancel N0 N L s k).1 = some n.el.el ∧
       (Timer.cancel N0 N L s k).2.slot.get? k = none ∧
       k ∉ allKeys N0 N L (Timer.cancel N0 N L s k).2 ∧
       Timer.cancel N0 N L (Timer.cancel N0 N L s k).2 k
         = (none, (Timer.cancel N0 N L s k).2)) ∧
    (s.slot.get? k = none → Timer.cancel N0 N L s k = (none, s)) := by
  have hinv := reachable_inv N0 N L s h
  obtain ⟨hinv2, hlive⟩ := cancel_spec N0 N L s k hinv
  refine ⟨?_, cancel_dead N0 N L s k⟩
  intro n hget
  obtain ⟨hfst, hkeys⟩ := hlive n hget
  have hknotin : k ∉ (Timer.cancel N0 N L s k).2.slot.entries.map Prod.fst := by
    rw [hkeys]
    intro hk
    have := List.of_mem_filter hk
    simp at this
  have hgnone : (Timer.cancel N0 N L s k).2.slot.get? k = none := by
    by_contra hne
    have hsome := Option.ne_none_iff_isSome.1 hne
    exact hknotin ((Slot.get?_isSome_iff_mem _ _).1 hsome)
  refine ⟨hfst, hgnone, ?_, cancel_dead N0 N L _ k hgnone⟩
  intro hkall
  exact hknotin (hinv2.cont_perm.mem_iff.1 hkall)

theorem claim_C6_witness :
    (∀ n, (Timer.push 1 1 1 (Timer.init (T := Nat)) 0 7).2.slot.get? 1
        = some n →
       (Timer.cancel 1 1 1 (Timer.push 1 1 1 (Timer.init (T := Nat)) 0 7).2
         1).1 = some n.el.el ∧
       (Timer.cancel 1 1 1 (Timer.push 1 1 1 (Timer.init (T := Nat)) 0 7).2
         1).2.slot.get? 1 = none ∧
       1 ∉ allKeys 1 1 1
         (Timer.cancel 1 1 1
           (Timer.push 1 1 1 (Timer.init (T := Nat)) 0 7).2 1).2 ∧
       Timer.cancel 1 1 1
           (Timer.cancel 1 1 1
             (Timer.push 1 1 1 (Timer.init (T := Nat)) 0 7).2 1).2 1
         = (none,
            (Timer.cancel 1 1 1
              (Timer.push 1 1 1 (Timer.init (T := Nat)) 0 7).2 1).2)) ∧
    ((Timer.push 1 1 1 (Timer.init (T := Nat)) 0 7).2.slot.get? 1 = none →
       Timer.cancel 1 1 1 (Timer.push 1 1 1 (Timer.init (T := Nat)) 0 7).2 1
         = (none, (Timer.push 1 1 1 (Timer.init (T := Nat)) 0 7).2)) :=
  claim_C6 1 1 1 _ 1 (Reachable.push _ 0 7 Reachable.init)

theorem is_ok_pop (N0 N L : Nat) {T : Type} (s : Timer T) (now : Nat) :
    Inv N0 N L s →
    ((Timer.is_ok N0 N L s now).1 = true
       ↔ (Timer.pop N0 N L s now).1.isSome = true) ∧
    (Timer.is_ok N0 N L s now).2.roll_count
      = (Timer.pop N0 N L s now).2.roll_count ∧
    (Timer.is_ok N0 N L s now).2.roll_count ≤ max s.roll_count now ∧
    ((Timer.is_ok N0 N L s now).1 = false →
       (Timer.is_ok N0 N L s now).2.roll_count = max s.roll_count now) ∧
    (Timer.is_ok N0 N L s now).2.add_count = s.add_count ∧
    (Timer.is_ok N0 N L s now).2.remove_count = s.remove_count := by
  induction s, now using Timer.is_ok.induct N0 N L with
  | case1 s now hcond =>
    intro h
    have hok : Timer.is_ok N0 N L s now = (true, s) := by
      rw [Timer.is_ok, if_pos hcond]
    cases hb : s.wheel.buckets (Wheel.position N0 N L s.wheel) with
    | nil => exact absurd (by simp [Wheel.is_cur_over, hb]) hcond
    | cons k rest =>
      obtain ⟨n, hn, hkv, _⟩ := pop_step_inv N0 N L s h hb
      have hpw : Wheel.pop N0 N L s.wheel s.slot
          = (some n.el,
             Wheel.setBucket s.wheel (Wheel.position N0 N L s.wheel) rest,
             (Slot.remove s.slot k).2) := by
        simp only [Wheel.pop, hkv]
      have hpop : Timer.pop N0 N L s now
          = (some n.el.el, { s with
              wheel := Wheel.setBucket s.wheel
                (Wheel.position N0 N L s.wheel) rest
              slot := (Slot.remove s.slot k).2
              remove_count := s.remove_count + 1 }) := by
        conv_lhs => rw [Timer.pop.eq_def]
        simp only [hpw]
      rw [hok, hpop]
      refine ⟨by simp, rfl, Nat.le_max_left _ _, ?_, rfl, rfl⟩
      intro hx
      simp at hx
  | case2 s now hcond hlt ih =>
    intro h
    have hcur : Wheel.is_cur_over N0 N L s.wheel = true := by
      by_contra hx
      exact hcond hx
    have hb : s.wheel.buckets (Wheel.position N0 N L s.wheel) = [] := by
      simpa [Wheel.is_cur_over, List.isEmpty_iff] using hcur
    have hkv := pop_kv_empty N0 N L s.wheel s.slot hb
    have hpw : Wheel.pop N0 N L s.wheel s.slot = (none, s.wheel, s.slot) := by
      simp only [Wheel.pop, hkv]
    have hok : Timer.is_ok N0 N L s now
        = Timer.is_ok N0 N L (Timer.roll N0 N L s) now := by
      rw [Timer.is_ok, if_neg hcond, if_pos hlt]
    have hpop : Timer.pop N0 N L s now
        = Timer.pop N0 N L (Timer.roll N0 N L s) now := by
      conv_lhs => rw [Timer.pop.eq_def]
      simp only [hpw]
      rw [if_pos hlt]
    rw [hok, hpop]
    obtain ⟨i1, i2, i3, i4, i5, i6⟩ := ih (roll_inv N0 N L s h)
    have hrc := Timer.roll_roll_count N0 N L s
    have hcnt := roll_counters N0 N L s
    have hmax : max (Timer.roll N0 N L s).roll_count now
        = max s.roll_count now := by
      rw [hrc]
      omega
    rw [hmax] at i3 i4
    exact ⟨i1, i2, i3, i4, by rw [i5, hcnt.1], by rw [i6, hcnt.2]⟩
  | case3 s now hcond hnlt =>
    intro h
    have hcur : Wheel.is_cur_over N0 N L s.wheel = true := by
      by_contra hx
      exact hcond hx
    have hb : s.wheel.buckets (Wheel.position N0 N L s.wheel) = [] := by
      simpa [Wheel.is_cur_over, List.isEmpty_iff] using hcur
    have hkv := pop_kv_empty N0 N L s.wheel s.slot hb
    have hpw : Wheel.pop N0 N L s.wheel s.slot = (none, s.wheel, s.slot) := by
      simp only [Wheel.pop, hkv]
    have hok : Timer.is_ok N0 N L s now = (false, s) := by
      rw [Timer.is_ok, if_neg hcond, if_neg hnlt]
    have hpop : Timer.pop N0 N L s now = (none, s) := by
      conv_lhs => rw [Timer.pop.eq_def]
      simp only [hpw]
      rw [if_neg hnlt]
    rw [hok, hpop]
    refine ⟨by simp, rfl, ?_, fun _ => ?_, rfl, rfl⟩
    · show s.roll_count ≤ max s.roll_count now
      omega
    · show s.roll_count = max s.roll_count now
      omega

/-- C5: in a reachable state, `is_ok(now)` answers true exactly when
`pop(now)` would surface a due entry, and it mutates the clock exactly as
`pop` does: the resulting `roll_count` is the one `pop(now)` would leave,
never passing `max roll_count now` and equalling it when the answer is
false; the arena counters are untouched. It is not a pure query. -/
theorem claim_C5 (N0 N L : Nat) {T : Type} (s : Timer T) (now : Nat)
    (h : Reachable N0 N L s) :
    ((Timer.is_ok N0 N L s now).1 = true
       ↔ (Timer.pop N0 N L s now).1.isSome = true) ∧
    (Timer.is_ok N0 N L s now).2.roll_count
      = (Timer.pop N0 N L s now).2.roll_count ∧
    (Timer.is_ok N0 N L s now).2.roll_count ≤ max s.roll_count now ∧
    ((Timer.is_ok N0 N L s now).1 = false →
       (Timer.is_ok N0 N L s now).2.roll_count = max s.roll_count now) ∧
    (Timer.is_ok N0 N L s now).2.add_count = s.add_count ∧
    (Timer.is_ok N0 N L s now).2.remove_count = s.remove_count :=
  is_ok_pop N0 N L s now (reachable_inv N0 N L s h)

theorem claim_C5_witness :
    ((Timer.is_ok 1 1 1 (Timer.init (T := Nat)) 0).1 = true
       ↔ (Timer.pop 1 1 1 (Timer.init (T := Nat)) 0).1.isSome = true) ∧
    (Timer.is_ok 1 1 1 (Timer.init (T := Nat)) 0).2.roll_count
      = (Timer.pop 1 1 1 (Timer.init (T := Nat)) 0).2.roll_count ∧
    (Timer.is_ok 1 1 1 (Timer.init (T := Nat)) 0).2.roll_count
      ≤ max (Timer.init (T := Nat)).roll_count 0 ∧
    ((Timer.is_ok 1 1 1 (Timer.init (T := Nat)) 0).1 = false →
       (Timer.is_ok 1 1 1 (Timer.init (T := Nat)) 0).2.roll_count
         = max (Timer.init (T := Nat)).roll_count 0) ∧
    (Timer.is_ok 1 1 1 (Timer.init (T := Nat)) 0).2.add_count
      = (Timer.init (T := Nat)).add_count ∧
    (Timer.is_ok 1 1 1 (Timer.init (T := Nat)) 0).2.remove_count
      = (Timer.init (T := Nat)).remove_count :=
  claim_C5 1 1 1 (Timer.init (T := Nat)) 0 Reachable.init


/-- C3: every `roll` increments `roll_count` by exactly one; exactly when
the wheel clock wraps a full epoch (`(time + 1) mod max_time = 0`) the
result is obtained by subtracting `max_time` from every heap tick and
running the migration loop (which repeatedly pops the heap minimum into the
wheel via `push_key` while it is below `max_time`); afterwards every
remaining heap tick is at least `max_time` and no entry is lost or created;
without a wrap only the clock advances. -/
theorem claim_C3 (N0 N L : Nat) {T : Type} (s : Timer T)
    (h : Reachable N0 N L s) :
    (Timer.roll N0 N L s).roll_count = s.roll_count + 1 ∧
    ((s.wheel.time + 1) % max_time N0 N L = 0 →
       Timer.roll N0 N L s = { s with
         wheel := (Timer.migrate N0 N L
           { s.wheel with time := s.wheel.time + 1 } s.slot
           (s.heap.map (fun e => (e.1 - max_time N0 N L, e.2)))).1
         slot := (Timer.migrate N0 N L
           { s.wheel with time := s.wheel.time + 1 } s.slot
           (s.heap.map (fun e => (e.1 - max_time N0 N L, e.2)))).2.1
         heap := (Timer.migrate N0 N L
           { s.wheel with time := s.wheel.time + 1 } s.slot
           (s.heap.map (fun e => (e.1 - max_time N0 N L, e.2)))).2.2
         roll_count := s.roll_count + 1 } ∧
       (∀ e ∈ (Timer.roll N0 N L s).heap, max_time N0 N L ≤ e.1) ∧
       (allKeys N0 N L (Timer.roll N0 N L s)).Perm (allKeys N0 N L s)) ∧
    ((s.wheel.time + 1) % max_time N0 N L ≠ 0 →
       Timer.roll N0 N L s = { s with
         wheel := { s.wheel with time := s.wheel.time + 1 }
         roll_count := s.roll_count + 1 }) := by
  have hinv := reachable_inv N0 N L s h
  refine ⟨Timer.roll_roll_count N0 N L s, ?_, ?_⟩
  · intro hw
    set w1 : Wheel := { s.wheel with time := s.wheel.time + 1 } with hw1
    set heap1 : List HE := s.heap.map (fun e => (e.1 - max_time N0 N L, e.2))
      with hh1
    have p3 : ∀ b, max_time N0 N L ≤ b → w1.buckets b = [] := hinv.buckets_hi
    have p4 : (wheelKeys N0 N L w1 ++ heapKeys heap1).Perm
        (s.slot.entries.map Prod.fst) := by
      rw [hh1, heapKeys_map_sub]
      exact hinv.cont_perm
    have p5 : ∀ b, b < max_time N0 N L → ∀ k ∈ w1.buckets b,
        ∃ n, s.slot.get? k = some n ∧ n.el.index = b := hinv.wheel_sync
    have p6 : InHeap N0 N L s.slot heap1 :=
      inHeap_map_sub N0 N L _ s.slot s.heap hinv.heap_sync
    have p7 : IsHeap heap1 :=
      isHeap_map_sub s.heap _ hinv.heap_heap hinv.heap_ge
    obtain ⟨r1, r2, r3, r4, r5, r6, r7, r8, r9, r10, r11⟩ :=
      migrate_inv N0 N L w1 s.slot heap1 hinv.keys_lt hinv.keys_nodup p3 p4
        p5 p6 p7
    have hroll : Timer.roll N0 N L s = { s with
        wheel := (Timer.migrate N0 N L w1 s.slot heap1).1
        slot := (Timer.migrate N0 N L w1 s.slot heap1).2.1
        heap := (Timer.migrate N0 N L w1 s.slot heap1).2.2
        roll_count := s.roll_count + 1 } := by
      simp only [Timer.roll, Wheel.roll]
      rw [if_pos (by simp [hw])]
    refine ⟨hroll, ?_, ?_⟩
    · rw [hroll]
      exact r8
    · rw [hroll]
      show (wheelKeys N0 N L (Timer.migrate N0 N L w1 s.slot heap1).1
        ++ heapKeys (Timer.migrate N0 N L w1 s.slot heap1).2.2).Perm _
      have hperm1 := r4
      rw [r9] at hperm1
      exact hperm1.trans hinv.cont_perm.symm
  · intro hw
    simp only [Timer.roll, Wheel.roll]
    rw [if_neg (by simp [hw])]

theorem claim_C3_witness :
    (Timer.roll 1 1 1 (Timer.init (T := Nat))).roll_count
      = (Timer.init (T := Nat)).roll_count + 1 ∧
    (((Timer.init (T := Nat)).wheel.time + 1) % max_time 1 1 1 = 0 →
       Timer.roll 1 1 1 (Timer.init (T := Nat))
         = { Timer.init (T := Nat) with
         wheel := (Timer.migrate 1 1 1
           { (Timer.init (T := Nat)).wheel with
             time := (Timer.init (T := Nat)).wheel.time + 1 }
           (Timer.init (T := Nat)).slot
           ((Timer.init (T := Nat)).heap.map
             (fun e => (e.1 - max_time 1 1 1, e.2)))).1
         slot := (Timer.migrate 1 1 1
           { (Timer.init (T := Nat)).wheel with
             time := (Timer.init (T := Nat)).wheel.time + 1 }
           (Timer.init (T := Nat)).slot
           ((Timer.init (T := Nat)).heap.map
             (fun e => (e.1 - max_time 1 1 1, e.2)))).2.1
         heap := (Timer.migrate 1 1 1
           { (Timer.init (T := Nat)).wheel with
             time := (Timer.init (T := Nat)).wheel.time + 1 }
           (Timer.init (T := Nat)).slot
           ((Timer.init (T := Nat)).heap.map
             (fun e => (e.1 - max_time 1 1 1, e.2)))).2.2
         roll_count := (Timer.init (T := Nat)).roll_count + 1 } ∧
       (∀ e ∈ (Timer.roll 1 1 1 (Timer.init (T := Nat))).heap,
         max_time 1 1 1 ≤ e.1) ∧
       (allKeys 1 1 1 (Timer.roll 1 1 1 (Timer.init (T := Nat)))).Perm
         (allKeys 1 1 1 (Timer.init (T := Nat)))) ∧
    (((Timer.init (T := Nat)).wheel.time + 1) % max_time 1 1 1 ≠ 0 →
       Timer.roll 1 1 1 (Timer.init (T := Nat))
         = { Timer.init (T := Nat) with
         wheel := { (Timer.init (T := Nat)).wheel with
           time := (Timer.init (T := Nat)).wheel.time + 1 }
         roll_count := (Timer.init (T := Nat)).roll_count + 1 }) :=
  claim_C3 1 1 1 (Timer.init (T := Nat)) Reachable.init


theorem mod_succ_eq (m n : Nat) (hm : 0 < m) :
    (n + 1) % m = if n % m + 1 = m then 0 else n % m + 1 := by
  have h1 : (n + 1) % m = (n % m + 1) % m := by
    conv_lhs => rw [← Nat.mod_add_div n m]
    rw [Nat.add_assoc, Nat.add_comm (m * (n / m)) 1, ← Nat.add_assoc]
    exact Nat.add_mul_mod_self_left _ m _
  have h2 : n % m < m := Nat.mod_lt _ hm
  by_cases hx : n % m + 1 = m
  · rw [h1, hx, Nat.mod_self, if_pos rfl]
  · rw [h1, Nat.mod_eq_of_lt (by omega), if_neg hx]

/-- The state of a timer holding exactly one pending entry: key 1, payload
`v`, absolute due tick `t`.  Writing `D` for
`roll_count % max_time + (t - roll_count)` (the due tick seen from the
wheel's current position), the entry sits in wheel bucket `D` when
`D < max_time` and in the heap with epoch-relative tick `D` otherwise. -/
def Lone (N0 N L : Nat) {T : Type} (v : T) (t : Nat) (s : Timer T) : Prop :=
  s.add_count = 1 ∧
  s.remove_count = 0 ∧
  s.wheel.time = s.roll_count ∧
  s.roll_count ≤ t ∧
  s.slot.nextKey = 2 ∧
  (s.roll_count % max_time N0 N L + (t - s.roll_count) < max_time N0 N L →
     s.heap = [] ∧
     (∃ kk p q, s.slot.entries = [(1, ⟨⟨kk, v,
        s.roll_count % max_time N0 N L + (t - s.roll_count)⟩, p, q⟩)]) ∧
     s.wheel.buckets (s.roll_count % max_time N0 N L + (t - s.roll_count))
       = [1] ∧
     (∀ b, b ≠ s.roll_count % max_time N0 N L + (t - s.roll_count) →
       s.wheel.buckets b = [])) ∧
  (max_time N0 N L ≤ s.roll_count % max_time N0 N L + (t - s.roll_count) →
     s.heap = [(s.roll_count % max_time N0 N L + (t - s.roll_count), 1)] ∧
     (∃ kk p q, s.slot.entries = [(1, ⟨⟨kk, v, N0 + N * L⟩, p, q⟩)]) ∧
     (∀ b, s.wheel.buckets b = []))

/-- Transfer of `Lone` along a pure clock advance: containers and arena
unchanged, the clock moved without changing the wheel-relative due tick. -/
theorem lone_clock (N0 N L : Nat) {T : Type} (v : T) (t : Nat)
    (s s2 : Timer T) (h : Lone N0 N L v t s)
    (hslot : s2.slot = s.slot) (hheap : s2.heap = s.heap)
    (hbuckets : s2.wheel.buckets = s.wheel.buckets)
    (hadd : s2.add_count = s.add_count)
    (hrem : s2.remove_count = s.remove_count)
    (htime : s2.wheel.time = s2.roll_count)
    (hrc : s2.roll_count ≤ t)
    (hDeq : s2.roll_count % max_time N0 N L + (t - s2.roll_count)
       = s.roll_count % max_time N0 N L + (t - s.roll_count)) :
    Lone N0 N L v t s2 := by
  obtain ⟨h1, h2, h3, h4, h5, h6, h7⟩ := h
  refine ⟨by rw [hadd, h1], by rw [hrem, h2], htime, hrc,
    by rw [hslot, h5], ?_, ?_⟩
  · rw [hDeq, hheap, hslot, hbuckets]
    exact h6
  · rw [hDeq, hheap, hslot, hbuckets]
    exact h7

/-- The migration loop on a single in-range entry hands it to `push_key`. -/
theorem migrate_single_low (N0 N L : Nat) {T : Type} (w : Wheel)
    (slot : Slot T) (tk k : Nat) (h : tk < max_time N0 N L) :
    Timer.migrate N0 N L w slot [(tk, k)]
      = ((Wheel.push_key N0 N L w k slot tk retimeout).1,
         (Wheel.push_key N0 N L w k slot tk retimeout).2, []) := by
  have hpop1 : (ExtHeap.pop (set_index N0 N L) slot [(tk, k)]).1
      = some (tk, k) := rfl
  have hpop21 : (ExtHeap.pop (set_index N0 N L) slot [(tk, k)]).2.1
      = slot := rfl
  have hpop22 : (ExtHeap.pop (set_index N0 N L) slot [(tk, k)]).2.2
      = [] := rfl
  simp only [Timer.migrate]
  rw [if_neg (by omega)]
  simp only [hpop1, hpop21, hpop22]
  rw [migrate_nil]

/-- The migration loop stops at once on a single out-of-range entry. -/
theorem migrate_single_high (N0 N L : Nat) {T : Type} (w : Wheel)
    (slot : Slot T) (tk k : Nat) (h : max_time N0 N L ≤ tk) :
    Timer.migrate N0 N L w slot [(tk, k)] = (w, slot, [(tk, k)]) := by
  simp only [Timer.migrate]
  rw [if_pos h]

/-- `push(t, v)` on the fresh timer establishes the single-entry state. -/
theorem lone_push (N0 N L : Nat) {T : Type} (v : T) (t : Nat)
    (hmax : 0 < max_time N0 N L) :
    Lone N0 N L v t (Timer.push N0 N L (Timer.init (T := T)) t v).2 := by
  by_cases hlt : t < max_time N0 N L
  · rw [push_eq_wheel N0 N L Timer.init t v hlt]
    have hBD : (Wheel.position N0 N L (Timer.init (T := T)).wheel + t)
        % max_time N0 N L = (0 : Nat) % max_time N0 N L + (t - 0) := by
      show ((0 : Nat) % max_time N0 N L + t) % max_time N0 N L = _
      simp [Nat.mod_eq_of_lt hlt]
    refine ⟨rfl, rfl, rfl, Nat.zero_le t, rfl, ?_, ?_⟩
    · intro _
      refine ⟨rfl, ⟨t, 0, 0, ?_⟩, ?_, ?_⟩
      · show [(1, (⟨⟨t, v, (Wheel.position N0 N L (Timer.init (T := T)).wheel
            + t) % max_time N0 N L⟩, 0, 0⟩ : LinkedNode T))]
          = [(1, ⟨⟨t, v, (0 : Nat) % max_time N0 N L + (t - 0)⟩, 0, 0⟩)]
        rw [hBD]
      · show (if (0 : Nat) % max_time N0 N L + (t - 0)
            = (Wheel.position N0 N L (Timer.init (T := T)).wheel + t)
              % max_time N0 N L
          then (Timer.init (T := T)).wheel.buckets
            ((Wheel.position N0 N L (Timer.init (T := T)).wheel + t)
              % max_time N0 N L) ++ [1]
          else (Timer.init (T := T)).wheel.buckets
            ((0 : Nat) % max_time N0 N L + (t - 0))) = [1]
        rw [if_pos hBD.symm]
        rfl
      · intro b hbne
        show (if b = (Wheel.position N0 N L (Timer.init (T := T)).wheel + t)
              % max_time N0 N L
          then (Timer.init (T := T)).wheel.buckets
            ((Wheel.position N0 N L (Timer.init (T := T)).wheel + t)
              % max_time N0 N L) ++ [1]
          else (Timer.init (T := T)).wheel.buckets b) = []
        rw [if_neg (fun hx => hbne (hx.trans hBD))]
        rfl
    · intro hc
      exfalso
      have hc2 : max_time N0 N L ≤ (0 : Nat) % max_time N0 N L + (t - 0) := hc
      rw [Nat.zero_mod, Nat.zero_add, Nat.sub_zero] at hc2
      omega
  · rw [push_eq_overflow N0 N L Timer.init t v hlt]
    have hpush : ExtHeap.push (set_index N0 N L)
        ((Timer.init (T := T)).slot.insert ⟨⟨0, v, N0 + N * L⟩, 0, 0⟩).2
        (Timer.init (T := T)).heap
        (Wheel.position N0 N L (Timer.init (T := T)).wheel + t,
         (Timer.init (T := T)).slot.nextKey)
        = (⟨2, [(1, ⟨⟨0, v, N0 + N * L⟩, 0, 0⟩)]⟩,
           [(0 % max_time N0 N L + t, 1)]) := by
      simp only [Timer.init, ExtHeap.push, List.nil_append, List.length_nil,
        siftUp_zero]
      rfl
    rw [hpush]
    refine ⟨rfl, rfl, rfl, Nat.zero_le t, rfl, ?_, ?_⟩
    · intro hc
      exfalso
      have hc2 : (0 : Nat) % max_time N0 N L + (t - 0)
          < max_time N0 N L := hc
      rw [Nat.zero_mod, Nat.zero_add, Nat.sub_zero] at hc2
      omega
    · intro _
      refine ⟨?_, ⟨0, 0, 0, rfl⟩, fun b => rfl⟩
      show [((0 : Nat) % max_time N0 N L + t, 1)]
        = [((0 : Nat) % max_time N0 N L + (t - 0), 1)]
      rw [Nat.sub_zero]

/-- `roll` preserves the single-entry state while the clock stays at or
before the due tick. -/
theorem lone_roll (N0 N L : Nat) {T : Type} (v : T) (t : Nat) (s : Timer T)
    (hmax : 0 < max_time N0 N L) (h : Lone N0 N L v t s)
    (hstep : s.roll_count + 1 ≤ t) :
    Lone N0 N L v t (Timer.roll N0 N L s) := by
  obtain ⟨hadd, hrem, htime, hle, hnext, hwheelC, hheapC⟩ := h
  have hmod : s.roll_count % max_time N0 N L < max_time N0 N L :=
    Nat.mod_lt _ hmax
  have hms := mod_succ_eq (max_time N0 N L) s.roll_count hmax
  by_cases hwrap : (s.wheel.time + 1) % max_time N0 N L = 0
  · -- wrap
    have hwrapR : (s.roll_count + 1) % max_time N0 N L = 0 := by
      rw [← htime]
      exact hwrap
    have hwrap2 : s.roll_count % max_time N0 N L + 1 = max_time N0 N L := by
      by_contra hx
      have h4 : (s.roll_count + 1) % max_time N0 N L
          = s.roll_count % max_time N0 N L + 1 := by
        rw [hms, if_neg hx]
      omega
    have hD : max_time N0 N L
        ≤ s.roll_count % max_time N0 N L + (t - s.roll_count) := by omega
    obtain ⟨hh, ⟨kk, p, q, hent⟩, hbuck⟩ := hheapC hD
    have hmap : s.heap.map (fun e => (e.1 - max_time N0 N L, e.2))
        = [(s.roll_count % max_time N0 N L + (t - s.roll_count)
            - max_time N0 N L, 1)] := by
      rw [hh]
      rfl
    have hd2 : s.roll_count % max_time N0 N L + (t - s.roll_count)
        - max_time N0 N L = t - (s.roll_count + 1) := by omega
    have hroll : Timer.roll N0 N L s = { s with
        wheel := (Timer.migrate N0 N L
          { s.wheel with time := s.wheel.time + 1 } s.slot
          [(t - (s.roll_count + 1), 1)]).1
        slot := (Timer.migrate N0 N L
          { s.wheel with time := s.wheel.time + 1 } s.slot
          [(t - (s.roll_count + 1), 1)]).2.1
        heap := (Timer.migrate N0 N L
          { s.wheel with time := s.wheel.time + 1 } s.slot
          [(t - (s.roll_count + 1), 1)]).2.2
        roll_count := s.roll_count + 1 } := by
      simp only [Timer.roll, Wheel.roll]
      rw [if_pos (by simp [hwrap])]
      rw [hmap, hd2]
    have hposw1 : Wheel.position N0 N L
        { s.wheel with time := s.wheel.time + 1 } = 0 := by
      show (s.wheel.time + 1) % max_time N0 N L = 0
      exact hwrap
    by_cases hlow : t - (s.roll_count + 1) < max_time N0 N L
    · -- migrates into the wheel
      have hb : (Wheel.position N0 N L
            { s.wheel with time := s.wheel.time + 1 }
          + (t - (s.roll_count + 1))) % max_time N0 N L
          = t - (s.roll_count + 1) := by
        rw [hposw1, Nat.zero_add, Nat.mod_eq_of_lt hlow]
      have hmig := migrate_single_low N0 N L
        { s.wheel with time := s.wheel.time + 1 } s.slot
        (t - (s.roll_count + 1)) 1 hlow
      have hpk : Wheel.push_key N0 N L
          { s.wheel with time := s.wheel.time + 1 } 1 s.slot
          (t - (s.roll_count + 1)) retimeout
          = (Wheel.setBucket { s.wheel with time := s.wheel.time + 1 }
              (t - (s.roll_count + 1))
              (s.wheel.buckets (t - (s.roll_count + 1)) ++ [1]),
             s.slot.modify 1 (fun n =>
               { n with el := { retimeout (t - (s.roll_count + 1)) n.el with
                 index := t - (s.roll_count + 1) } })) := by
        simp only [Wheel.push_key]
        rw [hb]
      have hD2 : (s.roll_count + 1) % max_time N0 N L
          + (t - (s.roll_count + 1)) = t - (s.roll_count + 1) := by
        rw [hwrapR]
        omega
      rw [hroll, hmig, hpk]
      refine ⟨hadd, hrem, ?_, hstep, ?_, ?_, ?_⟩
      · show s.wheel.time + 1 = s.roll_count + 1
        rw [htime]
      · show (s.slot.modify 1 _).nextKey = 2
        rw [Slot.modify_nextKey, hnext]
      · intro _
        refine ⟨rfl, ⟨t - (s.roll_count + 1), p, q, ?_⟩, ?_, ?_⟩
        · show (s.slot.modify 1 (fun n =>
              { n with el := { retimeout (t - (s.roll_count + 1)) n.el with
                index := t - (s.roll_count + 1) } })).entries
            = [(1, ⟨⟨t - (s.roll_count + 1), v,
               (s.roll_count + 1) % max_time N0 N L
                 + (t - (s.roll_count + 1))⟩, p, q⟩)]
          rw [hD2]
          simp only [Slot.modify]
          rw [hent]
          simp [retimeout]
        · show (if (s.roll_count + 1) % max_time N0 N L
              + (t - (s.roll_count + 1)) = t - (s.roll_count + 1)
            then s.wheel.buckets (t - (s.roll_count + 1)) ++ [1]
            else s.wheel.buckets ((s.roll_count + 1) % max_time N0 N L
              + (t - (s.roll_count + 1)))) = [1]
          rw [if_pos hD2, hbuck]
          rfl
        · intro b hbne
          show (if b = t - (s.roll_count + 1)
            then s.wheel.buckets (t - (s.roll_count + 1)) ++ [1]
            else s.wheel.buckets b) = []
          rw [if_neg (fun hx => hbne (by rw [hD2]; exact hx)), hbuck]
      · intro hc
        exfalso
        have hc2 : max_time N0 N L ≤ (s.roll_count + 1) % max_time N0 N L
            + (t - (s.roll_count + 1)) := hc
        rw [hwrapR] at hc2
        omega
    · -- stays in the heap
      have hhigh : max_time N0 N L ≤ t - (s.roll_count + 1) := by omega
      have hmig := migrate_single_high N0 N L
        { s.wheel with time := s.wheel.time + 1 } s.slot
        (t - (s.roll_count + 1)) 1 hhigh
      have hD2 : (s.roll_count + 1) % max_time N0 N L
          + (t - (s.roll_count + 1)) = t - (s.roll_count + 1) := by
        rw [hwrapR]
        omega
      rw [hroll, hmig]
      refine ⟨hadd, hrem, ?_, hstep, hnext, ?_, ?_⟩
      · show s.wheel.time + 1 = s.roll_count + 1
        rw [htime]
      · intro hc
        exfalso
        have hc2 : (s.roll_count + 1) % max_time N0 N L
            + (t - (s.roll_count + 1)) < max_time N0 N L := hc
        rw [hwrapR] at hc2
        omega
      · intro _
        refine ⟨?_, ⟨kk, p, q, hent⟩, fun b => hbuck b⟩
        show [(t - (s.roll_count + 1), 1)] = _
        rw [hD2]
  · -- no wrap
    have hne : ¬ s.roll_count % max_time N0 N L + 1 = max_time N0 N L := by
      intro hx
      apply hwrap
      rw [htime, hms, if_pos hx]
    have hsucc : (s.roll_count + 1) % max_time N0 N L
        = s.roll_count % max_time N0 N L + 1 := by
      rw [hms, if_neg hne]
    have hroll : Timer.roll N0 N L s = { s with
        wheel := { s.wheel with time := s.wheel.time + 1 }
        roll_count := s.roll_count + 1 } := by
      simp only [Timer.roll, Wheel.roll]
      rw [if_neg (by simp [hwrap])]
    rw [hroll]
    refine lone_clock N0 N L v t s _
      ⟨hadd, hrem, htime, hle, hnext, hwheelC, hheapC⟩
      rfl rfl rfl rfl rfl ?_ hstep ?_
    · show s.wheel.time + 1 = s.roll_count + 1
      rw [htime]
    · show (s.roll_count + 1) % max_time N0 N L + (t - (s.roll_count + 1)) = _
      rw [hsucc]
      omega

/-- Before the due tick the current bucket is empty: `Wheel::pop` yields
nothing. -/
theorem lone_wheel_pop_none (N0 N L : Nat) {T : Type} (v : T) (t : Nat)
    (s : Timer T) (hmax : 0 < max_time N0 N L) (h : Lone N0 N L v t s)
    (hrc : s.roll_count < t) :
    Wheel.pop N0 N L s.wheel s.slot = (none, s.wheel, s.slot) := by
  obtain ⟨_, _, htime, hle, _, hwheelC, hheapC⟩ := h
  have hpos : Wheel.position N0 N L s.wheel
      = s.roll_count % max_time N0 N L := by
    show s.wheel.time % _ = _
    rw [htime]
  have hbempty : s.wheel.buckets (Wheel.position N0 N L s.wheel) = [] := by
    rw [hpos]
    by_cases hD : s.roll_count % max_time N0 N L + (t - s.roll_count)
        < max_time N0 N L
    · obtain ⟨_, _, _, hothers⟩ := hwheelC hD
      exact hothers _ (by omega)
    · obtain ⟨_, _, hall⟩ := hheapC (by omega)
      exact hall _
  have hkv := pop_kv_empty N0 N L s.wheel s.slot hbempty
  simp only [Wheel.pop, hkv]

/-- At the due tick the entry sits alone in the current bucket: `Wheel::pop`
returns it and empties the structure. -/
theorem lone_wheel_pop_fire (N0 N L : Nat) {T : Type} (v : T) (t : Nat)
    (s : Timer T) (hmax : 0 < max_time N0 N L) (h : Lone N0 N L v t s)
    (hrc : s.roll_count = t) :
    ∃ kk p q,
      s.slot.entries
        = [(1, ⟨⟨kk, v, s.roll_count % max_time N0 N L⟩, p, q⟩)] ∧
      Wheel.pop N0 N L s.wheel s.slot
        = (some ⟨kk, v, s.roll_count % max_time N0 N L⟩,
           Wheel.setBucket s.wheel (Wheel.position N0 N L s.wheel) [],
           (s.slot.remove 1).2) ∧
      (s.slot.remove 1).2.entries = [] ∧
      s.heap = [] ∧
      (∀ b, b ≠ Wheel.position N0 N L s.wheel → s.wheel.buckets b = []) := by
  obtain ⟨_, _, htime, hle, hnext, hwheelC, hheapC⟩ := h
  have hmod : s.roll_count % max_time N0 N L < max_time N0 N L :=
    Nat.mod_lt _ hmax
  have hDlt : s.roll_count % max_time N0 N L + (t - s.roll_count)
      < max_time N0 N L := by omega
  have hDfix : s.roll_count % max_time N0 N L + (t - s.roll_count)
      = s.roll_count % max_time N0 N L := by omega
  obtain ⟨hh, ⟨kk, p, q, hent⟩, hb1, hothers⟩ := hwheelC hDlt
  rw [hDfix] at hent hb1 hothers
  have hpos : Wheel.position N0 N L s.wheel
      = s.roll_count % max_time N0 N L := by
    show s.wheel.time % _ = _
    rw [htime]
  have hget : s.slot.get? 1
      = some ⟨⟨kk, v, s.roll_count % max_time N0 N L⟩, p, q⟩ := by
    simp [Slot.get?, hent]
  have hkv : Wheel.pop_kv N0 N L s.wheel s.slot
      = (some (1, ⟨kk, v, s.roll_count % max_time N0 N L⟩),
         Wheel.setBucket s.wheel (Wheel.position N0 N L s.wheel) [],
         (s.slot.remove 1).2) := by
    simp only [Wheel.pop_kv]
    rw [hpos, hb1]
    simp only [hget]
  have hrm : (s.slot.remove 1).2.entries = [] := by
    simp [Slot.remove, hget, hent]
  refine ⟨kk, p, q, hent, ?_, hrm, hh, ?_⟩
  · simp only [Wheel.pop, hkv]
  · intro b hb
    apply hothers
    rw [← hpos]
    exact hb

/-- A timer with empty buckets and empty heap. -/
def Empt {T : Type} (s : Timer T) : Prop :=
  (∀ b, s.wheel.buckets b = []) ∧ s.heap = []

theorem empt_roll (N0 N L : Nat) {T : Type} (s : Timer T) (h : Empt s) :
    Empt (Timer.roll N0 N L s) := by
  obtain ⟨hb, hh⟩ := h
  by_cases hwrap : (s.wheel.time + 1) % max_time N0 N L = 0
  · have hroll : Timer.roll N0 N L s = { s with
        wheel := { s.wheel with time := s.wheel.time + 1 }
        heap := []
        roll_count := s.roll_count + 1 } := by
      simp only [Timer.roll, Wheel.roll]
      rw [if_pos (by simp [hwrap])]
      rw [hh]
      simp only [List.map_nil]
      rw [migrate_nil]
    rw [hroll]
    exact ⟨fun b => hb b, rfl⟩
  · have hroll : Timer.roll N0 N L s = { s with
        wheel := { s.wheel with time := s.wheel.time + 1 }
        roll_count := s.roll_count + 1 } := by
      simp only [Timer.roll, Wheel.roll]
      rw [if_neg (by simp [hwrap])]
    rw [hroll]
    exact ⟨fun b => hb b, hh⟩

theorem empt_pop (N0 N L : Nat) {T : Type} (s : Timer T) (now : Nat) :
    Empt s →
    (Timer.pop N0 N L s now).1 = none ∧ Empt (Timer.pop N0 N L s now).2 := by
  induction s, now using Timer.pop.induct N0 N L with
  | case1 s now it w1 slot1 heq =>
    intro h
    exfalso
    have hkv := pop_kv_empty N0 N L s.wheel s.slot (h.1 _)
    have hpw : Wheel.pop N0 N L s.wheel s.slot = (none, s.wheel, s.slot) := by
      simp only [Wheel.pop, hkv]
    rw [hpw] at heq
    simp at heq
  | case2 s now w0 s0 heq hlt ih =>
    intro h
    have hpop : Timer.pop N0 N L s now
        = Timer.pop N0 N L (Timer.roll N0 N L s) now := by
      conv_lhs => rw [Timer.pop.eq_def]
      simp only [heq]
      rw [if_pos hlt]
    rw [hpop]
    exact ih (empt_roll N0 N L s h)
  | case3 s now w0 s0 heq hnlt =>
    intro h
    have hpop : Timer.pop N0 N L s now = (none, s) := by
      conv_lhs => rw [Timer.pop.eq_def]
      simp only [heq]
      rw [if_neg hnlt]
    rw [hpop]
    exact ⟨rfl, h⟩

/-- Popping with a bound strictly below the due tick surfaces nothing and
keeps the single-entry state, advancing the clock lazily. -/
theorem lone_pop_none (N0 N L : Nat) {T : Type} (v : T) (t : Nat)
    (s : Timer T) (now : Nat) (hmax : 0 < max_time N0 N L) :
    Lone N0 N L v t s → s.roll_count < t → now < t →
    (Timer.pop N0 N L s now).1 = none ∧
    Lone N0 N L v t (Timer.pop N0 N L s now).2 ∧
    (Timer.pop N0 N L s now).2.roll_count = max s.roll_count now := by
  induction s, now using Timer.pop.induct N0 N L with
  | case1 s now it w1 slot1 heq =>
    intro h hrc hnow
    exfalso
    rw [lone_wheel_pop_none N0 N L v t s hmax h hrc] at heq
    simp at heq
  | case2 s now w0 s0 heq hlt ih =>
    intro h hrc hnow
    have hpop : Timer.pop N0 N L s now
        = Timer.pop N0 N L (Timer.roll N0 N L s) now := by
      conv_lhs => rw [Timer.pop.eq_def]
      simp only [heq]
      rw [if_pos hlt]
    rw [hpop]
    have hlone := lone_roll N0 N L v t s hmax h (by omega)
    have hrc2 : (Timer.roll N0 N L s).roll_count < t := by
      rw [Timer.roll_roll_count]
      omega
    obtain ⟨a, b, cc⟩ := ih hlone hrc2 hnow
    refine ⟨a, b, ?_⟩
    rw [cc, Timer.roll_roll_count]
    omega
  | case3 s now w0 s0 heq hnlt =>
    intro h hrc hnow
    have hpop : Timer.pop N0 N L s now = (none, s) := by
      conv_lhs => rw [Timer.pop.eq_def]
      simp only [heq]
      rw [if_neg hnlt]
    rw [hpop]
    refine ⟨rfl, h, ?_⟩
    show s.roll_count = max s.roll_count now
    omega

/-- Popping with a bound at or past the due tick surfaces the payload and
leaves an empty timer. -/
theorem lone_fire (N0 N L : Nat) {T : Type} (v : T) (t : Nat)
    (s : Timer T) (now : Nat) (hmax : 0 < max_time N0 N L) :
    Lone N0 N L v t s → t ≤ now →
    (Timer.pop N0 N L s now).1 = some v ∧
    Empt (Timer.pop N0 N L s now).2 := by
  induction s, now using Timer.pop.induct N0 N L with
  | case1 s now it w1 slot1 heq =>
    intro h hnow
    rcases Nat.lt_or_ge s.roll_count t with hlt | hge
    · exfalso
      rw [lone_wheel_pop_none N0 N L v t s hmax h hlt] at heq
      simp at heq
    · have hrc : s.roll_count = t := by
        obtain ⟨_, _, _, hle, _, _, _⟩ := h
        omega
      obtain ⟨kk, p, q, hent, hpw, hrm, hh, hothers⟩ :=
        lone_wheel_pop_fire N0 N L v t s hmax h hrc
      have hpop : Timer.pop N0 N L s now = (some it.el, { s with
          wheel := w1
          slot := slot1
          remove_count := s.remove_count + 1 }) := by
        simp only [Timer.pop, heq]
      rw [hpop]
      rw [hpw] at heq
      simp only [Prod.mk.injEq] at heq
      obtain ⟨he1, he2, he3⟩ := heq
      subst he2
      subst he3
      have hit : it = ⟨kk, v, s.roll_count % max_time N0 N L⟩ :=
        (Option.some_inj.1 he1).symm
      refine ⟨by rw [hit], ⟨?_, hh⟩⟩
      intro b
      show (if b = Wheel.position N0 N L s.wheel then []
        else s.wheel.buckets b) = []
      by_cases hbp : b = Wheel.position N0 N L s.wheel
      · rw [if_pos hbp]
      · rw [if_neg hbp]
        exact hothers b hbp
  | case2 s now w0 s0 heq hlt ih =>
    intro h hnow
    have hrc : s.roll_count < t := by
      rcases Nat.lt_or_ge s.roll_count t with hlt2 | hge
      · exact hlt2
      · exfalso
        have hrceq : s.roll_count = t := by
          obtain ⟨_, _, _, hle, _, _, _⟩ := h
          omega
        obtain ⟨kk, p, q, _, hpw, _, _, _⟩ :=
          lone_wheel_pop_fire N0 N L v t s hmax h hrceq
        rw [hpw] at heq
        simp at heq
    have hpop : Timer.pop N0 N L s now
        = Timer.pop N0 N L (Timer.roll N0 N L s) now := by
      conv_lhs => rw [Timer.pop.eq_def]
      simp only [heq]
      rw [if_pos hlt]
    rw [hpop]
    exact ih (lone_roll N0 N L v t s hmax h (by omega)) hnow
  | case3 s now w0 s0 heq hnlt =>
    intro h hnow
    exfalso
    have hrceq : s.roll_count = t := by
      obtain ⟨_, _, _, hle, _, _, _⟩ := h
      omega
    obtain ⟨kk, p, q, _, hpw, _, _, _⟩ :=
      lone_wheel_pop_fire N0 N L v t s hmax h hrceq
    rw [hpw] at heq
    simp at heq

/-- The states reachable from a start state while advancing the clock
towards the due tick `t`: bare rolls that keep the clock strictly before
`t`, and pop calls whose bound is below `t`. -/
inductive EarlyReach (N0 N L t : Nat) {T : Type} : Timer T → Timer T → Prop
  | refl (s : Timer T) : EarlyReach N0 N L t s s
  | roll (s s2 : Timer T) : EarlyReach N0 N L t s s2 →
      s2.roll_count + 1 < t → EarlyReach N0 N L t s (Timer.roll N0 N L s2)
  | pop (s s2 : Timer T) (now : Nat) : EarlyReach N0 N L t s s2 →
      now < t → EarlyReach N0 N L t s (Timer.pop N0 N L s2 now).2

theorem earlyreach_lone (N0 N L : Nat) {T : Type} (v : T) (t : Nat)
    (hmax : 0 < max_time N0 N L) (s : Timer T)
    (hr : EarlyReach N0 N L t ((Timer.push N0 N L Timer.init t v).2) s) :
    Lone N0 N L v t s ∧ (s.roll_count < t ∨ t = 0) := by
  induction hr with
  | refl =>
    refine ⟨lone_push N0 N L v t hmax, ?_⟩
    have hrc0 : (Timer.push N0 N L (Timer.init (T := T)) t v).2.roll_count
        = 0 := by
      by_cases hlt : t < max_time N0 N L
      · rw [push_eq_wheel N0 N L Timer.init t v hlt]
        rfl
      · rw [push_eq_overflow N0 N L Timer.init t v hlt]
        rfl
    rw [hrc0]
    omega
  | roll s2 h hlt ih =>
    obtain ⟨hl, hrc⟩ := ih
    refine ⟨lone_roll N0 N L v t s2 hmax hl (by omega), Or.inl ?_⟩
    rw [Timer.roll_roll_count]
    omega
  | pop s2 now h hnow ih =>
    obtain ⟨hl, hrc⟩ := ih
    have hrclt : s2.roll_count < t := by
      rcases hrc with h1 | h1
      · exact h1
      · omega
    obtain ⟨_, hl2, hrc2⟩ := lone_pop_none N0 N L v t s2 now hmax hl hrclt hnow
    refine ⟨hl2, Or.inl ?_⟩
    rw [hrc2]
    omega

/-- C1: after `push(t, v)` on a fresh timer, along any sequence of rolls and
pops that keeps the clock strictly before tick `t`, every pop whose bound is
below `t` returns nothing; the first pop whose bound reaches `t` returns `v`
(advancing the clock to `t` itself), and after it every further pop — with
any bound — returns nothing: `v` is surfaced exactly once and never before
its due tick. -/
theorem claim_C1 (N0 N L : Nat) {T : Type} (v : T) (t : Nat)
    (hmax : 0 < max_time N0 N L) (s : Timer T)
    (hr : EarlyReach N0 N L t ((Timer.push N0 N L Timer.init t v).2) s) :
    (∀ now, now < t → (Timer.pop N0 N L s now).1 = none) ∧
    (∀ now, t ≤ now →
       (Timer.pop N0 N L s now).1 = some v ∧
       (∀ now2, (Timer.pop N0 N L (Timer.pop N0 N L s now).2 now2).1
         = none)) := by
  obtain ⟨hl, hrc⟩ := earlyreach_lone N0 N L v t hmax s hr
  constructor
  · intro now hnow
    have hrclt : s.roll_count < t := by
      rcases hrc with h1 | h1
      · exact h1
      · omega
    exact (lone_pop_none N0 N L v t s now hmax hl hrclt hnow).1
  · intro now hnow
    obtain ⟨hfire, hempt⟩ := lone_fire N0 N L v t s now hmax hl hnow
    exact ⟨hfire, fun now2 => (empt_pop N0 N L _ now2 hempt).1⟩

theorem claim_C1_witness :
    (∀ now, now < 0 →
       (Timer.pop 1 1 1 (Timer.push 1 1 1 (Timer.init (T := Nat)) 0 7).2
         now).1 = none) ∧
    (∀ now, 0 ≤ now →
       (Timer.pop 1 1 1 (Timer.push 1 1 1 (Timer.init (T := Nat)) 0 7).2
         now).1 = some 7 ∧
       (∀ now2, (Timer.pop 1 1 1
         (Timer.pop 1 1 1 (Timer.push 1 1 1 (Timer.init (T := Nat)) 0 7).2
           now).2 now2).1 = none)) :=
  claim_C1 1 1 1 7 0 (by decide) _ (EarlyReach.refl _)

end Claims

end PiCancelTimer
